import Mathlib

/-!
Verification of the voxel lighting core of the Voxxel engine:
the dense per-chunk RGB light store (`Lightmap`), the BFS flood-fill
propagator over a transparency grid (`propagate`), the column-based sky
seeder, and the spec-described opacity-scalar variants (propagation with
per-voxel opacity cost and the siphon-and-refill removal engine), which
the repository tests but whose implementation file is not part of the
sources; those are modelled from the specification.

Machine integers (`u8`, `u32`) are modelled as naturals; `saturating_sub`
on `u8` is truncated subtraction on naturals, `saturating_add` is
addition capped at 255.
-/

namespace Voxxel

/-- An RGB light value, one natural per 8-bit channel
(source type `[u8; 3]`). -/
structure RGB where
  r : ℕ
  g : ℕ
  b : ℕ
deriving DecidableEq, Repr

/-- The all-zero light value `[0, 0, 0]`. -/
def RGB.black : RGB := ⟨0, 0, 0⟩

/-- Channel selector: channel 0 is `r`, 1 is `g`, every other index is `b`. -/
def RGB.channel (c : RGB) : ℕ → ℕ
  | 0 => c.r
  | 1 => c.g
  | _ => c.b

/-- Per-channel maximum, the merge operation of the propagator. -/
def RGB.maxc (c d : RGB) : RGB := ⟨max c.r d.r, max c.g d.g, max c.b d.b⟩

/-- Per-channel `saturating_sub` by a scalar (each channel is
`channel.saturating_sub a`; on naturals this is truncated subtraction). -/
def RGB.sub (c : RGB) (a : ℕ) : RGB := ⟨c.r - a, c.g - a, c.b - a⟩

/-- Per-channel order: `c ≤ d` in every channel. -/
def RGB.Le (c d : RGB) : Prop := c.r ≤ d.r ∧ c.g ≤ d.g ∧ c.b ≤ d.b

instance (c d : RGB) : Decidable (RGB.Le c d) := by
  unfold RGB.Le; infer_instance

/-- The strict-improvement test of the propagator
(source: `attenuated[0] > neighbor[0] || attenuated[1] > neighbor[1] || ...`). -/
def RGB.anyGt (c d : RGB) : Bool :=
  decide (d.r < c.r) || decide (d.g < c.g) || decide (d.b < c.b)

/-- Channel sum, used for the termination measure. -/
def RGB.sum (c : RGB) : ℕ := c.r + c.g + c.b

theorem RGB.Le.refl (c : RGB) : RGB.Le c c := ⟨le_refl _, le_refl _, le_refl _⟩

theorem RGB.Le.trans {c d e : RGB} (h1 : RGB.Le c d) (h2 : RGB.Le d e) :
    RGB.Le c e :=
  ⟨h1.1.trans h2.1, h1.2.1.trans h2.2.1, h1.2.2.trans h2.2.2⟩

theorem RGB.black_le (c : RGB) : RGB.Le RGB.black c := by
  refine ⟨?_, ?_, ?_⟩ <;> simp [RGB.black]

theorem RGB.le_maxc_left (c d : RGB) : RGB.Le c (RGB.maxc c d) :=
  ⟨le_max_left _ _, le_max_left _ _, le_max_left _ _⟩

theorem RGB.le_maxc_right (c d : RGB) : RGB.Le d (RGB.maxc c d) :=
  ⟨le_max_right _ _, le_max_right _ _, le_max_right _ _⟩

theorem RGB.maxc_le {c d e : RGB} (h1 : RGB.Le c e) (h2 : RGB.Le d e) :
    RGB.Le (RGB.maxc c d) e :=
  ⟨max_le h1.1 h2.1, max_le h1.2.1 h2.2.1, max_le h1.2.2 h2.2.2⟩

theorem RGB.sub_le_sub {c d : RGB} (a : ℕ) (h : RGB.Le c d) :
    RGB.Le (RGB.sub c a) (RGB.sub d a) :=
  ⟨Nat.sub_le_sub_right h.1 a, Nat.sub_le_sub_right h.2.1 a,
   Nat.sub_le_sub_right h.2.2 a⟩

theorem RGB.anyGt_false_iff (c d : RGB) : RGB.anyGt c d = false ↔ RGB.Le c d := by
  simp [RGB.anyGt, RGB.Le, not_lt, and_assoc]

/-- When no channel strictly improves, merging changes nothing. -/
theorem RGB.maxc_eq_of_le {c d : RGB} (h : RGB.Le d c) : RGB.maxc c d = c := by
  cases c; cases d
  obtain ⟨h1, h2, h3⟩ := h
  simp_all [RGB.maxc, Nat.max_eq_left]

theorem RGB.channel_maxc (c d : RGB) (i : ℕ) :
    (RGB.maxc c d).channel i = max (c.channel i) (d.channel i) := by
  match i with
  | 0 => rfl
  | 1 => rfl
  | n + 2 => rfl

theorem RGB.channel_sub (c : RGB) (a i : ℕ) :
    (RGB.sub c a).channel i = c.channel i - a := by
  match i with
  | 0 => rfl
  | 1 => rfl
  | n + 2 => rfl

theorem RGB.le_iff_channel (c d : RGB) :
    RGB.Le c d ↔ ∀ i, c.channel i ≤ d.channel i := by
  constructor
  · rintro ⟨h1, h2, h3⟩ i
    match i with
    | 0 => exact h1
    | 1 => exact h2
    | n + 2 => exact h3
  · intro h
    exact ⟨h 0, h 1, h 2⟩

theorem RGB.eq_iff_channel (c d : RGB) :
    c = d ↔ ∀ i, c.channel i = d.channel i := by
  constructor
  · rintro rfl i; rfl
  · intro h
    cases c; cases d
    have h0 := h 0; have h1 := h 1; have h2 := h 2
    simp [RGB.channel] at h0 h1 h2
    simp [h0, h1, h2]

/-- A point light source placed at a voxel position
(source struct `LightSource` in `lightmap.rs`: `u32` coordinates and an
RGB color). -/
structure LightSource where
  x : ℕ
  y : ℕ
  z : ℕ
  color : RGB

/-- CPU-side 3D light data for a chunk, RGB per voxel
(source struct `Lightmap`, whose `data` is a `Vec<[u8; 3]>`). -/
structure Lightmap where
  width : ℕ
  height : ℕ
  depth : ℕ
  data : List RGB
deriving DecidableEq

/-- `Lightmap::new`: a lightmap of the given dimensions whose backing
vector holds `width * height * depth` black voxels. -/
def Lightmap.new (w h d : ℕ) : Lightmap :=
  ⟨w, h, d, List.replicate (w * h * d) RGB.black⟩

/-- `Lightmap::index`: the row-major linear index
`x + y * width + z * width * height`. -/
def Lightmap.index (lm : Lightmap) (x y z : ℕ) : ℕ :=
  x + y * lm.width + z * lm.width * lm.height

/-- `Lightmap::get`: `self.data[self.index(x, y, z)]`. Rust `Vec`
indexing panics when the linear index is outside the backing vector;
the panic is modelled as `none`. -/
def Lightmap.get (lm : Lightmap) (x y z : ℕ) : Option RGB :=
  lm.data[lm.index x y z]?

/-- `Lightmap::set`: `self.data[self.index(x, y, z)] = color`. The
out-of-vector panic is modelled as `none`. -/
def Lightmap.set (lm : Lightmap) (x y z : ℕ) (c : RGB) : Option Lightmap :=
  if lm.index x y z < lm.data.length then
    some { lm with data := lm.data.set (lm.index x y z) c }
  else
    none

/-- The value `get` yields at call sites where the coordinate has been
bounds-checked (all accesses inside the propagator are): the backing
vector entry at the linear index, defaulting to black. -/
def Lightmap.getv (lm : Lightmap) (x y z : ℕ) : RGB :=
  lm.data.getD (lm.index x y z) RGB.black

/-- The lightmap `set` produces at bounds-checked call sites. -/
def Lightmap.setv (lm : Lightmap) (x y z : ℕ) (c : RGB) : Lightmap :=
  { lm with data := lm.data.set (lm.index x y z) c }

/-- `Lightmap::clear`: resets every voxel to black. -/
def Lightmap.clear (lm : Lightmap) : Lightmap :=
  { lm with data := List.replicate lm.data.length RGB.black }

/-- The three bytes of one voxel, in the store's native channel order. -/
def RGB.bytes (c : RGB) : List ℕ := [c.r, c.g, c.b]

/-- `Lightmap::as_bytes`: the backing vector of `[u8; 3]` entries
reinterpreted as a flat byte sequence (`from_raw_parts` over a
padding-free element type concatenates the triples in storage order). -/
def Lightmap.as_bytes (lm : Lightmap) : List ℕ :=
  (lm.data.map RGB.bytes).flatten

/-- The backing vector has exactly one entry per voxel of the region. -/
def Lightmap.Wf (lm : Lightmap) : Prop :=
  lm.data.length = lm.width * lm.height * lm.depth

/-- Coordinate-wise bounds of a lightmap. -/
def Lightmap.InBounds (lm : Lightmap) (x y z : ℕ) : Prop :=
  x < lm.width ∧ y < lm.height ∧ z < lm.depth

instance (lm : Lightmap) (x y z : ℕ) : Decidable (lm.InBounds x y z) := by
  unfold Lightmap.InBounds; infer_instance

theorem Lightmap.new_wf (w h d : ℕ) : (Lightmap.new w h d).Wf := by
  simp [Lightmap.new, Lightmap.Wf]

/-- In-bounds coordinates have linear index inside the region size. -/
theorem Lightmap.index_lt (lm : Lightmap) {x y z : ℕ}
    (hb : lm.InBounds x y z) :
    lm.index x y z < lm.width * lm.height * lm.depth := by
  obtain ⟨hx, hy, hz⟩ := hb
  have hyz : y + z * lm.height < lm.height * lm.depth := by
    calc y + z * lm.height < lm.height + z * lm.height := by omega
    _ = (z + 1) * lm.height := by ring
    _ ≤ lm.depth * lm.height := Nat.mul_le_mul_right _ (by omega)
    _ = lm.height * lm.depth := Nat.mul_comm _ _
  calc lm.index x y z = x + (y + z * lm.height) * lm.width := by
        unfold Lightmap.index; ring
  _ < lm.width + (y + z * lm.height) * lm.width := by omega
  _ = ((y + z * lm.height) + 1) * lm.width := by ring
  _ ≤ (lm.height * lm.depth) * lm.width := Nat.mul_le_mul_right _ (by omega)
  _ = lm.width * lm.height * lm.depth := by ring

/-- Base-`w` digit uniqueness: `x + A * w` determines `x < w` and `A`. -/
theorem digit_unique {w x x' A B : ℕ} (hx : x < w) (hx' : x' < w)
    (h : x + A * w = x' + B * w) : x = x' ∧ A = B := by
  have hxx : x = x' := by
    have h1 : (x + A * w) % w = x := by
      rw [Nat.add_mul_mod_self_right, Nat.mod_eq_of_lt hx]
    have h2 : (x' + B * w) % w = x' := by
      rw [Nat.add_mul_mod_self_right, Nat.mod_eq_of_lt hx']
    rw [h, h2] at h1
    exact h1.symm
  subst hxx
  have hw : 0 < w := Nat.lt_of_le_of_lt (Nat.zero_le x) hx
  have hAB : A * w = B * w := by omega
  exact ⟨rfl, Nat.eq_of_mul_eq_mul_right hw hAB⟩

/-- Row-major indexing is injective on in-bounds coordinates. -/
theorem Lightmap.index_inj (lm : Lightmap) {x y z x' y' z' : ℕ}
    (hb : lm.InBounds x y z) (hb' : lm.InBounds x' y' z')
    (he : lm.index x y z = lm.index x' y' z') :
    x = x' ∧ y = y' ∧ z = z' := by
  obtain ⟨hx, hy, hz⟩ := hb
  obtain ⟨hx', hy', hz'⟩ := hb'
  have he' : x + (y + z * lm.height) * lm.width
      = x' + (y' + z' * lm.height) * lm.width := by
    unfold Lightmap.index at he
    calc x + (y + z * lm.height) * lm.width
        = x + y * lm.width + z * lm.width * lm.height := by ring
    _ = x' + y' * lm.width + z' * lm.width * lm.height := he
    _ = x' + (y' + z' * lm.height) * lm.width := by ring
  obtain ⟨hxx, hrest⟩ := digit_unique hx hx' he'
  obtain ⟨hyy, hzz⟩ := digit_unique hy hy' hrest
  exact ⟨hxx, hyy, hzz⟩

theorem Lightmap.index_lt_length {lm : Lightmap} (hwf : lm.Wf) {x y z : ℕ}
    (hb : lm.InBounds x y z) : lm.index x y z < lm.data.length := by
  rw [hwf]; exact lm.index_lt hb

/-- `get` fails exactly when the linear index leaves the backing vector. -/
theorem Lightmap.get_eq_none_iff (lm : Lightmap) (x y z : ℕ) :
    lm.get x y z = none ↔ lm.data.length ≤ lm.index x y z := by
  unfold Lightmap.get
  rw [List.getElem?_eq_none_iff]

/-- `set` fails exactly when the linear index leaves the backing vector. -/
theorem Lightmap.set_eq_none_iff (lm : Lightmap) (x y z : ℕ) (c : RGB) :
    lm.set x y z c = none ↔ lm.data.length ≤ lm.index x y z := by
  unfold Lightmap.set
  split
  · simp; omega
  · simp; omega

/-- On a well-formed lightmap, an in-bounds `get` succeeds and yields the
backing entry. -/
theorem Lightmap.get_inbounds {lm : Lightmap} (hwf : lm.Wf) {x y z : ℕ}
    (hb : lm.InBounds x y z) : lm.get x y z = some (lm.getv x y z) := by
  have hlt := Lightmap.index_lt_length hwf hb
  unfold Lightmap.get Lightmap.getv
  rw [List.getD_eq_getElem?_getD, List.getElem?_eq_getElem hlt]
  rfl

/-- On a well-formed lightmap, an in-bounds `set` succeeds. -/
theorem Lightmap.set_inbounds {lm : Lightmap} (hwf : lm.Wf) {x y z : ℕ}
    (hb : lm.InBounds x y z) (c : RGB) :
    lm.set x y z c = some (lm.setv x y z c) := by
  have hlt := Lightmap.index_lt_length hwf hb
  unfold Lightmap.set Lightmap.setv
  rw [if_pos hlt]

@[simp]
theorem Lightmap.setv_width (lm : Lightmap) (x y z : ℕ) (c : RGB) :
    (lm.setv x y z c).width = lm.width := rfl

@[simp]
theorem Lightmap.setv_height (lm : Lightmap) (x y z : ℕ) (c : RGB) :
    (lm.setv x y z c).height = lm.height := rfl

@[simp]
theorem Lightmap.setv_depth (lm : Lightmap) (x y z : ℕ) (c : RGB) :
    (lm.setv x y z c).depth = lm.depth := rfl

@[simp]
theorem Lightmap.setv_length (lm : Lightmap) (x y z : ℕ) (c : RGB) :
    (lm.setv x y z c).data.length = lm.data.length := by
  simp [Lightmap.setv]

theorem Lightmap.setv_wf {lm : Lightmap} (hwf : lm.Wf) (x y z : ℕ) (c : RGB) :
    (lm.setv x y z c).Wf := by
  unfold Lightmap.Wf at *
  simpa using hwf

@[simp]
theorem Lightmap.setv_index (lm : Lightmap) (x y z : ℕ) (c : RGB)
    (x' y' z' : ℕ) :
    (lm.setv x y z c).index x' y' z' = lm.index x' y' z' := rfl

@[simp]
theorem Lightmap.setv_inBounds_iff (lm : Lightmap) (x y z : ℕ) (c : RGB)
    (x' y' z' : ℕ) :
    (lm.setv x y z c).InBounds x' y' z' ↔ lm.InBounds x' y' z' := Iff.rfl

theorem Lightmap.getv_setv_self {lm : Lightmap} (hwf : lm.Wf) {x y z : ℕ}
    (hb : lm.InBounds x y z) (c : RGB) :
    (lm.setv x y z c).getv x y z = c := by
  have hlt := Lightmap.index_lt_length hwf hb
  show (lm.data.set (lm.index x y z) c).getD (lm.index x y z) RGB.black = c
  rw [List.getD_eq_getElem?_getD, List.getElem?_set_eq_of_lt _ hlt]
  rfl

theorem Lightmap.getv_setv_ne (lm : Lightmap) {x y z x' y' z' : ℕ}
    (hne : lm.index x y z ≠ lm.index x' y' z') (c : RGB) :
    (lm.setv x y z c).getv x' y' z' = lm.getv x' y' z' := by
  unfold Lightmap.getv Lightmap.setv
  rw [List.getD_eq_getElem?_getD, List.getD_eq_getElem?_getD]
  simp only [Lightmap.index] at *
  rw [List.getElem?_set_ne hne]

theorem Lightmap.getv_new (w h d : ℕ) (x y z : ℕ) :
    (Lightmap.new w h d).getv x y z = RGB.black := by
  unfold Lightmap.getv Lightmap.new
  rw [List.getD_eq_getElem?_getD, List.getElem?_replicate]
  split <;> rfl

/-!
### Claim C5: out-of-range `Lightmap` access

The spec asserts that every out-of-range coordinate fails fast. In the
source, `get`/`set` only bounds-check the *linear* index against the
backing vector: a coordinate that is out of range componentwise but whose
linear index is still inside the vector silently aliases another voxel.
-/

/-- Claim C5 counterexample: on a 2 by 2 by 2 lightmap, the out-of-range
coordinate (2,0,0) is not detected: `get` succeeds, and `set` through it
silently writes the in-range voxel (0,1,0). -/
theorem c5_out_of_range_not_detected :
    ¬ (Lightmap.new 2 2 2).InBounds 2 0 0
    ∧ (Lightmap.new 2 2 2).get 2 0 0 = some RGB.black
    ∧ (Lightmap.new 2 2 2).set 2 0 0 ⟨9, 9, 9⟩
        = some ((Lightmap.new 2 2 2).setv 2 0 0 ⟨9, 9, 9⟩)
    ∧ ((Lightmap.new 2 2 2).setv 2 0 0 ⟨9, 9, 9⟩).get 0 1 0
        = some ⟨9, 9, 9⟩ := by
  refine ⟨?_, ?_, ?_, ?_⟩ <;> decide

/-- Claim C5 (amended): `get` and `set` fail fast exactly when the linear
index `x + y*width + z*width*height` falls outside the backing vector;
on a well-formed lightmap every componentwise in-range access succeeds,
but an out-of-range coordinate whose linear index is still inside the
vector is silently mapped to the voxel stored at that linear index. -/
theorem c5_access_fails_iff_linear_index_out (lm : Lightmap) (x y z : ℕ)
    (c : RGB) :
    (lm.get x y z = none ↔ lm.data.length ≤ lm.index x y z)
    ∧ (lm.set x y z c = none ↔ lm.data.length ≤ lm.index x y z)
    ∧ (lm.Wf → lm.InBounds x y z →
        lm.get x y z = some (lm.getv x y z)
        ∧ lm.set x y z c = some (lm.setv x y z c))
    ∧ (lm.get x y z = lm.data[lm.index x y z]?) :=
  ⟨lm.get_eq_none_iff x y z, lm.set_eq_none_iff x y z c,
   fun hwf hb => ⟨Lightmap.get_inbounds hwf hb, Lightmap.set_inbounds hwf hb c⟩,
   rfl⟩

/-- Witness for the amended C5 at a concrete lightmap and coordinate. -/
theorem c5_access_fails_iff_linear_index_out_witness :
    ((Lightmap.new 2 2 2).get 1 1 1 = none
      ↔ (Lightmap.new 2 2 2).data.length ≤ (Lightmap.new 2 2 2).index 1 1 1)
    ∧ ((Lightmap.new 2 2 2).set 1 1 1 RGB.black = none
      ↔ (Lightmap.new 2 2 2).data.length ≤ (Lightmap.new 2 2 2).index 1 1 1)
    ∧ ((Lightmap.new 2 2 2).Wf → (Lightmap.new 2 2 2).InBounds 1 1 1 →
        (Lightmap.new 2 2 2).get 1 1 1
          = some ((Lightmap.new 2 2 2).getv 1 1 1)
        ∧ (Lightmap.new 2 2 2).set 1 1 1 RGB.black
          = some ((Lightmap.new 2 2 2).setv 1 1 1 RGB.black))
    ∧ ((Lightmap.new 2 2 2).get 1 1 1
        = (Lightmap.new 2 2 2).data[(Lightmap.new 2 2 2).index 1 1 1]?) :=
  c5_access_fails_iff_linear_index_out (Lightmap.new 2 2 2) 1 1 1 RGB.black

/-!
### Positions and the flood-fill worklist

`propagate` (propagation.rs lines 14-87) seeds in-bounds sources and then
runs a FIFO worklist: pop a voxel, read its light once, and for each of
the six face offsets bounds-check, transparency-check, attenuate, skip
all-zero candidates, and on strict per-channel improvement write the
merged value and enqueue the neighbor. The loop below is that worklist,
with the admission test and step cost abstracted into one `enter`
function so that the same loop also serves the opacity-scalar variant of
the engine (which only replaces the transparency test by
`opacity == 255` and the constant step cost by
`saturating_add(attenuation, opacity)`).

Rust's `u32` queue entries are modelled as nonnegative integer triples;
the negativity test on a candidate neighbor becomes part of `enter`.
-/

/-- A 3D integer coordinate (`i32` triple). -/
abbrev Pos : Type := ℤ × ℤ × ℤ

/-- Componentwise coordinate addition. -/
def Pos.add (p q : Pos) : Pos := (p.1 + q.1, p.2.1 + q.2.1, p.2.2 + q.2.2)

/-- The six face-neighbor offsets, in source order. -/
def offsets : List Pos :=
  [(1, 0, 0), (-1, 0, 0), (0, 1, 0), (0, -1, 0), (0, 0, 1), (0, 0, -1)]

/-- A nonnegative coordinate as lightmap indices. -/
def toN (p : Pos) : ℕ × ℕ × ℕ := (p.1.toNat, p.2.1.toNat, p.2.2.toNat)

/-- Componentwise bounds of an integer coordinate in a `w` by `h` by `d`
region. -/
def inb (w h d : ℕ) (p : Pos) : Prop :=
  0 ≤ p.1 ∧ p.1 < (w : ℤ) ∧ 0 ≤ p.2.1 ∧ p.2.1 < (h : ℤ)
    ∧ 0 ≤ p.2.2 ∧ p.2.2 < (d : ℤ)

instance (w h d : ℕ) (p : Pos) : Decidable (inb w h d p) := by
  unfold inb; infer_instance

/-- Componentwise bounds of an integer coordinate in a lightmap. -/
def Lightmap.PIn (lm : Lightmap) (p : Pos) : Prop :=
  inb lm.width lm.height lm.depth p

instance (lm : Lightmap) (p : Pos) : Decidable (lm.PIn p) := by
  unfold Lightmap.PIn; infer_instance

/-- Linear index of an integer coordinate. -/
def Lightmap.pidx (lm : Lightmap) (p : Pos) : ℕ :=
  lm.index (toN p).1 (toN p).2.1 (toN p).2.2

/-- Light value at an integer coordinate (bounds-checked call sites). -/
def Lightmap.getp (lm : Lightmap) (p : Pos) : RGB :=
  lm.getv (toN p).1 (toN p).2.1 (toN p).2.2

/-- Write at an integer coordinate (bounds-checked call sites). -/
def Lightmap.setp (lm : Lightmap) (p : Pos) (c : RGB) : Lightmap :=
  lm.setv (toN p).1 (toN p).2.1 (toN p).2.2 c

theorem Lightmap.pin_inBounds {lm : Lightmap} {p : Pos} (h : lm.PIn p) :
    lm.InBounds (toN p).1 (toN p).2.1 (toN p).2.2 := by
  obtain ⟨h1, h2, h3, h4, h5, h6⟩ := h
  refine ⟨?_, ?_, ?_⟩ <;> simp [toN] <;> omega

theorem Lightmap.pidx_lt_length {lm : Lightmap} (hwf : lm.Wf) {p : Pos}
    (h : lm.PIn p) : lm.pidx p < lm.data.length :=
  Lightmap.index_lt_length hwf (Lightmap.pin_inBounds h)

theorem Lightmap.pidx_inj {lm : Lightmap} {p q : Pos} (hp : lm.PIn p)
    (hq : lm.PIn q) (he : lm.pidx p = lm.pidx q) : p = q := by
  obtain ⟨he1, he2, he3⟩ :=
    lm.index_inj (Lightmap.pin_inBounds hp) (Lightmap.pin_inBounds hq) he
  obtain ⟨hp1, _, hp3, _, hp5, _⟩ := hp
  obtain ⟨hq1, _, hq3, _, hq5, _⟩ := hq
  have e1 : p.1 = q.1 := by
    have := congrArg (Int.ofNat) he1
    simpa [toN, Int.toNat_of_nonneg hp1, Int.toNat_of_nonneg hq1] using this
  have e2 : p.2.1 = q.2.1 := by
    have := congrArg (Int.ofNat) he2
    simpa [toN, Int.toNat_of_nonneg hp3, Int.toNat_of_nonneg hq3] using this
  have e3 : p.2.2 = q.2.2 := by
    have := congrArg (Int.ofNat) he3
    simpa [toN, Int.toNat_of_nonneg hp5, Int.toNat_of_nonneg hq5] using this
  exact Prod.ext e1 (Prod.ext e2 e3)

/-- Cell view of the backing vector, by linear index. -/
def lcell (l : List RGB) (i : ℕ) : RGB := l.getD i RGB.black

theorem Lightmap.getp_eq_cell (lm : Lightmap) (p : Pos) :
    lm.getp p = lcell lm.data (lm.pidx p) := rfl

theorem Lightmap.setp_data (lm : Lightmap) (p : Pos) (c : RGB) :
    (lm.setp p c).data = lm.data.set (lm.pidx p) c := rfl

@[simp]
theorem Lightmap.setp_width (lm : Lightmap) (p : Pos) (c : RGB) :
    (lm.setp p c).width = lm.width := rfl

@[simp]
theorem Lightmap.setp_height (lm : Lightmap) (p : Pos) (c : RGB) :
    (lm.setp p c).height = lm.height := rfl

@[simp]
theorem Lightmap.setp_depth (lm : Lightmap) (p : Pos) (c : RGB) :
    (lm.setp p c).depth = lm.depth := rfl

theorem lcell_set_self {l : List RGB} {i : ℕ} (h : i < l.length) (c : RGB) :
    lcell (l.set i c) i = c := by
  unfold lcell
  rw [List.getD_eq_getElem?_getD, List.getElem?_set_eq_of_lt _ h]
  rfl

theorem lcell_set_ne (l : List RGB) {i j : ℕ} (h : i ≠ j) (c : RGB) :
    lcell (l.set i c) j = lcell l j := by
  unfold lcell
  rw [List.getD_eq_getElem?_getD, List.getD_eq_getElem?_getD,
    List.getElem?_set_ne h]

theorem lcell_set_le {l : List RGB} {i : ℕ} {c : RGB}
    (h : RGB.Le (lcell l i) c) (j : ℕ) :
    RGB.Le (lcell l j) (lcell (l.set i c) j) := by
  by_cases hij : i = j
  · subst hij
    by_cases hlen : i < l.length
    · rw [lcell_set_self hlen]; exact h
    · rw [List.set_eq_of_length_le (by omega)]
      exact RGB.Le.refl _
  · rw [lcell_set_ne l hij]
    exact RGB.Le.refl _

/-- One neighbor relaxation of the worklist (propagation.rs lines 47-84):
compute the target, admit it or skip, attenuate the popped voxel's light
by the entry cost, skip fully attenuated candidates, and on strict
improvement in some channel write the per-channel merge and push the
target at the back of the queue. -/
def relax (enter : Pos → Option ℕ) (cur : RGB) (p : Pos) (off : Pos)
    (s : Lightmap × List Pos) : Lightmap × List Pos :=
  match enter (p.add off) with
  | none => s
  | some cost =>
      if cur.sub cost = RGB.black then s
      else if RGB.anyGt (cur.sub cost) (s.1.getp (p.add off)) then
        (s.1.setp (p.add off)
          (RGB.maxc (s.1.getp (p.add off)) (cur.sub cost)),
         s.2 ++ [p.add off])
      else s

/-- Processing of one popped voxel: read its light once, then relax the
six neighbors in source order. -/
def floodStep (enter : Pos → Option ℕ) (lm : Lightmap) (q : List Pos)
    (p : Pos) : Lightmap × List Pos :=
  offsets.foldl (fun s off => relax enter (lm.getp p) p off s) (lm, q)

/-- The FIFO worklist loop (`while let Some(...) = queue.pop_front()`),
with explicit fuel; the fuel chosen by `floodRun` below always suffices. -/
def flood (enter : Pos → Option ℕ) : ℕ → Lightmap → List Pos → Lightmap × List Pos
  | 0, lm, q => (lm, q)
  | _ + 1, lm, [] => (lm, [])
  | fuel + 1, lm, p :: rest =>
      let s := floodStep enter lm rest p
      flood enter fuel s.1 s.2

/-- Largest channel value in a lightmap, for the termination measure. -/
def Lightmap.maxChan (lm : Lightmap) : ℕ :=
  lm.data.foldr (fun c m => max (max c.r (max c.g c.b)) m) 0

/-- Fuel bound: one pop per queued entry plus one per unit of remaining
channel headroom (each re-enqueue strictly increases some channel). -/
def floodFuel (lm : Lightmap) (q : List Pos) : ℕ :=
  q.length + 3 * lm.maxChan * lm.data.length + 1

/-- The worklist run with adequate fuel. -/
def floodRun (enter : Pos → Option ℕ) (lm : Lightmap) (q : List Pos) :
    Lightmap × List Pos :=
  flood enter (floodFuel lm q) lm q

/-!
### The block-light propagator of propagation.rs
-/

/-- Trait `LightGrid`: whether the block at a position lets light pass. -/
abbrev LightGrid : Type := ℤ → ℤ → ℤ → Bool

/-- The admission test of `propagate` (propagation.rs lines 48-62): a
step may enter a candidate neighbor iff its coordinates are nonnegative
(`nx < 0 || ny < 0 || nz < 0` skips), within the lightmap bounds
(`nx >= w || ny >= h || nz >= d` skips) and transparent; the cost charged
for an admitted step is the fixed `attenuation` (lines 64-68). -/
def enterBin (grid : LightGrid) (w h d a : ℕ) (n : Pos) : Option ℕ :=
  if inb w h d n ∧ grid n.1 n.2.1 n.2.2 then some a else none

/-- Seeding of one source (propagation.rs lines 24-35): an in-bounds
source has its color merged per channel into the voxel's current light
and its coordinate pushed at the back of the worklist; an out-of-bounds
source is skipped. -/
def seedOne (s : Lightmap × List Pos) (src : LightSource) :
    Lightmap × List Pos :=
  if src.x < s.1.width ∧ src.y < s.1.height ∧ src.z < s.1.depth then
    let existing := s.1.getv src.x src.y src.z
    (s.1.setv src.x src.y src.z (RGB.maxc existing src.color),
      s.2 ++ [((src.x : ℤ), (src.y : ℤ), (src.z : ℤ))])
  else s

/-- The seeding pass over all sources, in order. -/
def seedAll (lm : Lightmap) (sources : List LightSource) :
    Lightmap × List Pos :=
  sources.foldl seedOne (lm, [])

/-- `propagate` (propagation.rs lines 14-87): seed the in-bounds sources
by per-channel max-merge, then run the BFS flood fill that spreads light
through transparent voxels, attenuated by `attenuation` per step. -/
def propagate (lm : Lightmap) (sources : List LightSource)
    (grid : LightGrid) (a : ℕ) : Lightmap :=
  let s := seedAll lm sources
  (floodRun (enterBin grid lm.width lm.height lm.depth a) s.1 s.2).1

/-!
### Worklist lemmas

The flood-fill analysis below establishes, for an arbitrary admission
function: monotonicity of the store, preservation of shape and
boundedness, a strictly decreasing termination measure, and the two
directions of the steady-state invariant.
-/

theorem RGB.sub_le_self (c : RGB) (k : ℕ) : RGB.Le (c.sub k) c :=
  ⟨Nat.sub_le _ _, Nat.sub_le _ _, Nat.sub_le _ _⟩

theorem RGB.sum_lt_of_anyGt {c d : RGB} (h : RGB.anyGt c d = true) :
    d.sum < (RGB.maxc d c).sum := by
  obtain ⟨cr, cg, cb⟩ := c
  obtain ⟨dr, dg, db⟩ := d
  simp only [RGB.anyGt, Bool.or_eq_true, decide_eq_true_eq] at h
  simp only [RGB.sum, RGB.maxc]
  have h1 := Nat.le_max_left dr cr
  have h2 := Nat.le_max_right dr cr
  have h3 := Nat.le_max_left dg cg
  have h4 := Nat.le_max_right dg cg
  have h5 := Nat.le_max_left db cb
  have h6 := Nat.le_max_right db cb
  omega

/-- Channel bound on every cell of a backing vector. -/
def BoundedB (B : ℕ) (l : List RGB) : Prop :=
  ∀ i, (lcell l i).r ≤ B ∧ (lcell l i).g ≤ B ∧ (lcell l i).b ≤ B

/-- Remaining headroom of one cell. -/
def potC (B : ℕ) (c : RGB) : ℕ := 3 * B - c.sum

/-- Total remaining headroom of a backing vector. -/
def pot (B : ℕ) (l : List RGB) : ℕ := (l.map (potC B)).sum

theorem pot_set (B : ℕ) (l : List RGB) (i : ℕ) (c : RGB)
    (h : i < l.length) :
    pot B (l.set i c) + potC B (lcell l i) = pot B l + potC B c := by
  induction l generalizing i with
  | nil => simp at h
  | cons a t ih =>
    cases i with
    | zero =>
      simp [pot, lcell, List.set]
      ring
    | succ i =>
      have h' : i < t.length := by simpa using h
      have := ih i h'
      simp only [List.set, pot, List.map_cons, List.sum_cons] at *
      have hc : lcell (a :: t) (i + 1) = lcell t i := by
        simp [lcell]
      rw [hc]
      omega

theorem boundedB_sum {B : ℕ} {l : List RGB} (h : BoundedB B l) (i : ℕ) :
    (lcell l i).sum ≤ 3 * B := by
  obtain ⟨h1, h2, h3⟩ := h i
  unfold RGB.sum
  omega

theorem pot_le (B : ℕ) (l : List RGB) : pot B l ≤ l.length * (3 * B) := by
  induction l with
  | nil => simp [pot]
  | cons a t ih =>
    simp only [pot, List.map_cons, List.sum_cons, List.length_cons] at *
    have : potC B a ≤ 3 * B := Nat.sub_le _ _
    calc potC B a + (t.map (potC B)).sum ≤ 3 * B + t.length * (3 * B) := by
          omega
    _ = (t.length + 1) * (3 * B) := by ring

theorem boundedB_set {B : ℕ} {l : List RGB} (h : BoundedB B l) {c : RGB}
    (hc : c.r ≤ B ∧ c.g ≤ B ∧ c.b ≤ B) (i : ℕ) :
    BoundedB B (l.set i c) := by
  intro j
  by_cases hij : i = j
  · subst hij
    by_cases hl : i < l.length
    · rw [lcell_set_self hl]; exact hc
    · rw [List.set_eq_of_length_le (by omega)]; exact h i
  · rw [lcell_set_ne l hij]; exact h j

/-- Case analysis of one neighbor relaxation: either the state is
unchanged, or the step was admitted, strictly improving, and the target
was written and enqueued. -/
theorem relax_cases (enter : Pos → Option ℕ) (cur : RGB) (p off : Pos)
    (lm : Lightmap) (q : List Pos) :
    relax enter cur p off (lm, q) = (lm, q)
    ∨ ∃ k, enter (p.add off) = some k
        ∧ cur.sub k ≠ RGB.black
        ∧ RGB.anyGt (cur.sub k) (lm.getp (p.add off)) = true
        ∧ relax enter cur p off (lm, q)
          = (lm.setp (p.add off) (RGB.maxc (lm.getp (p.add off)) (cur.sub k)),
             q ++ [p.add off]) := by
  unfold relax
  cases he : enter (p.add off) with
  | none => exact Or.inl rfl
  | some k =>
    simp only []
    by_cases hb : cur.sub k = RGB.black
    · rw [if_pos hb]
      exact Or.inl rfl
    · rw [if_neg hb]
      by_cases hg : RGB.anyGt (cur.sub k) (lm.getp (p.add off)) = true
      · rw [if_pos hg]
        exact Or.inr ⟨k, rfl, hb, hg, rfl⟩
      · rw [if_neg hg]
        exact Or.inl rfl

theorem relax_shape (enter : Pos → Option ℕ) (cur : RGB) (p off : Pos)
    (lm : Lightmap) (q : List Pos) :
    (relax enter cur p off (lm, q)).1.width = lm.width
    ∧ (relax enter cur p off (lm, q)).1.height = lm.height
    ∧ (relax enter cur p off (lm, q)).1.depth = lm.depth
    ∧ (relax enter cur p off (lm, q)).1.data.length = lm.data.length := by
  rcases relax_cases enter cur p off lm q with h | ⟨k, _, _, _, h⟩ <;>
    rw [h] <;> simp [Lightmap.setp]

theorem relax_cell_mono (enter : Pos → Option ℕ) (cur : RGB) (p off : Pos)
    (lm : Lightmap) (q : List Pos) (i : ℕ) :
    RGB.Le (lcell lm.data i) (lcell (relax enter cur p off (lm, q)).1.data i) := by
  rcases relax_cases enter cur p off lm q with h | ⟨k, _, _, _, h⟩
  · rw [h]
    exact RGB.Le.refl _
  · rw [h]
    . rw [Lightmap.setp_data]
      exact lcell_set_le (by
        rw [← Lightmap.getp_eq_cell]
        exact RGB.le_maxc_left _ _) i

theorem relax_queue (enter : Pos → Option ℕ) (cur : RGB) (p off : Pos)
    (lm : Lightmap) (q : List Pos) :
    ∃ ext, (relax enter cur p off (lm, q)).2 = q ++ ext
      ∧ ∀ x ∈ ext, (∃ k, enter x = some k) ∧ x = p.add off := by
  rcases relax_cases enter cur p off lm q with h | ⟨k, he, _, _, h⟩
  · rw [h]
    exact ⟨[], by simp⟩
  · rw [h]
    refine ⟨[p.add off], rfl, ?_⟩
    intro x hx
    simp only [List.mem_singleton] at hx
    subst hx
    exact ⟨⟨k, he⟩, rfl⟩

theorem relax_changed (enter : Pos → Option ℕ) (cur : RGB) (p off : Pos)
    (lm : Lightmap) (q : List Pos) (i : ℕ)
    (hch : lcell (relax enter cur p off (lm, q)).1.data i ≠ lcell lm.data i) :
    ∃ x ∈ (relax enter cur p off (lm, q)).2,
      (∃ k, enter x = some k) ∧ i = lm.pidx x := by
  rcases relax_cases enter cur p off lm q with h | ⟨k, he, _, _, h⟩
  · rw [h] at hch
    exact absurd rfl hch
  · rw [h] at hch ⊢
    by_cases hi : i = lm.pidx (p.add off)
    · exact ⟨p.add off, by simp, ⟨k, he⟩, hi⟩
    · exfalso
      apply hch
      rw [Lightmap.setp_data]
      exact lcell_set_ne _ (fun hc => hi hc.symm) _

theorem Lightmap.getp_setp_self {lm : Lightmap} (hwf : lm.Wf) {n : Pos}
    (hin : lm.PIn n) (c : RGB) : (lm.setp n c).getp n = c :=
  Lightmap.getv_setv_self hwf (Lightmap.pin_inBounds hin) c

theorem Lightmap.getp_setp_ne {lm : Lightmap} {n v : Pos}
    (hne : lm.pidx n ≠ lm.pidx v) (c : RGB) :
    (lm.setp n c).getp v = lm.getp v := by
  show lcell (lm.data.set (lm.pidx n) c) (lm.pidx v) = lcell lm.data (lm.pidx v)
  exact lcell_set_ne _ hne _

theorem bool_eq_false {b : Bool} (h : ¬ b = true) : b = false := by
  cases b
  · rfl
  · exact absurd rfl h

theorem relax_relaxes (enter : Pos → Option ℕ) (cur : RGB) (p off : Pos)
    (lm : Lightmap) (q : List Pos) (hwf : lm.Wf) {k : ℕ}
    (he : enter (p.add off) = some k) (hin : lm.PIn (p.add off)) :
    RGB.Le (cur.sub k) ((relax enter cur p off (lm, q)).1.getp (p.add off)) := by
  unfold relax
  rw [he]
  dsimp only
  by_cases hb : cur.sub k = RGB.black
  · rw [if_pos hb, hb]
    exact RGB.black_le _
  · rw [if_neg hb]
    by_cases hg : RGB.anyGt (cur.sub k) ((lm, q).1.getp (p.add off)) = true
    · rw [if_pos hg]
      simp only []
      rw [Lightmap.getp_setp_self hwf hin]
      exact RGB.le_maxc_right _ _
    · rw [if_neg hg]
      exact (RGB.anyGt_false_iff _ _).mp (bool_eq_false hg)

theorem relax_bounded {B : ℕ} (enter : Pos → Option ℕ) (cur : RGB)
    (p off : Pos) (lm : Lightmap) (q : List Pos)
    (hB : BoundedB B lm.data) (hcur : cur.r ≤ B ∧ cur.g ≤ B ∧ cur.b ≤ B) :
    BoundedB B (relax enter cur p off (lm, q)).1.data := by
  rcases relax_cases enter cur p off lm q with h | ⟨k, he, hb, hg, h⟩
  · rw [h]; exact hB
  · rw [h, Lightmap.setp_data]
    apply boundedB_set hB _
    have hnb := hB (lm.pidx (p.add off))
    rw [← Lightmap.getp_eq_cell] at hnb
    refine ⟨?_, ?_, ?_⟩ <;>
      simp only [RGB.maxc, RGB.sub, max_le_iff] <;>
      constructor <;> omega

theorem relax_pot {B : ℕ} (enter : Pos → Option ℕ) (cur : RGB)
    (p off : Pos) (lm : Lightmap) (q : List Pos) (hwf : lm.Wf)
    (Henter : ∀ n k, enter n = some k → lm.PIn n)
    (hB : BoundedB B lm.data) (hcur : cur.r ≤ B ∧ cur.g ≤ B ∧ cur.b ≤ B) :
    (relax enter cur p off (lm, q)).2.length
        + pot B (relax enter cur p off (lm, q)).1.data
      ≤ q.length + pot B lm.data := by
  rcases relax_cases enter cur p off lm q with h | ⟨k, he, hb, hg, h⟩
  · rw [h]
  · rw [h, Lightmap.setp_data]
    simp only [List.length_append, List.length_singleton]
    have hin := Henter _ _ he
    have hlen : lm.pidx (p.add off) < lm.data.length :=
      Lightmap.pidx_lt_length hwf hin
    have heq := pot_set B lm.data (lm.pidx (p.add off))
      (RGB.maxc (lm.getp (p.add off)) (cur.sub k)) hlen
    have hsum : (lm.getp (p.add off)).sum
        < (RGB.maxc (lm.getp (p.add off)) (cur.sub k)).sum :=
      RGB.sum_lt_of_anyGt hg
    have hnb := hB (lm.pidx (p.add off))
    rw [← Lightmap.getp_eq_cell] at hnb
    have hsumB : (RGB.maxc (lm.getp (p.add off)) (cur.sub k)).sum ≤ 3 * B := by
      simp only [RGB.maxc, RGB.sum, RGB.sub]
      have m1 : max (lm.getp (p.add off)).r (cur.r - k) ≤ B := by
        simp only [max_le_iff]; omega
      have m2 : max (lm.getp (p.add off)).g (cur.g - k) ≤ B := by
        simp only [max_le_iff]; omega
      have m3 : max (lm.getp (p.add off)).b (cur.b - k) ≤ B := by
        simp only [max_le_iff]; omega
      omega
    rw [← Lightmap.getp_eq_cell] at heq
    unfold potC at heq
    omega

theorem relax_upper (cl : Pos → RGB) (enter : Pos → Option ℕ) (cur : RGB)
    (p off : Pos) (lm : Lightmap) (q : List Pos) (hwf : lm.Wf)
    (Henter : ∀ n k, enter n = some k → lm.PIn n)
    (hoff : off ∈ offsets)
    (Hsuper : ∀ p1 off1 k, off1 ∈ offsets → enter (Pos.add p1 off1) = some k →
        RGB.Le ((cl p1).sub k) (cl (Pos.add p1 off1)))
    (Hcur : RGB.Le cur (cl p))
    (Hlm : ∀ v, lm.PIn v → RGB.Le (lm.getp v) (cl v)) :
    ∀ v, lm.PIn v → RGB.Le ((relax enter cur p off (lm, q)).1.getp v) (cl v) := by
  intro v hv
  rcases relax_cases enter cur p off lm q with h | ⟨k, he, hb, hg, h⟩
  · rw [h]; exact Hlm v hv
  · rw [h]
    have hn := Henter _ _ he
    by_cases hvn : v = p.add off
    · subst hvn
      rw [Lightmap.getp_setp_self hwf hn]
      exact RGB.maxc_le (Hlm _ hn)
        ((RGB.sub_le_sub k Hcur).trans (Hsuper p off k hoff he))
    · have hne : lm.pidx (p.add off) ≠ lm.pidx v := by
        intro hc
        exact hvn (Lightmap.pidx_inj hv hn hc.symm)
      rw [Lightmap.getp_setp_ne hne]
      exact Hlm v hv

/-- The three dimensions of a lightmap, bundled. -/
def Lightmap.dims (lm : Lightmap) : ℕ × ℕ × ℕ := (lm.width, lm.height, lm.depth)

theorem Lightmap.pin_congr {lm lm' : Lightmap} (h : lm.dims = lm'.dims) :
    lm.PIn = lm'.PIn := by
  unfold Lightmap.dims at h
  funext p
  unfold Lightmap.PIn
  rw [show lm.width = lm'.width from congrArg Prod.fst h,
    show lm.height = lm'.height from congrArg (fun t => t.2.1) h,
    show lm.depth = lm'.depth from congrArg (fun t => t.2.2) h]

theorem Lightmap.pidx_congr {lm lm' : Lightmap} (h : lm.dims = lm'.dims) :
    lm.pidx = lm'.pidx := by
  unfold Lightmap.dims at h
  funext p
  unfold Lightmap.pidx Lightmap.index
  rw [show lm.width = lm'.width from congrArg Prod.fst h,
    show lm.height = lm'.height from congrArg (fun t => t.2.1) h]

theorem relax_dims (enter : Pos → Option ℕ) (cur : RGB) (p off : Pos)
    (lm : Lightmap) (q : List Pos) :
    (relax enter cur p off (lm, q)).1.dims = lm.dims := by
  obtain ⟨h1, h2, h3, _⟩ := relax_shape enter cur p off lm q
  unfold Lightmap.dims
  rw [h1, h2, h3]

/-- The neighbor fold of one popped voxel, over an arbitrary offset list. -/
def relaxFold (enter : Pos → Option ℕ) (cur : RGB) (p : Pos)
    (l : List Pos) (s : Lightmap × List Pos) : Lightmap × List Pos :=
  l.foldl (fun s off => relax enter cur p off s) s

theorem floodStep_eq_relaxFold (enter : Pos → Option ℕ) (lm : Lightmap)
    (q : List Pos) (p : Pos) :
    floodStep enter lm q p = relaxFold enter (lm.getp p) p offsets (lm, q) := rfl

theorem relaxFold_cons (enter : Pos → Option ℕ) (cur : RGB) (p off : Pos)
    (l : List Pos) (s : Lightmap × List Pos) :
    relaxFold enter cur p (off :: l) s
      = relaxFold enter cur p l (relax enter cur p off s) := rfl

theorem relaxFold_dims (enter : Pos → Option ℕ) (cur : RGB) (p : Pos)
    (l : List Pos) (s : Lightmap × List Pos) :
    (relaxFold enter cur p l s).1.dims = s.1.dims
    ∧ (relaxFold enter cur p l s).1.data.length = s.1.data.length := by
  induction l generalizing s with
  | nil => exact ⟨rfl, rfl⟩
  | cons off l ih =>
    rw [relaxFold_cons]
    obtain ⟨ih1, ih2⟩ := ih (relax enter cur p off s)
    obtain ⟨_, _, _, h4⟩ := relax_shape enter cur p off s.1 s.2
    refine ⟨ih1.trans ?_, ih2.trans ?_⟩
    · exact relax_dims enter cur p off s.1 s.2
    · exact h4

theorem relaxFold_wf (enter : Pos → Option ℕ) (cur : RGB) (p : Pos)
    (l : List Pos) (s : Lightmap × List Pos) (hwf : s.1.Wf) :
    (relaxFold enter cur p l s).1.Wf := by
  obtain ⟨h1, h2⟩ := relaxFold_dims enter cur p l s
  unfold Lightmap.Wf at *
  unfold Lightmap.dims at h1
  rw [h2, show (relaxFold enter cur p l s).1.width = s.1.width from
      congrArg Prod.fst h1,
    show (relaxFold enter cur p l s).1.height = s.1.height from
      congrArg (fun t => t.2.1) h1,
    show (relaxFold enter cur p l s).1.depth = s.1.depth from
      congrArg (fun t => t.2.2) h1]
  exact hwf

theorem relaxFold_cell_mono (enter : Pos → Option ℕ) (cur : RGB) (p : Pos)
    (l : List Pos) (s : Lightmap × List Pos) (i : ℕ) :
    RGB.Le (lcell s.1.data i) (lcell (relaxFold enter cur p l s).1.data i) := by
  induction l generalizing s with
  | nil => exact RGB.Le.refl _
  | cons off l ih =>
    rw [relaxFold_cons]
    exact (relax_cell_mono enter cur p off s.1 s.2 i).trans
      (ih (relax enter cur p off s))

theorem relaxFold_queue (enter : Pos → Option ℕ) (cur : RGB) (p : Pos)
    (l : List Pos) (s : Lightmap × List Pos) :
    ∃ ext, (relaxFold enter cur p l s).2 = s.2 ++ ext
      ∧ ∀ x ∈ ext, (∃ k, enter x = some k) ∧ ∃ off ∈ l, x = p.add off := by
  induction l generalizing s with
  | nil => exact ⟨[], by simp [relaxFold]⟩
  | cons off l ih =>
    rw [relaxFold_cons]
    obtain ⟨ext1, he1, hm1⟩ := relax_queue enter cur p off s.1 s.2
    obtain ⟨ext2, he2, hm2⟩ := ih (relax enter cur p off s)
    refine ⟨ext1 ++ ext2, ?_, ?_⟩
    · rw [he2, he1, List.append_assoc]
    · intro x hx
      rcases List.mem_append.mp hx with hx | hx
      · obtain ⟨hk, hoff⟩ := hm1 x hx
        exact ⟨hk, off, List.mem_cons_self _ _, hoff⟩
      · obtain ⟨hk, o, ho, hoff⟩ := hm2 x hx
        exact ⟨hk, o, List.mem_cons_of_mem _ ho, hoff⟩

theorem relaxFold_changed (enter : Pos → Option ℕ) (cur : RGB) (p : Pos)
    (l : List Pos) (s : Lightmap × List Pos) (i : ℕ)
    (hch : lcell (relaxFold enter cur p l s).1.data i ≠ lcell s.1.data i) :
    ∃ x ∈ (relaxFold enter cur p l s).2,
      (∃ k, enter x = some k) ∧ i = s.1.pidx x := by
  induction l generalizing s with
  | nil => exact absurd rfl hch
  | cons off l ih =>
    rw [relaxFold_cons] at hch ⊢
    by_cases hstep : lcell (relax enter cur p off s).1.data i
        = lcell s.1.data i
    · have hch' : lcell (relaxFold enter cur p l
          (relax enter cur p off s)).1.data i
          ≠ lcell (relax enter cur p off s).1.data i := by
        rw [hstep]; exact hch
      obtain ⟨x, hx, hk, hidx⟩ := ih (relax enter cur p off s) hch'
      refine ⟨x, hx, hk, ?_⟩
      rw [hidx, show (relax enter cur p off s).1.pidx = s.1.pidx from
        Lightmap.pidx_congr (relax_dims enter cur p off s.1 s.2)]
    · obtain ⟨x, hx, hk, hidx⟩ :=
        relax_changed enter cur p off s.1 s.2 i hstep
      obtain ⟨ext2, he2, _⟩ := relaxFold_queue enter cur p l
        (relax enter cur p off s)
      exact ⟨x, by rw [he2]; exact List.mem_append_left _ hx, hk, hidx⟩

theorem relaxFold_bounded {B : ℕ} (enter : Pos → Option ℕ) (cur : RGB)
    (p : Pos) (l : List Pos) (s : Lightmap × List Pos)
    (hB : BoundedB B s.1.data) (hcur : cur.r ≤ B ∧ cur.g ≤ B ∧ cur.b ≤ B) :
    BoundedB B (relaxFold enter cur p l s).1.data := by
  induction l generalizing s with
  | nil => exact hB
  | cons off l ih =>
    rw [relaxFold_cons]
    exact ih (relax enter cur p off s)
      (relax_bounded enter cur p off s.1 s.2 hB hcur)

theorem relaxFold_pot {B : ℕ} (enter : Pos → Option ℕ) (cur : RGB) (p : Pos)
    (l : List Pos) (s : Lightmap × List Pos) (hwf : s.1.Wf)
    (Henter : ∀ n k, enter n = some k → s.1.PIn n)
    (hB : BoundedB B s.1.data) (hcur : cur.r ≤ B ∧ cur.g ≤ B ∧ cur.b ≤ B) :
    (relaxFold enter cur p l s).2.length + pot B (relaxFold enter cur p l s).1.data
      ≤ s.2.length + pot B s.1.data := by
  induction l generalizing s with
  | nil => exact le_refl _
  | cons off l ih =>
    rw [relaxFold_cons]
    have h1 := relax_pot enter cur p off s.1 s.2 hwf Henter hB hcur
    have hwf' : (relax enter cur p off s).1.Wf := by
      have := relaxFold_wf enter cur p [off] s hwf
      simpa [relaxFold_cons, relaxFold] using this
    have Henter' : ∀ n k, enter n = some k → (relax enter cur p off s).1.PIn n := by
      intro n k hk
      rw [Lightmap.pin_congr (relax_dims enter cur p off s.1 s.2)]
      exact Henter n k hk
    have hB' : BoundedB B (relax enter cur p off s).1.data :=
      relax_bounded enter cur p off s.1 s.2 hB hcur
    exact le_trans (ih (relax enter cur p off s) hwf' Henter' hB') h1

theorem relaxFold_relaxed (enter : Pos → Option ℕ) (cur : RGB) (p : Pos)
    (l : List Pos) (s : Lightmap × List Pos) (hwf : s.1.Wf)
    (Henter : ∀ n k, enter n = some k → s.1.PIn n) :
    ∀ off ∈ l, ∀ k, enter (p.add off) = some k →
      RGB.Le (cur.sub k) ((relaxFold enter cur p l s).1.getp (p.add off)) := by
  induction l generalizing s with
  | nil => intro off hoff; simp at hoff
  | cons off0 l ih =>
    intro off hoff k he
    have hwf' : (relax enter cur p off0 s).1.Wf := by
      have := relaxFold_wf enter cur p [off0] s hwf
      simpa [relaxFold_cons, relaxFold] using this
    have Henter' : ∀ n k, enter n = some k →
        (relax enter cur p off0 s).1.PIn n := by
      intro n k hk
      rw [Lightmap.pin_congr (relax_dims enter cur p off0 s.1 s.2)]
      exact Henter n k hk
    rw [relaxFold_cons]
    rcases List.mem_cons.mp hoff with heq | hmem
    · subst heq
      have h1 := relax_relaxes enter cur p off s.1 s.2 hwf he (Henter _ _ he)
      refine h1.trans ?_
      rw [Lightmap.getp_eq_cell, Lightmap.getp_eq_cell,
        show (relaxFold enter cur p l (relax enter cur p off s)).1.pidx
            = (relax enter cur p off s).1.pidx from
          Lightmap.pidx_congr
            (relaxFold_dims enter cur p l (relax enter cur p off s)).1]
      exact relaxFold_cell_mono enter cur p l (relax enter cur p off s) _
    · exact ih (relax enter cur p off0 s) hwf' Henter' off hmem k he

theorem relaxFold_upper (cl : Pos → RGB) (enter : Pos → Option ℕ) (cur : RGB)
    (p : Pos) (l : List Pos) (s : Lightmap × List Pos) (hwf : s.1.Wf)
    (Henter : ∀ n k, enter n = some k → s.1.PIn n)
    (hl : ∀ off ∈ l, off ∈ offsets)
    (Hsuper : ∀ p1 off1 k, off1 ∈ offsets → enter (Pos.add p1 off1) = some k →
        RGB.Le ((cl p1).sub k) (cl (Pos.add p1 off1)))
    (Hcur : RGB.Le cur (cl p))
    (Hlm : ∀ v, s.1.PIn v → RGB.Le (s.1.getp v) (cl v)) :
    ∀ v, (relaxFold enter cur p l s).1.PIn v →
      RGB.Le ((relaxFold enter cur p l s).1.getp v) (cl v) := by
  induction l generalizing s with
  | nil => exact Hlm
  | cons off l ih =>
    rw [relaxFold_cons]
    have hwf' : (relax enter cur p off s).1.Wf := by
      have := relaxFold_wf enter cur p [off] s hwf
      simpa [relaxFold_cons, relaxFold] using this
    have Henter' : ∀ n k, enter n = some k →
        (relax enter cur p off s).1.PIn n := by
      intro n k hk
      rw [Lightmap.pin_congr (relax_dims enter cur p off s.1 s.2)]
      exact Henter n k hk
    have Hlm' : ∀ v, (relax enter cur p off s).1.PIn v →
        RGB.Le ((relax enter cur p off s).1.getp v) (cl v) := by
      intro v hv
      rw [Lightmap.pin_congr (relax_dims enter cur p off s.1 s.2)] at hv
      exact relax_upper cl enter cur p off s.1 s.2 hwf Henter
        (hl off (List.mem_cons_self _ _)) Hsuper Hcur Hlm v hv
    exact ih (relax enter cur p off s) hwf' Henter'
      (fun o ho => hl o (List.mem_cons_of_mem _ ho)) Hlm'

/-- Invariants carried through the worklist loop: a well-formed store,
channel-bounded cells, an in-bounds queue, and in-bounds admission. -/
def FloodInv (enter : Pos → Option ℕ) (B : ℕ) (lm : Lightmap)
    (q : List Pos) : Prop :=
  lm.Wf ∧ BoundedB B lm.data ∧ (∀ x ∈ q, lm.PIn x)
    ∧ (∀ n k, enter n = some k → lm.PIn n)

/-- All stability obligations are parked on queued voxels: any allowed
step out of an in-bounds voxel that is not queued is already relaxed. -/
def Pending (enter : Pos → Option ℕ) (lm : Lightmap) (q : List Pos) : Prop :=
  ∀ p, lm.PIn p → p ∉ q → ∀ off ∈ offsets, ∀ k, enter (p.add off) = some k →
    RGB.Le ((lm.getp p).sub k) (lm.getp (p.add off))

theorem floodStep_inv {enter : Pos → Option ℕ} {B : ℕ} {lm : Lightmap}
    {p : Pos} {rest : List Pos}
    (hinv : FloodInv enter B lm (p :: rest)) :
    FloodInv enter B (floodStep enter lm rest p).1 (floodStep enter lm rest p).2 := by
  obtain ⟨hwf, hB, hqin, Henter⟩ := hinv
  have hdims := (relaxFold_dims enter (lm.getp p) p offsets (lm, rest)).1
  rw [floodStep_eq_relaxFold]
  have hcur : (lm.getp p).r ≤ B ∧ (lm.getp p).g ≤ B ∧ (lm.getp p).b ≤ B := by
    rw [Lightmap.getp_eq_cell]
    exact hB _
  refine ⟨relaxFold_wf enter (lm.getp p) p offsets (lm, rest) hwf, ?_, ?_, ?_⟩
  · exact relaxFold_bounded enter (lm.getp p) p offsets (lm, rest) hB hcur
  · intro x hx
    rw [Lightmap.pin_congr hdims]
    obtain ⟨ext, hqeq, hext⟩ :=
      relaxFold_queue enter (lm.getp p) p offsets (lm, rest)
    rw [hqeq] at hx
    rcases List.mem_append.mp hx with hx | hx
    · exact hqin x (List.mem_cons_of_mem _ hx)
    · obtain ⟨⟨k, hk⟩, _⟩ := hext x hx
      exact Henter x k hk
  · intro n k hk
    rw [Lightmap.pin_congr hdims]
    exact Henter n k hk

theorem floodStep_measure {enter : Pos → Option ℕ} {B : ℕ} {lm : Lightmap}
    {p : Pos} {rest : List Pos}
    (hinv : FloodInv enter B lm (p :: rest)) :
    (floodStep enter lm rest p).2.length
        + pot B (floodStep enter lm rest p).1.data
      ≤ rest.length + pot B lm.data := by
  obtain ⟨hwf, hB, hqin, Henter⟩ := hinv
  have hcur : (lm.getp p).r ≤ B ∧ (lm.getp p).g ≤ B ∧ (lm.getp p).b ≤ B := by
    rw [Lightmap.getp_eq_cell]
    exact hB _
  rw [floodStep_eq_relaxFold]
  exact relaxFold_pot enter (lm.getp p) p offsets (lm, rest) hwf Henter hB hcur

theorem relaxFold_untouched {enter : Pos → Option ℕ} {lm : Lightmap}
    {rest : List Pos} (cur : RGB) (p : Pos)
    (Henter : ∀ n k, enter n = some k → lm.PIn n) {v : Pos} (hv : lm.PIn v)
    (hvq : v ∉ (relaxFold enter cur p offsets (lm, rest)).2) :
    (relaxFold enter cur p offsets (lm, rest)).1.getp v = lm.getp v := by
  have hdims := (relaxFold_dims enter cur p offsets (lm, rest)).1
  have hpidx_eq := Lightmap.pidx_congr hdims
  by_contra hchg
  have hcell : lcell (relaxFold enter cur p offsets (lm, rest)).1.data
      (lm.pidx v) ≠ lcell lm.data (lm.pidx v) := by
    intro hc
    apply hchg
    rw [Lightmap.getp_eq_cell (relaxFold enter cur p offsets (lm, rest)).1,
      Lightmap.getp_eq_cell lm, hpidx_eq, hc]
  obtain ⟨x, hxq, ⟨k1, hk1⟩, hxidx⟩ :=
    relaxFold_changed enter cur p offsets (lm, rest) _ hcell
  have hxin : lm.PIn x := Henter x k1 hk1
  have hvx : v = x := Lightmap.pidx_inj hv hxin hxidx
  exact hvq (hvx ▸ hxq)

theorem relaxFold_getp_mono {enter : Pos → Option ℕ} {lm : Lightmap}
    {rest : List Pos} (cur : RGB) (p : Pos) (v : Pos) :
    RGB.Le (lm.getp v) ((relaxFold enter cur p offsets (lm, rest)).1.getp v) := by
  have hdims := (relaxFold_dims enter cur p offsets (lm, rest)).1
  have hpidx_eq := Lightmap.pidx_congr hdims
  rw [Lightmap.getp_eq_cell (relaxFold enter cur p offsets (lm, rest)).1,
    Lightmap.getp_eq_cell lm, hpidx_eq]
  exact relaxFold_cell_mono enter cur p offsets (lm, rest) _

theorem floodStep_pending {enter : Pos → Option ℕ} {B : ℕ} {lm : Lightmap}
    {p : Pos} {rest : List Pos}
    (hinv : FloodInv enter B lm (p :: rest))
    (hpend : Pending enter lm (p :: rest)) :
    Pending enter (floodStep enter lm rest p).1 (floodStep enter lm rest p).2 := by
  obtain ⟨hwf, hB, hqin, Henter⟩ := hinv
  intro p1 hp1 hnq off hoff k he
  rw [floodStep_eq_relaxFold] at hp1 hnq ⊢
  have hdims := (relaxFold_dims enter (lm.getp p) p offsets (lm, rest)).1
  have hpin_eq := Lightmap.pin_congr hdims
  have hp1' : lm.PIn p1 := by rw [← hpin_eq]; exact hp1
  obtain ⟨ext, hqeq, hext⟩ :=
    relaxFold_queue enter (lm.getp p) p offsets (lm, rest)
  rcases eq_or_ne p1 p with rfl | hne
  · rw [relaxFold_untouched (lm.getp p1) p1 Henter hp1' hnq]
    exact relaxFold_relaxed enter (lm.getp p1) p1 offsets (lm, rest) hwf
      Henter off hoff k he
  · have hp1nr : p1 ∉ (p :: rest) := by
      intro hmem
      rcases List.mem_cons.mp hmem with h1 | h1
      · exact hne h1
      · exact hnq (hqeq ▸ List.mem_append_left _ h1)
    rw [relaxFold_untouched (lm.getp p) p Henter hp1' hnq]
    exact (hpend p1 hp1' hp1nr off hoff k he).trans
      (relaxFold_getp_mono (lm.getp p) p (p1.add off))

theorem flood_zero (enter : Pos → Option ℕ) (lm : Lightmap) (q : List Pos) :
    flood enter 0 lm q = (lm, q) := rfl

theorem flood_succ_nil (enter : Pos → Option ℕ) (f : ℕ) (lm : Lightmap) :
    flood enter (f + 1) lm [] = (lm, []) := rfl

theorem flood_succ_cons (enter : Pos → Option ℕ) (f : ℕ) (lm : Lightmap)
    (p : Pos) (rest : List Pos) :
    flood enter (f + 1) lm (p :: rest)
      = flood enter f (floodStep enter lm rest p).1
          (floodStep enter lm rest p).2 := rfl

theorem flood_dims (enter : Pos → Option ℕ) (fuel : ℕ) (lm : Lightmap)
    (q : List Pos) :
    (flood enter fuel lm q).1.dims = lm.dims
    ∧ (flood enter fuel lm q).1.data.length = lm.data.length := by
  induction fuel generalizing lm q with
  | zero => exact ⟨rfl, rfl⟩
  | succ f ih =>
    cases q with
    | nil => exact ⟨rfl, rfl⟩
    | cons p rest =>
      rw [flood_succ_cons]
      obtain ⟨ih1, ih2⟩ := ih (floodStep enter lm rest p).1
        (floodStep enter lm rest p).2
      rw [floodStep_eq_relaxFold] at ih1 ih2
      obtain ⟨hs1, hs2⟩ := relaxFold_dims enter (lm.getp p) p offsets (lm, rest)
      rw [floodStep_eq_relaxFold]
      exact ⟨ih1.trans hs1, ih2.trans hs2⟩

theorem flood_cell_mono (enter : Pos → Option ℕ) (fuel : ℕ) (lm : Lightmap)
    (q : List Pos) (i : ℕ) :
    RGB.Le (lcell lm.data i) (lcell (flood enter fuel lm q).1.data i) := by
  induction fuel generalizing lm q with
  | zero => exact RGB.Le.refl _
  | succ f ih =>
    cases q with
    | nil => exact RGB.Le.refl _
    | cons p rest =>
      rw [flood_succ_cons]
      refine RGB.Le.trans ?_ (ih _ _)
      rw [floodStep_eq_relaxFold]
      exact relaxFold_cell_mono enter (lm.getp p) p offsets (lm, rest) i

theorem flood_untouched (enter : Pos → Option ℕ) (fuel : ℕ) (lm : Lightmap)
    (q : List Pos) (i : ℕ)
    (hch : lcell (flood enter fuel lm q).1.data i ≠ lcell lm.data i) :
    ∃ x, (∃ k, enter x = some k) ∧ i = lm.pidx x := by
  induction fuel generalizing lm q with
  | zero => exact absurd rfl hch
  | succ f ih =>
    cases q with
    | nil => exact absurd rfl hch
    | cons p rest =>
      rw [flood_succ_cons] at hch
      by_cases hstep : lcell (floodStep enter lm rest p).1.data i
          = lcell lm.data i
      · have hch' : lcell (flood enter f (floodStep enter lm rest p).1
            (floodStep enter lm rest p).2).1.data i
            ≠ lcell (floodStep enter lm rest p).1.data i := by
          rw [hstep]; exact hch
        obtain ⟨x, hk, hidx⟩ := ih _ _ hch'
        refine ⟨x, hk, ?_⟩
        rw [hidx, floodStep_eq_relaxFold,
          Lightmap.pidx_congr
            (relaxFold_dims enter (lm.getp p) p offsets (lm, rest)).1]
      · rw [floodStep_eq_relaxFold] at hstep
        obtain ⟨x, _, hk, hidx⟩ :=
          relaxFold_changed enter (lm.getp p) p offsets (lm, rest) i hstep
        exact ⟨x, hk, hidx⟩

theorem flood_run (enter : Pos → Option ℕ) (B : ℕ) (fuel : ℕ) :
    ∀ lm q, FloodInv enter B lm q →
    q.length + pot B lm.data + 1 ≤ fuel →
    (flood enter fuel lm q).2 = []
    ∧ ∀ g, q.length + pot B lm.data + 1 ≤ g →
        flood enter g lm q = flood enter fuel lm q := by
  induction fuel with
  | zero =>
    intro lm q _ hf
    omega
  | succ f ih =>
    intro lm q hinv hf
    cases q with
    | nil =>
      refine ⟨rfl, ?_⟩
      intro g hg
      cases g with
      | zero => omega
      | succ g0 => rfl
    | cons p rest =>
      have hinv' := floodStep_inv hinv
      have hmeas := floodStep_measure hinv
      have hf' : (floodStep enter lm rest p).2.length
          + pot B (floodStep enter lm rest p).1.data + 1 ≤ f := by
        simp only [List.length_cons] at hf
        omega
      obtain ⟨ih1, ih2⟩ := ih _ _ hinv' hf'
      refine ⟨ih1, ?_⟩
      intro g hg
      cases g with
      | zero => omega
      | succ g0 =>
        rw [flood_succ_cons, flood_succ_cons]
        apply ih2
        simp only [List.length_cons] at hg
        omega

theorem flood_pending (enter : Pos → Option ℕ) (B : ℕ) (fuel : ℕ) :
    ∀ lm q, FloodInv enter B lm q → Pending enter lm q →
    Pending enter (flood enter fuel lm q).1 (flood enter fuel lm q).2 := by
  induction fuel with
  | zero => intro lm q _ hpend; exact hpend
  | succ f ih =>
    intro lm q hinv hpend
    cases q with
    | nil =>
      rw [flood_succ_nil]
      exact hpend
    | cons p rest =>
      rw [flood_succ_cons]
      exact ih _ _ (floodStep_inv hinv) (floodStep_pending hinv hpend)

theorem flood_upper (cl : Pos → RGB) (enter : Pos → Option ℕ) (B : ℕ)
    (fuel : ℕ)
    (Hsuper : ∀ p1 off1 k, off1 ∈ offsets → enter (Pos.add p1 off1) = some k →
        RGB.Le ((cl p1).sub k) (cl (Pos.add p1 off1))) :
    ∀ lm q, FloodInv enter B lm q →
    (∀ v, lm.PIn v → RGB.Le (lm.getp v) (cl v)) →
    ∀ v, (flood enter fuel lm q).1.PIn v →
      RGB.Le ((flood enter fuel lm q).1.getp v) (cl v) := by
  induction fuel with
  | zero => intro lm q _ Hlm; exact Hlm
  | succ f ih =>
    intro lm q hinv Hlm
    cases q with
    | nil => exact Hlm
    | cons p rest =>
      rw [flood_succ_cons]
      obtain ⟨hwf, hB, hqin, Henter⟩ := hinv
      have Hcur : RGB.Le (lm.getp p) (cl p) :=
        Hlm p (hqin p (List.mem_cons_self _ _))
      have Hlm' : ∀ v, (floodStep enter lm rest p).1.PIn v →
          RGB.Le ((floodStep enter lm rest p).1.getp v) (cl v) := by
        rw [floodStep_eq_relaxFold]
        exact relaxFold_upper cl enter (lm.getp p) p offsets (lm, rest)
          hwf Henter (fun o ho => ho) Hsuper Hcur Hlm
      exact ih _ _ (floodStep_inv ⟨hwf, hB, hqin, Henter⟩) Hlm'

/-!
### The steady-state invariant

`ReachE` describes the admitted paths of the worklist: each step moves to
a face neighbor accepted by the admission test, accumulating its entry
cost. The claimed steady-state value of a voxel is the best attenuated
contribution over all sources and admitted paths.
-/

/-- Integer position of a light source. -/
def LightSource.pos (s : LightSource) : Pos :=
  ((s.x : ℤ), (s.y : ℤ), (s.z : ℤ))

inductive ReachE (enter : Pos → Option ℕ) (s : Pos) : Pos → ℕ → Prop
  | refl : ReachE enter s s 0
  | step {p : Pos} {c : ℕ} {off : Pos} {k : ℕ} :
      ReachE enter s p c → off ∈ offsets → enter (p.add off) = some k →
      ReachE enter s (p.add off) (c + k)

/-- One channel of the steady state: the supremum, over sources and
admitted paths, of the source channel minus the accumulated path cost
(`0` when no source reaches the voxel). -/
noncomputable def claimedCh (enter : Pos → Option ℕ) (sources : List LightSource)
    (v : Pos) (i : ℕ) : ℕ :=
  sSup {m | ∃ src ∈ sources, ∃ c, ReachE enter src.pos v c
    ∧ m = src.color.channel i - c}

/-- The steady state as an RGB value. -/
noncomputable def claimedRGB (enter : Pos → Option ℕ) (sources : List LightSource)
    (v : Pos) : RGB :=
  ⟨claimedCh enter sources v 0, claimedCh enter sources v 1,
   claimedCh enter sources v 2⟩

/-- Largest channel value over a source list. -/
def maxColor (sources : List LightSource) : ℕ :=
  sources.foldr (fun s m => max (max s.color.r (max s.color.g s.color.b)) m) 0

theorem RGB.channel_le_max (c : RGB) (i : ℕ) :
    c.channel i ≤ max c.r (max c.g c.b) := by
  match i with
  | 0 => exact le_max_left _ _
  | 1 => exact le_trans (le_max_left _ _) (le_max_right _ _)
  | n + 2 => exact le_trans (le_max_right _ _) (le_max_right _ _)

theorem channel_le_maxColor {sources : List LightSource} {src : LightSource}
    (h : src ∈ sources) (i : ℕ) :
    src.color.channel i ≤ maxColor sources := by
  induction sources with
  | nil => simp at h
  | cons a t ih =>
    rcases List.mem_cons.mp h with rfl | hm
    · exact le_trans (RGB.channel_le_max _ _) (le_max_left _ _)
    · exact le_trans (ih hm) (le_max_right _ _)

theorem claimedSet_bddAbove (enter : Pos → Option ℕ)
    (sources : List LightSource) (v : Pos) (i : ℕ) :
    BddAbove {m | ∃ src ∈ sources, ∃ c, ReachE enter src.pos v c
      ∧ m = src.color.channel i - c} := by
  refine ⟨maxColor sources, ?_⟩
  rintro m ⟨src, hsrc, c, _, rfl⟩
  exact le_trans (Nat.sub_le _ _) (channel_le_maxColor hsrc i)

theorem claimedCh_ge {enter : Pos → Option ℕ} {sources : List LightSource}
    {v : Pos} {i : ℕ} {m : ℕ}
    (hm : ∃ src ∈ sources, ∃ c, ReachE enter src.pos v c
      ∧ m = src.color.channel i - c) :
    m ≤ claimedCh enter sources v i :=
  le_csSup (claimedSet_bddAbove enter sources v i) hm

theorem claimedCh_le {enter : Pos → Option ℕ} {sources : List LightSource}
    {v : Pos} {i : ℕ} {b : ℕ}
    (hb : ∀ m, (∃ src ∈ sources, ∃ c, ReachE enter src.pos v c
      ∧ m = src.color.channel i - c) → m ≤ b) :
    claimedCh enter sources v i ≤ b :=
  csSup_le' hb

theorem claimedRGB_channel (enter : Pos → Option ℕ)
    (sources : List LightSource) (v : Pos) (i : ℕ) :
    (claimedRGB enter sources v).channel i = claimedCh enter sources v i := by
  match i with
  | 0 => rfl
  | 1 => rfl
  | n + 2 => rfl

/-- The steady state is superstable along admitted edges: entering a
neighbor costs at most the entry cost. -/
theorem claimed_superstable (enter : Pos → Option ℕ)
    (sources : List LightSource) :
    ∀ p off k, off ∈ offsets → enter (Pos.add p off) = some k →
      RGB.Le ((claimedRGB enter sources p).sub k)
        (claimedRGB enter sources (Pos.add p off)) := by
  intro p off k hoff he
  rw [RGB.le_iff_channel]
  intro i
  rw [RGB.channel_sub, claimedRGB_channel, claimedRGB_channel]
  rw [Nat.sub_le_iff_le_add]
  apply claimedCh_le
  rintro m ⟨src, hsrc, c, hreach, rfl⟩
  have hstep : ReachE enter src.pos (p.add off) (c + k) :=
    ReachE.step hreach hoff he
  have hmem : src.color.channel i - (c + k)
      ≤ claimedCh enter sources (Pos.add p off) i :=
    claimedCh_ge ⟨src, hsrc, c + k, hstep, rfl⟩
  omega

theorem claimedCh_seed {enter : Pos → Option ℕ} {sources : List LightSource}
    {src : LightSource} (hsrc : src ∈ sources) (i : ℕ) :
    src.color.channel i ≤ claimedCh enter sources src.pos i :=
  claimedCh_ge ⟨src, hsrc, 0, ReachE.refl, (Nat.sub_zero _).symm⟩

theorem claimed_seed_le {enter : Pos → Option ℕ} {sources : List LightSource}
    {src : LightSource} (hsrc : src ∈ sources) :
    RGB.Le src.color (claimedRGB enter sources src.pos) := by
  rw [RGB.le_iff_channel]
  intro i
  rw [claimedRGB_channel]
  exact claimedCh_seed hsrc i

/-- Endpoints of admitted paths are the start or an admitted voxel. -/
theorem ReachE_end {enter : Pos → Option ℕ} {s v : Pos} {c : ℕ}
    (h : ReachE enter s v c) : v = s ∨ ∃ k, enter v = some k := by
  cases h with
  | refl => exact Or.inl rfl
  | step _ _ he => exact Or.inr ⟨_, he⟩

/-- In a relaxed store whose source voxels carry at least their colors,
every admitted path certifies a lower bound. -/
theorem reach_lower {enter : Pos → Option ℕ} {lm : Lightmap}
    (Henter : ∀ n k, enter n = some k → lm.PIn n)
    (hrel : ∀ p, lm.PIn p → ∀ off ∈ offsets, ∀ k,
      enter (p.add off) = some k →
      RGB.Le ((lm.getp p).sub k) (lm.getp (p.add off)))
    {s v : Pos} {c : ℕ} (hsin : lm.PIn s) (hr : ReachE enter s v c)
    {col : RGB} (hstart : RGB.Le col (lm.getp s)) (i : ℕ) :
    col.channel i - c ≤ (lm.getp v).channel i := by
  induction hr with
  | refl =>
    rw [RGB.le_iff_channel] at hstart
    have := hstart i
    omega
  | step hr hoff he ih =>
    rename_i p c0 off k
    have hpin : lm.PIn p := by
      rcases ReachE_end hr with rfl | ⟨k1, hk1⟩
      · exact hsin
      · exact Henter _ _ hk1
    have hedge := hrel p hpin off hoff k he
    rw [RGB.le_iff_channel] at hedge
    have h1 := hedge i
    rw [RGB.channel_sub] at h1
    omega

/-!
### Seeding-pass lemmas
-/

/-- The seeding fold with an explicit accumulator. -/
def seedFold (l : List LightSource) (s : Lightmap × List Pos) :
    Lightmap × List Pos :=
  l.foldl seedOne s

theorem seedAll_eq_seedFold (lm : Lightmap) (sources : List LightSource) :
    seedAll lm sources = seedFold sources (lm, []) := rfl

theorem seedFold_cons (src : LightSource) (l : List LightSource)
    (s : Lightmap × List Pos) :
    seedFold (src :: l) s = seedFold l (seedOne s src) := rfl

/-- Bounds of a source against a lightmap. -/
def SrcIn (lm : Lightmap) (src : LightSource) : Prop :=
  src.x < lm.width ∧ src.y < lm.height ∧ src.z < lm.depth

instance (lm : Lightmap) (src : LightSource) : Decidable (SrcIn lm src) := by
  unfold SrcIn; infer_instance

theorem pin_of_srcIn {lm : Lightmap} {src : LightSource} (h : SrcIn lm src) :
    lm.PIn src.pos := by
  obtain ⟨h1, h2, h3⟩ := h
  unfold Lightmap.PIn inb LightSource.pos
  refine ⟨?_, ?_, ?_, ?_, ?_, ?_⟩ <;> simp <;> omega

theorem pidx_srcPos (lm : Lightmap) (src : LightSource) :
    lm.pidx src.pos = lm.index src.x src.y src.z := rfl

theorem getp_srcPos (lm : Lightmap) (src : LightSource) :
    lm.getp src.pos = lm.getv src.x src.y src.z := rfl

theorem setp_srcPos (lm : Lightmap) (src : LightSource) (c : RGB) :
    lm.setp src.pos c = lm.setv src.x src.y src.z c := rfl

theorem seedOne_cases (s : Lightmap × List Pos) (src : LightSource) :
    (seedOne s src = s ∧ ¬ SrcIn s.1 src)
    ∨ (SrcIn s.1 src
      ∧ seedOne s src
        = (s.1.setp src.pos (RGB.maxc (s.1.getp src.pos) src.color),
           s.2 ++ [src.pos])) := by
  unfold seedOne
  split
  · next h => exact Or.inr ⟨h, rfl⟩
  · next h => exact Or.inl ⟨rfl, h⟩

theorem seedOne_dims (s : Lightmap × List Pos) (src : LightSource) :
    (seedOne s src).1.dims = s.1.dims
    ∧ (seedOne s src).1.data.length = s.1.data.length := by
  rcases seedOne_cases s src with ⟨h, _⟩ | ⟨_, h⟩ <;> rw [h]
  · exact ⟨rfl, rfl⟩
  · exact ⟨rfl, by simp [Lightmap.setp]⟩

theorem seedOne_cell_mono (s : Lightmap × List Pos) (src : LightSource)
    (i : ℕ) :
    RGB.Le (lcell s.1.data i) (lcell (seedOne s src).1.data i) := by
  rcases seedOne_cases s src with ⟨h, _⟩ | ⟨_, h⟩ <;> rw [h]
  · exact RGB.Le.refl _
  · rw [Lightmap.setp_data]
    exact lcell_set_le (by
      rw [← Lightmap.getp_eq_cell]
      exact RGB.le_maxc_left _ _) i

theorem seedOne_queue (s : Lightmap × List Pos) (src : LightSource) :
    ∃ ext, (seedOne s src).2 = s.2 ++ ext
      ∧ ∀ x ∈ ext, x = src.pos ∧ s.1.PIn x := by
  rcases seedOne_cases s src with ⟨h, _⟩ | ⟨hin, h⟩ <;> rw [h]
  · exact ⟨[], by simp⟩
  · refine ⟨[src.pos], rfl, ?_⟩
    intro x hx
    simp only [List.mem_singleton] at hx
    subst hx
    exact ⟨rfl, pin_of_srcIn hin⟩

theorem seedOne_changed (s : Lightmap × List Pos) (src : LightSource) (i : ℕ)
    (hch : lcell (seedOne s src).1.data i ≠ lcell s.1.data i) :
    ∃ x ∈ (seedOne s src).2, s.1.PIn x ∧ i = s.1.pidx x := by
  rcases seedOne_cases s src with ⟨h, _⟩ | ⟨hin, h⟩
  · rw [h] at hch
    exact absurd rfl hch
  · rw [h] at hch ⊢
    by_cases hi : i = s.1.pidx src.pos
    · exact ⟨src.pos, by simp, pin_of_srcIn hin, hi⟩
    · exfalso
      apply hch
      rw [Lightmap.setp_data]
      exact lcell_set_ne _ (fun hc => hi hc.symm) _

theorem seedFold_dims (l : List LightSource) (s : Lightmap × List Pos) :
    (seedFold l s).1.dims = s.1.dims
    ∧ (seedFold l s).1.data.length = s.1.data.length := by
  induction l generalizing s with
  | nil => exact ⟨rfl, rfl⟩
  | cons src l ih =>
    rw [seedFold_cons]
    obtain ⟨ih1, ih2⟩ := ih (seedOne s src)
    obtain ⟨h1, h2⟩ := seedOne_dims s src
    exact ⟨ih1.trans h1, ih2.trans h2⟩

theorem seedFold_wf (l : List LightSource) (s : Lightmap × List Pos)
    (hwf : s.1.Wf) : (seedFold l s).1.Wf := by
  obtain ⟨h1, h2⟩ := seedFold_dims l s
  unfold Lightmap.Wf at *
  unfold Lightmap.dims at h1
  rw [h2, show (seedFold l s).1.width = s.1.width from congrArg Prod.fst h1,
    show (seedFold l s).1.height = s.1.height from congrArg (fun t => t.2.1) h1,
    show (seedFold l s).1.depth = s.1.depth from congrArg (fun t => t.2.2) h1]
  exact hwf

theorem seedFold_cell_mono (l : List LightSource) (s : Lightmap × List Pos)
    (i : ℕ) :
    RGB.Le (lcell s.1.data i) (lcell (seedFold l s).1.data i) := by
  induction l generalizing s with
  | nil => exact RGB.Le.refl _
  | cons src l ih =>
    rw [seedFold_cons]
    exact (seedOne_cell_mono s src i).trans (ih (seedOne s src))

theorem seedFold_getp_mono (l : List LightSource) (s : Lightmap × List Pos)
    (v : Pos) :
    RGB.Le (s.1.getp v) ((seedFold l s).1.getp v) := by
  rw [Lightmap.getp_eq_cell (seedFold l s).1, Lightmap.getp_eq_cell s.1,
    Lightmap.pidx_congr (seedFold_dims l s).1]
  exact seedFold_cell_mono l s _

theorem seedFold_queue (l : List LightSource) (s : Lightmap × List Pos) :
    ∃ ext, (seedFold l s).2 = s.2 ++ ext
      ∧ ∀ x ∈ ext, (∃ src ∈ l, x = src.pos) ∧ s.1.PIn x := by
  induction l generalizing s with
  | nil => exact ⟨[], by simp [seedFold]⟩
  | cons src l ih =>
    rw [seedFold_cons]
    obtain ⟨ext1, he1, hm1⟩ := seedOne_queue s src
    obtain ⟨ext2, he2, hm2⟩ := ih (seedOne s src)
    refine ⟨ext1 ++ ext2, by rw [he2, he1, List.append_assoc], ?_⟩
    intro x hx
    rcases List.mem_append.mp hx with hx | hx
    · obtain ⟨hp, hpin⟩ := hm1 x hx
      exact ⟨⟨src, List.mem_cons_self _ _, hp⟩, hpin⟩
    · obtain ⟨⟨src1, hs1, hp⟩, hpin⟩ := hm2 x hx
      rw [Lightmap.pin_congr (seedOne_dims s src).1] at hpin
      exact ⟨⟨src1, List.mem_cons_of_mem _ hs1, hp⟩, hpin⟩

theorem seedFold_changed (l : List LightSource) (s : Lightmap × List Pos)
    (i : ℕ)
    (hch : lcell (seedFold l s).1.data i ≠ lcell s.1.data i) :
    ∃ x ∈ (seedFold l s).2, s.1.PIn x ∧ i = s.1.pidx x := by
  induction l generalizing s with
  | nil => exact absurd rfl hch
  | cons src l ih =>
    rw [seedFold_cons] at hch ⊢
    by_cases hstep : lcell (seedOne s src).1.data i = lcell s.1.data i
    · have hch' : lcell (seedFold l (seedOne s src)).1.data i
          ≠ lcell (seedOne s src).1.data i := by
        rw [hstep]; exact hch
      obtain ⟨x, hx, hpin, hidx⟩ := ih (seedOne s src) hch'
      rw [Lightmap.pin_congr (seedOne_dims s src).1] at hpin
      rw [Lightmap.pidx_congr (seedOne_dims s src).1] at hidx
      exact ⟨x, hx, hpin, hidx⟩
    · obtain ⟨x, hx, hpin, hidx⟩ := seedOne_changed s src i hstep
      obtain ⟨ext2, he2, _⟩ := seedFold_queue l (seedOne s src)
      exact ⟨x, by rw [he2]; exact List.mem_append_left _ hx, hpin, hidx⟩

theorem seedFold_untouched (l : List LightSource) (s : Lightmap × List Pos)
    {v : Pos} (hv : s.1.PIn v) (hvq : v ∉ (seedFold l s).2) :
    (seedFold l s).1.getp v = s.1.getp v := by
  by_contra hchg
  have hcell : lcell (seedFold l s).1.data (s.1.pidx v)
      ≠ lcell s.1.data (s.1.pidx v) := by
    intro hc
    apply hchg
    rw [Lightmap.getp_eq_cell (seedFold l s).1, Lightmap.getp_eq_cell s.1,
      Lightmap.pidx_congr (seedFold_dims l s).1, hc]
  obtain ⟨x, hxq, hxpin, hxidx⟩ := seedFold_changed l s _ hcell
  have hvx : v = x := Lightmap.pidx_inj hv hxpin hxidx
  exact hvq (hvx ▸ hxq)

theorem seedFold_upper (cl : Pos → RGB) (l : List LightSource)
    (s : Lightmap × List Pos) (hwf : s.1.Wf)
    (Hseed : ∀ src ∈ l, RGB.Le src.color (cl src.pos))
    (Hlm : ∀ v, s.1.PIn v → RGB.Le (s.1.getp v) (cl v)) :
    ∀ v, s.1.PIn v → RGB.Le ((seedFold l s).1.getp v) (cl v) := by
  induction l generalizing s with
  | nil => exact Hlm
  | cons src l ih =>
    rw [seedFold_cons]
    intro v hv
    have hwf' : (seedOne s src).1.Wf := by
      obtain ⟨h1, h2⟩ := seedOne_dims s src
      unfold Lightmap.Wf at *
      unfold Lightmap.dims at h1
      rw [h2, show (seedOne s src).1.width = s.1.width from
          congrArg Prod.fst h1,
        show (seedOne s src).1.height = s.1.height from
          congrArg (fun t => t.2.1) h1,
        show (seedOne s src).1.depth = s.1.depth from
          congrArg (fun t => t.2.2) h1]
      exact hwf
    have Hlm' : ∀ v, (seedOne s src).1.PIn v →
        RGB.Le ((seedOne s src).1.getp v) (cl v) := by
      intro v1 hv1
      rw [Lightmap.pin_congr (seedOne_dims s src).1] at hv1
      rcases seedOne_cases s src with ⟨h, _⟩ | ⟨hin, h⟩
      · rw [h]; exact Hlm v1 hv1
      · rw [h]
        have hspin := pin_of_srcIn hin
        by_cases hveq : v1 = src.pos
        · subst hveq
          rw [Lightmap.getp_setp_self hwf hspin]
          exact RGB.maxc_le (Hlm _ hspin)
            (Hseed src (List.mem_cons_self _ _))
        · have hne : s.1.pidx src.pos ≠ s.1.pidx v1 := by
            intro hc
            exact hveq (Lightmap.pidx_inj hv1 hspin hc.symm)
          rw [Lightmap.getp_setp_ne hne]
          exact Hlm v1 hv1
    have hv' : (seedOne s src).1.PIn v := by
      rw [Lightmap.pin_congr (seedOne_dims s src).1]
      exact hv
    exact ih (seedOne s src) hwf'
      (fun s1 h1 => Hseed s1 (List.mem_cons_of_mem _ h1)) Hlm' v hv'

theorem seedFold_seeded (l : List LightSource) (s : Lightmap × List Pos)
    (hwf : s.1.Wf) :
    ∀ src ∈ l, SrcIn s.1 src →
      RGB.Le src.color ((seedFold l s).1.getp src.pos) := by
  induction l generalizing s with
  | nil => intro src h; simp at h
  | cons src0 l ih =>
    intro src hsrc hin
    rw [seedFold_cons]
    have hwf' : (seedOne s src0).1.Wf := by
      obtain ⟨h1, h2⟩ := seedOne_dims s src0
      unfold Lightmap.Wf at *
      unfold Lightmap.dims at h1
      rw [h2, show (seedOne s src0).1.width = s.1.width from
          congrArg Prod.fst h1,
        show (seedOne s src0).1.height = s.1.height from
          congrArg (fun t => t.2.1) h1,
        show (seedOne s src0).1.depth = s.1.depth from
          congrArg (fun t => t.2.2) h1]
      exact hwf
    rcases List.mem_cons.mp hsrc with rfl | hmem
    · refine RGB.Le.trans ?_ (seedFold_getp_mono l (seedOne s src) src.pos)
      rcases seedOne_cases s src with ⟨_, hno⟩ | ⟨_, h⟩
      · exact absurd hin hno
      · rw [h]
        simp only []
        rw [Lightmap.getp_setp_self hwf (pin_of_srcIn hin)]
        exact RGB.le_maxc_right _ _
    · apply ih (seedOne s src0) hwf' src hmem
      unfold SrcIn at *
      obtain ⟨h1, h2⟩ := seedOne_dims s src0
      unfold Lightmap.dims at h1
      rw [show (seedOne s src0).1.width = s.1.width from
          congrArg Prod.fst h1,
        show (seedOne s src0).1.height = s.1.height from
          congrArg (fun t => t.2.1) h1,
        show (seedOne s src0).1.depth = s.1.depth from
          congrArg (fun t => t.2.2) h1]
      exact hin

/-- Every cell channel is bounded by `maxChan`. -/
theorem maxChan_bound (lm : Lightmap) : BoundedB lm.maxChan lm.data := by
  unfold Lightmap.maxChan BoundedB
  suffices h : ∀ (l : List RGB) i,
      (lcell l i).r ≤ l.foldr (fun c m => max (max c.r (max c.g c.b)) m) 0
      ∧ (lcell l i).g ≤ l.foldr (fun c m => max (max c.r (max c.g c.b)) m) 0
      ∧ (lcell l i).b ≤ l.foldr (fun c m => max (max c.r (max c.g c.b)) m) 0 by
    exact h lm.data
  intro l
  induction l with
  | nil =>
    intro i
    refine ⟨?_, ?_, ?_⟩ <;> simp [lcell, RGB.black]
  | cons c t ih =>
    intro i
    cases i with
    | zero =>
      have h1 := le_max_left (max c.r (max c.g c.b))
        (t.foldr (fun c m => max (max c.r (max c.g c.b)) m) 0)
      refine ⟨?_, ?_, ?_⟩ <;> simp only [lcell, List.getD_cons_zero,
        List.foldr_cons] <;> omega
    | succ i =>
      have h2 := le_max_right (max c.r (max c.g c.b))
        (t.foldr (fun c m => max (max c.r (max c.g c.b)) m) 0)
      obtain ⟨i1, i2, i3⟩ := ih i
      have hc : lcell (c :: t) (i + 1) = lcell t i := by simp [lcell]
      rw [List.foldr_cons, hc]
      exact ⟨le_trans i1 h2, le_trans i2 h2, le_trans i3 h2⟩

theorem RGB.black_sub (k : ℕ) : RGB.black.sub k = RGB.black := by
  simp [RGB.sub, RGB.black]

theorem Lightmap.pin_iff_dims {lm : Lightmap} {w h d : ℕ}
    (hd : lm.dims = (w, h, d)) (p : Pos) : lm.PIn p ↔ inb w h d p := by
  unfold Lightmap.PIn
  unfold Lightmap.dims at hd
  rw [show lm.width = w from congrArg Prod.fst hd,
    show lm.height = h from congrArg (fun t : ℕ × ℕ × ℕ => t.2.1) hd,
    show lm.depth = d from congrArg (fun t : ℕ × ℕ × ℕ => t.2.2) hd]

theorem Lightmap.getp_new (w h d : ℕ) (p : Pos) :
    (Lightmap.new w h d).getp p = RGB.black :=
  Lightmap.getv_new w h d _ _ _

theorem flood_getp_mono (enter : Pos → Option ℕ) (fuel : ℕ) (lm : Lightmap)
    (q : List Pos) (v : Pos) :
    RGB.Le (lm.getp v) ((flood enter fuel lm q).1.getp v) := by
  rw [Lightmap.getp_eq_cell (flood enter fuel lm q).1,
    Lightmap.getp_eq_cell lm,
    Lightmap.pidx_congr (flood_dims enter fuel lm q).1]
  exact flood_cell_mono enter fuel lm q _

theorem enterBin_some {grid : LightGrid} {w h d a : ℕ} {n : Pos} {k : ℕ}
    (he : enterBin grid w h d a n = some k) :
    inb w h d n ∧ grid n.1 n.2.1 n.2.2 = true ∧ k = a := by
  unfold enterBin at he
  split at he
  · next hc => exact ⟨hc.1, hc.2, (Option.some_inj.mp he).symm⟩
  · exact absurd he (Option.noConfusion)

theorem enterBin_some_of {grid : LightGrid} {w h d a : ℕ} {n : Pos}
    (h1 : inb w h d n) (h2 : grid n.1 n.2.1 n.2.2 = true) :
    enterBin grid w h d a n = some a := by
  unfold enterBin
  rw [if_pos ⟨h1, h2⟩]

/-- Master characterization of `propagate` on a fresh lightmap: every
in-bounds voxel ends at the steady-state value — the per-channel maximum
over sources of the color minus the cheapest admitted-path cost. -/
theorem propagate_new_characterization (w h d : ℕ) (grid : LightGrid)
    (sources : List LightSource) (a : ℕ)
    (hsrc : ∀ src ∈ sources, SrcIn (Lightmap.new w h d) src)
    (v : Pos) (hv : inb w h d v) (i : ℕ) :
    ((propagate (Lightmap.new w h d) sources grid a).getp v).channel i
      = claimedCh (enterBin grid w h d a) sources v i := by
  set lm0 : Lightmap := Lightmap.new w h d with hlm0
  set enter : Pos → Option ℕ := enterBin grid w h d a with hent
  set s : Lightmap × List Pos := seedAll lm0 sources with hs
  set B : ℕ := s.1.maxChan with hB
  set fuel : ℕ := floodFuel s.1 s.2 with hfuel
  have hdim0 : lm0.dims = (w, h, d) := rfl
  have hsdims : s.1.dims = (w, h, d) := by
    rw [hs, seedAll_eq_seedFold]
    exact (seedFold_dims sources (lm0, [])).1
  have hpin_s : ∀ p, s.1.PIn p ↔ inb w h d p :=
    Lightmap.pin_iff_dims hsdims
  have Henter : ∀ n k, enter n = some k → s.1.PIn n := by
    intro n k he
    rw [hpin_s]
    exact (enterBin_some he).1
  have hwfs : s.1.Wf := by
    rw [hs, seedAll_eq_seedFold]
    exact seedFold_wf sources (lm0, []) (Lightmap.new_wf w h d)
  have hqin : ∀ x ∈ s.2, s.1.PIn x := by
    intro x hx
    rw [hs, seedAll_eq_seedFold] at hx
    obtain ⟨ext, he, hm⟩ := seedFold_queue sources (lm0, [])
    rw [he] at hx
    rcases List.mem_append.mp hx with hx | hx
    · simp at hx
    · rw [hpin_s, ← Lightmap.pin_iff_dims hdim0]
      exact (hm x hx).2
  have hinv : FloodInv enter B s.1 s.2 :=
    ⟨hwfs, hB ▸ maxChan_bound s.1, hqin, Henter⟩
  have hfuel_ok : s.2.length + pot B s.1.data + 1 ≤ fuel := by
    rw [hfuel]
    unfold floodFuel
    have h1 := pot_le B s.1.data
    have h2 : s.1.data.length * (3 * B) = 3 * B * s.1.data.length := by ring
    rw [← hB]
    omega
  set run : Lightmap × List Pos := flood enter fuel s.1 s.2 with hrun
  have hqempty : run.2 = [] := (flood_run enter B fuel s.1 s.2 hinv hfuel_ok).1
  have hprop : propagate lm0 sources grid a = run.1 := rfl
  have hrdims : run.1.dims = (w, h, d) := by
    rw [hrun]
    exact (flood_dims enter fuel s.1 s.2).1.trans hsdims
  have hpin_r : ∀ p, run.1.PIn p ↔ inb w h d p :=
    Lightmap.pin_iff_dims hrdims
  -- upper bound
  have hupper : ∀ p, inb w h d p →
      RGB.Le (run.1.getp p) (claimedRGB enter sources p) := by
    intro p hp
    refine flood_upper (claimedRGB enter sources) enter B fuel
      (claimed_superstable enter sources) s.1 s.2 hinv ?_ p ((hpin_r p).mpr hp)
    rw [hs, seedAll_eq_seedFold]
    intro v1 hv1
    rw [Lightmap.pin_congr (seedFold_dims sources (lm0, [])).1] at hv1
    refine seedFold_upper (claimedRGB enter sources) sources (lm0, [])
      (Lightmap.new_wf w h d) (fun src h1 => claimed_seed_le h1) ?_ v1 hv1
    intro v2 _
    rw [show (lm0, ([] : List Pos)).1.getp v2 = RGB.black from
      Lightmap.getp_new w h d v2]
    exact RGB.black_le _
  -- pending invariant holds initially, hence the final state is relaxed
  have hpend0 : Pending enter s.1 s.2 := by
    intro p hp hnq off hoff k he
    have huntq : s.1.getp p = RGB.black := by
      rw [hs, seedAll_eq_seedFold] at hnq ⊢
      rw [seedFold_untouched sources (lm0, [])
        (by rw [Lightmap.pin_iff_dims hdim0]
            rw [hpin_s] at hp
            exact hp) hnq]
      exact Lightmap.getp_new w h d p
    rw [huntq, RGB.black_sub]
    exact RGB.black_le _
  have hrel : ∀ p, run.1.PIn p → ∀ off ∈ offsets, ∀ k,
      enter (p.add off) = some k →
      RGB.Le ((run.1.getp p).sub k) (run.1.getp (p.add off)) := by
    intro p hp off hoff k he
    have hpend := flood_pending enter B fuel s.1 s.2 hinv hpend0
    rw [← hrun] at hpend
    exact hpend p hp (by rw [hqempty]; simp) off hoff k he
  -- lower bound
  have hlower : claimedCh enter sources v i ≤ (run.1.getp v).channel i := by
    apply claimedCh_le
    rintro m ⟨src, hsrcm, c, hr, rfl⟩
    have hsin : run.1.PIn src.pos := by
      rw [hpin_r, ← Lightmap.pin_iff_dims hdim0]
      exact pin_of_srcIn (hsrc src hsrcm)
    have hstart : RGB.Le src.color (run.1.getp src.pos) := by
      have hmono : RGB.Le (s.1.getp src.pos) (run.1.getp src.pos) := by
        rw [hrun]
        exact flood_getp_mono enter fuel s.1 s.2 src.pos
      refine RGB.Le.trans ?_ hmono
      rw [hs, seedAll_eq_seedFold]
      exact seedFold_seeded sources (lm0, []) (Lightmap.new_wf w h d)
        src hsrcm (hsrc src hsrcm)
    have Henter_r : ∀ n k, enter n = some k → run.1.PIn n := by
      intro n k he
      rw [hpin_r]
      exact (enterBin_some he).1
    exact reach_lower Henter_r hrel hsin hr hstart i
  have hch : (run.1.getp v).channel i ≤ claimedCh enter sources v i := by
    have := hupper v hv
    rw [RGB.le_iff_channel] at this
    have h1 := this i
    rw [claimedRGB_channel] at h1
    exact h1
  rw [hprop]
  exact le_antisymm hch hlower

/-!
### Claim C1: the steady-state invariant of `propagate`

The claim states the invariant in the unified opacity vocabulary of the
spec: a transparent in-bounds voxel of the binary grid has opacity 0,
anything else (opaque, or outside the bounded region) opacity 255; a
step into a voxel with opacity other than 255 costs
`attenuation + opacity`.
-/

/-- Per-voxel opacity of a binary-transparency grid over a bounded
region, as the spec's unified opacity model reads it. -/
def binOpacity (grid : LightGrid) (w h d : ℕ) (n : Pos) : ℕ :=
  if inb w h d n ∧ grid n.1 n.2.1 n.2.2 then 0 else 255

/-- 6-connected paths avoiding opacity-255 voxels, each step charging
`attenuation + opacity` of the entered voxel. -/
inductive PathCost (om : Pos → ℕ) (a : ℕ) (s : Pos) : Pos → ℕ → Prop
  | refl : PathCost om a s s 0
  | step {p : Pos} {c : ℕ} {off : Pos} :
      PathCost om a s p c → off ∈ offsets → om (p.add off) ≠ 255 →
      PathCost om a s (p.add off) (c + (a + om (p.add off)))

/-- One channel of the claim's steady state: the maximum over sources
and admissible paths of `saturating_sub(color, cost)`. -/
noncomputable def claimedOpCh (om : Pos → ℕ) (a : ℕ)
    (sources : List LightSource) (v : Pos) (i : ℕ) : ℕ :=
  sSup {m | ∃ src ∈ sources, ∃ c, PathCost om a src.pos v c
    ∧ m = src.color.channel i - c}

theorem binOpacity_ne_255 {grid : LightGrid} {w h d : ℕ} {n : Pos} :
    binOpacity grid w h d n ≠ 255
      ↔ (inb w h d n ∧ grid n.1 n.2.1 n.2.2 = true) := by
  unfold binOpacity
  split
  · next hc => simpa using hc
  · next hc => simpa using hc

theorem binOpacity_eq_zero {grid : LightGrid} {w h d : ℕ} {n : Pos}
    (hne : binOpacity grid w h d n ≠ 255) : binOpacity grid w h d n = 0 := by
  unfold binOpacity at hne ⊢
  split
  · rfl
  · next hc =>
      rw [if_neg hc] at hne
      exact absurd rfl hne

theorem pathCost_iff_reachE (grid : LightGrid) (w h d a : ℕ) (s v : Pos)
    (c : ℕ) :
    PathCost (binOpacity grid w h d) a s v c
      ↔ ReachE (enterBin grid w h d a) s v c := by
  constructor
  · intro hp
    induction hp with
    | refl => exact ReachE.refl
    | step hp hoff hom ih =>
      rename_i p c0 off
      obtain ⟨h1, h2⟩ := binOpacity_ne_255.mp hom
      have hz := binOpacity_eq_zero hom
      rw [hz]
      exact ReachE.step ih hoff (enterBin_some_of h1 h2)
  · intro hr
    induction hr with
    | refl => exact PathCost.refl
    | step hr hoff he ih =>
      rename_i p c0 off k
      obtain ⟨h1, h2, rfl⟩ := enterBin_some he
      have hom : binOpacity grid w h d (p.add off) ≠ 255 :=
        binOpacity_ne_255.mpr ⟨h1, h2⟩
      have hz := binOpacity_eq_zero hom
      have : PathCost (binOpacity grid w h d) k s (p.add off)
          (c0 + (k + binOpacity grid w h d (p.add off))) :=
        PathCost.step ih hoff hom
      rw [hz] at this
      exact this

theorem claimedOpCh_eq (grid : LightGrid) (w h d a : ℕ)
    (sources : List LightSource) (v : Pos) (i : ℕ) :
    claimedOpCh (binOpacity grid w h d) a sources v i
      = claimedCh (enterBin grid w h d a) sources v i := by
  unfold claimedOpCh claimedCh
  congr 1
  ext m
  constructor
  · rintro ⟨src, hsrc, c, hp, rfl⟩
    exact ⟨src, hsrc, c, (pathCost_iff_reachE grid w h d a _ v c).mp hp, rfl⟩
  · rintro ⟨src, hsrc, c, hr, rfl⟩
    exact ⟨src, hsrc, c, (pathCost_iff_reachE grid w h d a _ v c).mpr hr, rfl⟩

/-- The master characterization in the spec's opacity vocabulary. -/
theorem propagate_opacity_steady_state (w h d : ℕ) (grid : LightGrid)
    (sources : List LightSource) (a : ℕ)
    (hsrc : ∀ src ∈ sources, src.x < w ∧ src.y < h ∧ src.z < d)
    (x y z : ℕ) (hx : x < w) (hy : y < h) (hz : z < d) (i : ℕ) :
    ((propagate (Lightmap.new w h d) sources grid a).getv x y z).channel i
      = claimedOpCh (binOpacity grid w h d) a sources
          ((x : ℤ), (y : ℤ), (z : ℤ)) i := by
  rw [claimedOpCh_eq]
  have hv : inb w h d ((x : ℤ), (y : ℤ), (z : ℤ)) := by
    unfold inb
    refine ⟨?_, ?_, ?_, ?_, ?_, ?_⟩ <;> simp <;> omega
  exact propagate_new_characterization w h d grid sources a hsrc
    ((x : ℤ), (y : ℤ), (z : ℤ)) hv i

/-- Claim C1: after `propagate` runs to completion on a fresh bounded
grid with in-bounds seeds, every voxel's stored light equals, per
channel, the maximum over every seed `s` of
`saturating_sub(color(s), cost(s, v))`, where `cost` is the minimal sum
over 6-connected paths avoiding opacity-255 voxels of
`attenuation + opacity(entered voxel)` per step (for the binary grid:
opacity 0 for transparent in-bounds voxels, 255 otherwise). Overlapping
contributions of different sources merge per channel by maximum — the
supremum of the contribution set — never by addition. -/
theorem c1_propagate_steady_state (w h d : ℕ) (grid : LightGrid)
    (sources : List LightSource) (a : ℕ)
    (hsrc : ∀ src ∈ sources, src.x < w ∧ src.y < h ∧ src.z < d)
    (x y z : ℕ) (hx : x < w) (hy : y < h) (hz : z < d) (i : ℕ) :
    ((propagate (Lightmap.new w h d) sources grid a).getv x y z).channel i
      = claimedOpCh (binOpacity grid w h d) a sources
          ((x : ℤ), (y : ℤ), (z : ℤ)) i :=
  propagate_opacity_steady_state w h d grid sources a hsrc x y z hx hy hz i

/-- Witness for C1 at a concrete instance. -/
theorem c1_propagate_steady_state_witness :
    ((propagate (Lightmap.new 2 1 1) [⟨0, 0, 0, ⟨9, 5, 0⟩⟩]
        (fun _ _ _ => true) 4).getv 1 0 0).channel 0
      = claimedOpCh (binOpacity (fun _ _ _ => true) 2 1 1) 4
          [⟨0, 0, 0, ⟨9, 5, 0⟩⟩] ((1 : ℤ), (0 : ℤ), (0 : ℤ)) 0 :=
  c1_propagate_steady_state 2 1 1 (fun _ _ _ => true)
    [⟨0, 0, 0, ⟨9, 5, 0⟩⟩] 4 (by decide) 1 0 0 (by decide) (by decide)
    (by decide) 0

theorem RGB.black_maxc (c : RGB) : RGB.maxc RGB.black c = c := by
  cases c
  simp [RGB.maxc, RGB.black]

theorem Lightmap.pin_of_inBounds {lm : Lightmap} {x y z : ℕ}
    (hb : lm.InBounds x y z) : lm.PIn ((x : ℤ), (y : ℤ), (z : ℤ)) := by
  obtain ⟨h1, h2, h3⟩ := hb
  unfold Lightmap.PIn inb
  refine ⟨?_, ?_, ?_, ?_, ?_, ?_⟩ <;> simp <;> omega

theorem Lightmap.getp_natCast (lm : Lightmap) (x y z : ℕ) :
    lm.getp ((x : ℤ), (y : ℤ), (z : ℤ)) = lm.getv x y z := rfl

/-- `propagate`, restated through the worklist pieces. -/
theorem propagate_eq (lm : Lightmap) (sources : List LightSource)
    (grid : LightGrid) (a : ℕ) :
    propagate lm sources grid a
      = (floodRun (enterBin grid lm.width lm.height lm.depth a)
          (seedAll lm sources).1 (seedAll lm sources).2).1 := rfl

/-!
### Claim C6: fully opaque voxels are never written
-/

/-- Claim C6: throughout a run of `propagate`, a non-transparent voxel
that is not a seed position is never written: its light is exactly what
it was before the call, in particular it stays `[0,0,0]` when it started
there. Light can only pass such a wall along paths of transparent
voxels. -/
theorem c6_opaque_voxel_never_lit (lm : Lightmap)
    (sources : List LightSource) (grid : LightGrid) (a : ℕ)
    (x y z : ℕ) (hb : lm.InBounds x y z)
    (hopq : grid (x : ℤ) (y : ℤ) (z : ℤ) = false)
    (hnotseed : ∀ src ∈ sources, ¬(src.x = x ∧ src.y = y ∧ src.z = z)) :
    (propagate lm sources grid a).getv x y z = lm.getv x y z
    ∧ (lm.getv x y z = RGB.black →
        (propagate lm sources grid a).getv x y z = RGB.black) := by
  set p0 : Pos := ((x : ℤ), (y : ℤ), (z : ℤ)) with hp0
  set enter : Pos → Option ℕ :=
    enterBin grid lm.width lm.height lm.depth a with hent
  set s : Lightmap × List Pos := seedAll lm sources with hs
  set run : Lightmap × List Pos :=
    flood enter (floodFuel s.1 s.2) s.1 s.2 with hrun
  have hprop : propagate lm sources grid a = run.1 := rfl
  have hpin : lm.PIn p0 := Lightmap.pin_of_inBounds hb
  have hsdims : s.1.dims = lm.dims := by
    rw [hs, seedAll_eq_seedFold]
    exact (seedFold_dims sources (lm, [])).1
  have hpin_s : s.1.PIn p0 := by
    rw [Lightmap.pin_congr hsdims]
    exact hpin
  have step2 : s.1.getp p0 = lm.getp p0 := by
    by_contra hchg
    have hcell : lcell s.1.data (lm.pidx p0) ≠ lcell lm.data (lm.pidx p0) := by
      intro hc
      apply hchg
      rw [Lightmap.getp_eq_cell s.1, Lightmap.getp_eq_cell lm,
        Lightmap.pidx_congr hsdims, hc]
    rw [hs, seedAll_eq_seedFold] at hcell
    obtain ⟨x1, hx1q, hx1pin, hx1idx⟩ :=
      seedFold_changed sources (lm, []) _ hcell
    have hx1eq : p0 = x1 := Lightmap.pidx_inj hpin hx1pin hx1idx
    obtain ⟨ext, heq, hm⟩ := seedFold_queue sources (lm, [])
    rw [heq] at hx1q
    rcases List.mem_append.mp hx1q with hq | hq
    · simp at hq
    · obtain ⟨⟨src, hsrcm, rfl⟩, _⟩ := hm x1 hq
      apply hnotseed src hsrcm
      have e1 : ((src.x : ℤ), (src.y : ℤ), (src.z : ℤ))
          = ((x : ℤ), (y : ℤ), (z : ℤ)) := hx1eq.symm
      refine ⟨?_, ?_, ?_⟩ <;>
        [exact Nat.cast_injective (congrArg Prod.fst e1);
         exact Nat.cast_injective (congrArg (fun t : Pos => t.2.1) e1);
         exact Nat.cast_injective (congrArg (fun t : Pos => t.2.2) e1)]
  have step1 : run.1.getp p0 = s.1.getp p0 := by
    by_contra hchg
    have hcell : lcell run.1.data (s.1.pidx p0)
        ≠ lcell s.1.data (s.1.pidx p0) := by
      intro hc
      apply hchg
      rw [Lightmap.getp_eq_cell run.1, Lightmap.getp_eq_cell s.1,
        Lightmap.pidx_congr (flood_dims enter (floodFuel s.1 s.2) s.1 s.2).1,
        hc]
    rw [hrun] at hcell
    obtain ⟨x1, ⟨k, hk⟩, hidx⟩ :=
      flood_untouched enter (floodFuel s.1 s.2) s.1 s.2 _ hcell
    obtain ⟨hinb, hgrid, _⟩ := enterBin_some hk
    have hx1pin : s.1.PIn x1 := by
      rw [Lightmap.pin_congr hsdims]
      exact hinb
    have hx1eq : p0 = x1 := Lightmap.pidx_inj hpin_s hx1pin hidx
    rw [← hx1eq] at hgrid
    rw [hp0] at hgrid
    simp only [] at hgrid
    rw [hgrid] at hopq
    exact Bool.noConfusion hopq
  have hmain : (propagate lm sources grid a).getv x y z = lm.getv x y z := by
    rw [hprop, ← Lightmap.getp_natCast, ← Lightmap.getp_natCast, ← hp0]
    rw [step1, step2]
  exact ⟨hmain, fun hblack => hmain.trans hblack⟩

/-- Witness for C6: a wall voxel next to a source stays black. -/
theorem c6_opaque_voxel_never_lit_witness :
    (propagate (Lightmap.new 3 1 1) [⟨0, 0, 0, ⟨255, 255, 255⟩⟩]
        (fun x1 _ _ => decide (x1 ≠ 2)) 17).getv 2 0 0
      = (Lightmap.new 3 1 1).getv 2 0 0
    ∧ ((Lightmap.new 3 1 1).getv 2 0 0 = RGB.black →
        (propagate (Lightmap.new 3 1 1) [⟨0, 0, 0, ⟨255, 255, 255⟩⟩]
          (fun x1 _ _ => decide (x1 ≠ 2)) 17).getv 2 0 0 = RGB.black) :=
  c6_opaque_voxel_never_lit (Lightmap.new 3 1 1)
    [⟨0, 0, 0, ⟨255, 255, 255⟩⟩] (fun x1 _ _ => decide (x1 ≠ 2)) 17
    2 0 0 (by decide) (by decide) (by decide)

/-!
### Claim C9: out-of-bounds sources are skipped
-/

theorem seedFold_oob (l : List LightSource) (s : Lightmap × List Pos)
    (hoob : ∀ src ∈ l, ¬ SrcIn s.1 src) : seedFold l s = s := by
  induction l with
  | nil => rfl
  | cons src l ih =>
    rw [seedFold_cons]
    have hone : seedOne s src = s := by
      rcases seedOne_cases s src with ⟨h, _⟩ | ⟨hin, _⟩
      · exact h
      · exact absurd hin (hoob src (List.mem_cons_self _ _))
    rw [hone]
    exact ih (fun src1 h1 => hoob src1 (List.mem_cons_of_mem _ h1))

/-- Claim C9: when every source lies outside the lightmap bounds, the
seeding pass skips them all, the worklist starts empty, and `propagate`
leaves the lightmap completely unchanged — no error, no partial write. -/
theorem c9_all_sources_out_of_bounds (lm : Lightmap)
    (sources : List LightSource) (grid : LightGrid) (a : ℕ)
    (hoob : ∀ src ∈ sources,
      ¬(src.x < lm.width ∧ src.y < lm.height ∧ src.z < lm.depth)) :
    propagate lm sources grid a = lm := by
  have hseed : seedAll lm sources = (lm, []) := by
    rw [seedAll_eq_seedFold]
    exact seedFold_oob sources (lm, []) hoob
  rw [propagate_eq, hseed]
  show (flood (enterBin grid lm.width lm.height lm.depth a)
      (floodFuel lm []) lm []).1 = lm
  unfold floodFuel
  rw [flood_succ_nil]

/-- Witness for C9 at a concrete instance. -/
theorem c9_all_sources_out_of_bounds_witness :
    propagate (Lightmap.new 3 3 3)
      [⟨10, 0, 0, ⟨255, 255, 255⟩⟩, ⟨0, 99, 0, ⟨255, 255, 255⟩⟩]
      (fun _ _ _ => true) 17 = Lightmap.new 3 3 3 :=
  c9_all_sources_out_of_bounds (Lightmap.new 3 3 3)
    [⟨10, 0, 0, ⟨255, 255, 255⟩⟩, ⟨0, 99, 0, ⟨255, 255, 255⟩⟩]
    (fun _ _ _ => true) 17 (by decide)

/-!
### Claim C10: seeds are written regardless of their own transparency
-/

/-- Claim C10: `propagate` writes the max-merged seed color into every
in-bounds seed voxel without consulting that voxel's transparency —
the final value dominates the seed color for any grid — and on a fully
opaque fresh grid a single in-bounds source ends with exactly its own
color while every other voxel stays `[0,0,0]`. -/
theorem c10_seed_ignores_own_transparency :
    (∀ (lm : Lightmap), lm.Wf → ∀ sources grid a, ∀ src ∈ sources,
      SrcIn lm src →
      RGB.Le src.color
        ((propagate lm sources grid a).getv src.x src.y src.z))
    ∧ (∀ w h d (grid : LightGrid) a (src : LightSource),
        SrcIn (Lightmap.new w h d) src →
        (∀ x1 y1 z1 : ℤ, grid x1 y1 z1 = false) →
        (propagate (Lightmap.new w h d) [src] grid a).getv src.x src.y src.z
          = src.color
        ∧ ∀ x1 y1 z1 : ℕ, (Lightmap.new w h d).InBounds x1 y1 z1 →
            ¬(x1 = src.x ∧ y1 = src.y ∧ z1 = src.z) →
            (propagate (Lightmap.new w h d) [src] grid a).getv x1 y1 z1
              = RGB.black) := by
  constructor
  · intro lm hwf sources grid a src hsrc hin
    rw [← Lightmap.getp_natCast]
    show RGB.Le src.color ((propagate lm sources grid a).getp src.pos)
    rw [propagate_eq]
    unfold floodRun
    refine RGB.Le.trans ?_ (flood_getp_mono _ _ _ _ src.pos)
    rw [seedAll_eq_seedFold]
    exact seedFold_seeded sources (lm, []) hwf src hsrc hin
  · intro w h d grid a src hin hgrid
    set lm0 : Lightmap := Lightmap.new w h d with hlm0
    set enter : Pos → Option ℕ := enterBin grid w h d a with hent
    have henter_none : ∀ n, enter n = none := by
      intro n
      rw [hent]
      unfold enterBin
      rw [if_neg]
      rintro ⟨_, hg⟩
      rw [hgrid n.1 n.2.1 n.2.2] at hg
      exact Bool.noConfusion hg
    set s : Lightmap × List Pos := seedAll lm0 [src] with hs
    set run : Lightmap × List Pos :=
      flood enter (floodFuel s.1 s.2) s.1 s.2 with hrun
    have hprop : propagate lm0 [src] grid a = run.1 := rfl
    have hsdims : s.1.dims = lm0.dims := by
      rw [hs, seedAll_eq_seedFold]
      exact (seedFold_dims [src] (lm0, [])).1
    have hflood_same : ∀ v : Pos, run.1.getp v = s.1.getp v := by
      intro v
      by_contra hchg
      have hcell : lcell run.1.data (s.1.pidx v)
          ≠ lcell s.1.data (s.1.pidx v) := by
        intro hc
        apply hchg
        rw [Lightmap.getp_eq_cell run.1, Lightmap.getp_eq_cell s.1,
          Lightmap.pidx_congr
            (flood_dims enter (floodFuel s.1 s.2) s.1 s.2).1, hc]
      rw [hrun] at hcell
      obtain ⟨x1, ⟨k, hk⟩, _⟩ :=
        flood_untouched enter (floodFuel s.1 s.2) s.1 s.2 _ hcell
      rw [henter_none x1] at hk
      exact Option.noConfusion hk
    have hseed_eq : s.1 = lm0.setp src.pos
        (RGB.maxc (lm0.getp src.pos) src.color) := by
      rw [hs, seedAll_eq_seedFold]
      show (seedOne (lm0, []) src).1 = _
      rcases seedOne_cases (lm0, []) src with ⟨_, hno⟩ | ⟨_, heq⟩
      · exact absurd hin hno
      · rw [heq]
    have hpin_src : lm0.PIn src.pos := pin_of_srcIn hin
    constructor
    · rw [hprop, ← Lightmap.getp_natCast]
      show run.1.getp src.pos = src.color
      rw [hflood_same src.pos, hseed_eq,
        Lightmap.getp_setp_self (Lightmap.new_wf w h d) hpin_src,
        Lightmap.getp_new, RGB.black_maxc]
    · intro x1 y1 z1 hb1 hne1
      rw [hprop, ← Lightmap.getp_natCast]
      show run.1.getp ((x1 : ℤ), (y1 : ℤ), (z1 : ℤ)) = RGB.black
      have hpin1 : lm0.PIn ((x1 : ℤ), (y1 : ℤ), (z1 : ℤ)) :=
        Lightmap.pin_of_inBounds hb1
      have hne : lm0.pidx src.pos
          ≠ lm0.pidx ((x1 : ℤ), (y1 : ℤ), (z1 : ℤ)) := by
        intro hc
        have he := Lightmap.pidx_inj hpin_src hpin1 hc
        apply hne1
        refine ⟨?_, ?_, ?_⟩ <;>
          [exact (Nat.cast_injective (congrArg Prod.fst he)).symm;
           exact (Nat.cast_injective (congrArg (fun t : Pos => t.2.1) he)).symm;
           exact (Nat.cast_injective (congrArg (fun t : Pos => t.2.2) he)).symm]
      rw [hflood_same, hseed_eq, Lightmap.getp_setp_ne hne, Lightmap.getp_new]

/-- Witness for C10 at a concrete instance. -/
theorem c10_seed_ignores_own_transparency_witness :
    RGB.Le (⟨200, 150, 100⟩ : RGB)
      ((propagate (Lightmap.new 2 2 2) [⟨1, 1, 0, ⟨200, 150, 100⟩⟩]
        (fun _ _ _ => false) 17).getv 1 1 0)
    ∧ ((propagate (Lightmap.new 5 5 5) [⟨2, 2, 2, ⟨255, 255, 255⟩⟩]
        (fun _ _ _ => false) 17).getv 2 2 2 = ⟨255, 255, 255⟩
      ∧ (propagate (Lightmap.new 5 5 5) [⟨2, 2, 2, ⟨255, 255, 255⟩⟩]
          (fun _ _ _ => false) 17).getv 3 2 2 = RGB.black) := by
  refine ⟨?_, ?_, ?_⟩
  · exact c10_seed_ignores_own_transparency.1 (Lightmap.new 2 2 2)
      (Lightmap.new_wf 2 2 2) [⟨1, 1, 0, ⟨200, 150, 100⟩⟩]
      (fun _ _ _ => false) 17 ⟨1, 1, 0, ⟨200, 150, 100⟩⟩
      (List.mem_singleton.mpr rfl) (by decide)
  · exact (c10_seed_ignores_own_transparency.2 5 5 5 (fun _ _ _ => false) 17
      ⟨2, 2, 2, ⟨255, 255, 255⟩⟩ (by decide) (fun _ _ _ => rfl)).1
  · exact (c10_seed_ignores_own_transparency.2 5 5 5 (fun _ _ _ => false) 17
      ⟨2, 2, 2, ⟨255, 255, 255⟩⟩ (by decide) (fun _ _ _ => rfl)).2
      3 2 2 (by decide) (by decide)

/-!
### Claim C7: termination, and zero-attenuation saturation
-/

theorem reach_trans {enter : Pos → Option ℕ} {s p v : Pos} {c1 c2 : ℕ}
    (h1 : ReachE enter s p c1) (h2 : ReachE enter p v c2) :
    ReachE enter s v (c1 + c2) := by
  induction h2 with
  | refl => exact h1
  | step h2 hoff he ih =>
    rename_i q c off k
    rw [← Nat.add_assoc]
    exact ReachE.step ih hoff he

/-- In a fully open bounded grid, every in-bounds voxel is reachable
from every in-bounds start. -/
theorem reach_open {grid : LightGrid}
    (hopen : ∀ x y z : ℤ, grid x y z = true) (w h d a : ℕ) {s : Pos}
    (hs : inb w h d s) :
    ∀ v : Pos, inb w h d v →
      ∃ c, ReachE (enterBin grid w h d a) s v c := by
  suffices H : ∀ n (v : Pos), inb w h d v →
      (v.1 - s.1).natAbs + (v.2.1 - s.2.1).natAbs + (v.2.2 - s.2.2).natAbs
        = n →
      ∃ c, ReachE (enterBin grid w h d a) s v c by
    intro v hv
    exact H _ v hv rfl
  intro n
  induction n using Nat.strong_induction_on with
  | _ n ih =>
    intro v hv hn
    obtain ⟨hs1, hs2, hs3, hs4, hs5, hs6⟩ := hs
    obtain ⟨hv1, hv2, hv3, hv4, hv5, hv6⟩ := hv
    have hkey : ∀ (v' off : Pos), off ∈ offsets → v = Pos.add v' off →
        inb w h d v' →
        (v'.1 - s.1).natAbs + (v'.2.1 - s.2.1).natAbs
          + (v'.2.2 - s.2.2).natAbs < n →
        ∃ c, ReachE (enterBin grid w h d a) s v c := by
      intro v' off hoff heq hv'in hlt
      obtain ⟨c, hc⟩ := ih _ hlt v' hv'in rfl
      refine ⟨c + a, ?_⟩
      have he : enterBin grid w h d a (Pos.add v' off) = some a :=
        enterBin_some_of (heq ▸ ⟨hv1, hv2, hv3, hv4, hv5, hv6⟩)
          (hopen _ _ _)
      exact heq ▸ ReachE.step hc hoff he
    by_cases hx : v.1 = s.1
    · by_cases hy : v.2.1 = s.2.1
      · by_cases hz : v.2.2 = s.2.2
        · have hvs : v = s := Prod.ext hx (Prod.ext hy hz)
          exact ⟨0, hvs ▸ ReachE.refl⟩
        · rcases lt_or_gt_of_ne hz with hlt | hgt
          · refine hkey (v.1, v.2.1, v.2.2 + 1) (0, 0, -1) (by decide) ?_ ?_ ?_
            · refine Prod.ext ?_ (Prod.ext ?_ ?_) <;>
                dsimp only [Pos.add] <;> omega
            · unfold inb
              dsimp only
              omega
            · dsimp only
              omega
          · refine hkey (v.1, v.2.1, v.2.2 - 1) (0, 0, 1) (by decide) ?_ ?_ ?_
            · refine Prod.ext ?_ (Prod.ext ?_ ?_) <;>
                dsimp only [Pos.add] <;> omega
            · unfold inb
              dsimp only
              omega
            · dsimp only
              omega
      · rcases lt_or_gt_of_ne hy with hlt | hgt
        · refine hkey (v.1, v.2.1 + 1, v.2.2) (0, -1, 0) (by decide) ?_ ?_ ?_
          · refine Prod.ext ?_ (Prod.ext ?_ ?_) <;>
              dsimp only [Pos.add] <;> omega
          · unfold inb
            dsimp only
            omega
          · dsimp only
            omega
        · refine hkey (v.1, v.2.1 - 1, v.2.2) (0, 1, 0) (by decide) ?_ ?_ ?_
          · refine Prod.ext ?_ (Prod.ext ?_ ?_) <;>
              dsimp only [Pos.add] <;> omega
          · unfold inb
            dsimp only
            omega
          · dsimp only
            omega
    · rcases lt_or_gt_of_ne hx with hlt | hgt
      · refine hkey (v.1 + 1, v.2.1, v.2.2) (-1, 0, 0) (by decide) ?_ ?_ ?_
        · refine Prod.ext ?_ (Prod.ext ?_ ?_) <;>
            dsimp only [Pos.add] <;> omega
        · unfold inb
          dsimp only
          omega
        · dsimp only
          omega
      · refine hkey (v.1 - 1, v.2.1, v.2.2) (1, 0, 0) (by decide) ?_ ?_ ?_
        · refine Prod.ext ?_ (Prod.ext ?_ ?_) <;>
            dsimp only [Pos.add] <;> omega
        · unfold inb
          dsimp only
          omega
        · dsimp only
          omega

theorem reach_zero_cost {grid : LightGrid} {w h d : ℕ} {s v : Pos} {c : ℕ}
    (hr : ReachE (enterBin grid w h d 0) s v c) : c = 0 := by
  induction hr with
  | refl => rfl
  | step hr hoff he ih =>
    have := (enterBin_some he).2.2
    omega

/-- The invariants and fuel bound of a `propagate` call on any
well-formed lightmap. -/
theorem propagate_inv (lm : Lightmap) (hwf : lm.Wf)
    (sources : List LightSource) (grid : LightGrid) (a : ℕ) :
    FloodInv (enterBin grid lm.width lm.height lm.depth a)
        (seedAll lm sources).1.maxChan
        (seedAll lm sources).1 (seedAll lm sources).2
    ∧ (seedAll lm sources).2.length
        + pot (seedAll lm sources).1.maxChan (seedAll lm sources).1.data + 1
      ≤ floodFuel (seedAll lm sources).1 (seedAll lm sources).2 := by
  set s : Lightmap × List Pos := seedAll lm sources with hs
  have hsdims : s.1.dims = lm.dims := by
    rw [hs, seedAll_eq_seedFold]
    exact (seedFold_dims sources (lm, [])).1
  have hpin_s : ∀ p, s.1.PIn p ↔ lm.PIn p := by
    intro p
    rw [Lightmap.pin_congr hsdims]
  have Henter : ∀ n k, enterBin grid lm.width lm.height lm.depth a n = some k
      → s.1.PIn n := by
    intro n k he
    rw [hpin_s]
    exact (enterBin_some he).1
  have hwfs : s.1.Wf := by
    rw [hs, seedAll_eq_seedFold]
    exact seedFold_wf sources (lm, []) hwf
  have hqin : ∀ x ∈ s.2, s.1.PIn x := by
    intro x hx
    rw [hs, seedAll_eq_seedFold] at hx
    obtain ⟨ext, he, hm⟩ := seedFold_queue sources (lm, [])
    rw [he] at hx
    rcases List.mem_append.mp hx with hx | hx
    · simp at hx
    · rw [hpin_s]
      exact (hm x hx).2
  refine ⟨⟨hwfs, maxChan_bound s.1, hqin, Henter⟩, ?_⟩
  unfold floodFuel
  have h1 := pot_le s.1.maxChan s.1.data
  have h2 : s.1.data.length * (3 * s.1.maxChan)
      = 3 * s.1.maxChan * s.1.data.length := by ring
  omega

/-- Claim C7: `propagate` terminates for every finite grid, seed list and
attenuation, including 0 — the worklist provably empties within the
computed fuel bound, and running with any larger fuel changes nothing —
and with attenuation 0 in a fully open fresh grid every voxel converges
to exactly the seed color. -/
theorem c7_terminates_and_zero_attenuation_fills :
    (∀ (lm : Lightmap), lm.Wf → ∀ sources grid a g,
      floodFuel (seedAll lm sources).1 (seedAll lm sources).2 ≤ g →
      flood (enterBin grid lm.width lm.height lm.depth a) g
          (seedAll lm sources).1 (seedAll lm sources).2
        = flood (enterBin grid lm.width lm.height lm.depth a)
            (floodFuel (seedAll lm sources).1 (seedAll lm sources).2)
            (seedAll lm sources).1 (seedAll lm sources).2
      ∧ (flood (enterBin grid lm.width lm.height lm.depth a) g
          (seedAll lm sources).1 (seedAll lm sources).2).2 = [])
    ∧ (∀ w h d (grid : LightGrid) (src : LightSource),
        (∀ x1 y1 z1 : ℤ, grid x1 y1 z1 = true) →
        SrcIn (Lightmap.new w h d) src →
        ∀ x y z : ℕ, x < w → y < h → z < d →
        (propagate (Lightmap.new w h d) [src] grid 0).getv x y z
          = src.color) := by
  constructor
  · intro lm hwf sources grid a g hg
    obtain ⟨hinv, hfuel⟩ := propagate_inv lm hwf sources grid a
    obtain ⟨hq, hirr⟩ := flood_run (enterBin grid lm.width lm.height lm.depth a)
      (seedAll lm sources).1.maxChan
      (floodFuel (seedAll lm sources).1 (seedAll lm sources).2)
      (seedAll lm sources).1 (seedAll lm sources).2 hinv hfuel
    have heq := hirr g (le_trans hfuel hg)
    exact ⟨heq, heq ▸ hq⟩
  · intro w h d grid src hopen hin x y z hx hy hz
    have hsrc : ∀ s0 ∈ [src], s0.x < w ∧ s0.y < h ∧ s0.z < d := by
      intro s0 h0
      rw [List.mem_singleton] at h0
      subst h0
      exact hin
    rw [RGB.eq_iff_channel]
    intro i
    rw [propagate_opacity_steady_state w h d grid [src] 0 hsrc x y z hx hy
      hz i, claimedOpCh_eq]
    have hspin : inb w h d src.pos :=
      @pin_of_srcIn (Lightmap.new w h d) src hin
    have hvpin : inb w h d ((x : ℤ), (y : ℤ), (z : ℤ)) := by
      unfold inb
      refine ⟨?_, ?_, ?_, ?_, ?_, ?_⟩ <;> simp <;> omega
    obtain ⟨c, hc⟩ := reach_open hopen w h d 0 hspin
      ((x : ℤ), (y : ℤ), (z : ℤ)) hvpin
    have hc0 : c = 0 := reach_zero_cost hc
    subst hc0
    apply le_antisymm
    · apply claimedCh_le
      rintro m ⟨src1, hsrc1, c1, hr1, rfl⟩
      rw [List.mem_singleton] at hsrc1
      subst hsrc1
      exact Nat.sub_le _ _
    · refine claimedCh_ge ⟨src, List.mem_singleton.mpr rfl, 0, hc, ?_⟩
      omega

/-- Witness for C7 at a concrete instance. -/
theorem c7_terminates_and_zero_attenuation_fills_witness :
    (flood (enterBin (fun _ _ _ => true) (Lightmap.new 2 1 1).width
        (Lightmap.new 2 1 1).height (Lightmap.new 2 1 1).depth 17) 4000
        (seedAll (Lightmap.new 2 1 1) [⟨0, 0, 0, ⟨9, 9, 9⟩⟩]).1
        (seedAll (Lightmap.new 2 1 1) [⟨0, 0, 0, ⟨9, 9, 9⟩⟩]).2).2 = []
    ∧ (propagate (Lightmap.new 2 2 1) [⟨0, 0, 0, ⟨200, 150, 100⟩⟩]
        (fun _ _ _ => true) 0).getv 1 1 0 = ⟨200, 150, 100⟩ := by
  constructor
  · have h := (c7_terminates_and_zero_attenuation_fills.1 (Lightmap.new 2 1 1)
      (Lightmap.new_wf 2 1 1) [⟨0, 0, 0, ⟨9, 9, 9⟩⟩] (fun _ _ _ => true) 17
      4000 (by decide)).2
    exact h
  · exact c7_terminates_and_zero_attenuation_fills.2 2 2 1 (fun _ _ _ => true)
      ⟨0, 0, 0, ⟨200, 150, 100⟩⟩ (fun _ _ _ => rfl) (by decide)
      1 1 0 (by decide) (by decide) (by decide)

/-!
### The opacity-scalar lighting variant

The repository's test suite (src/lighting/tests/propagation_tests.rs)
exercises a second propagation design over the `LightingWorld` trait of
src/lighting/lighting_world.rs: per-voxel scalar opacity, seeds given as
coordinates whose light the caller has already written, and a step cost
of `saturating_add(attenuation, opacity(entered))`. The implementation
file of this variant is not part of the sources — only the trait
declaration and the tests are — so `propagateW`, `propagateSkyW` and
`unpropagateW` below are modelled from the specification (§4.2-§4.5),
pinned by those tests.
-/

/-- The `TestWorld` of propagation_tests.rs: a lightmap wrapped with an
opacity function; out-of-bounds coordinates read opacity 255 and light
black, and writes outside the bounds are dropped. -/
structure TWorld where
  lm : Lightmap
  opac : ℤ → ℤ → ℤ → ℕ

/-- `get_opacity` of the test world (propagation_tests.rs lines 32-37). -/
def TWorld.getOpacity (wd : TWorld) (c : Pos) : ℕ :=
  if wd.lm.PIn c then wd.opac c.1 c.2.1 c.2.2 else 255

/-- `get_light` of the test world (lines 39-44). -/
def TWorld.getLight (wd : TWorld) (c : Pos) : RGB :=
  if wd.lm.PIn c then wd.lm.getp c else RGB.black

/-- `set_light` of the test world (lines 46-50). -/
def TWorld.setLight (wd : TWorld) (c : Pos) (col : RGB) : TWorld :=
  if wd.lm.PIn c then { wd with lm := wd.lm.setp c col } else wd

/-- Modelled from the spec: the admission test and step cost of the
opacity-scalar propagator (§4.3, steps missing from the sources): light
cannot enter a voxel of opacity 255 (out-of-region coordinates report
255 per §4.2, which subsumes the bounds checks), and an admitted step
costs `saturating_add(attenuation, opacity(entered))`. -/
def enterW (wd : TWorld) (a : ℕ) (n : Pos) : Option ℕ :=
  if wd.getOpacity n = 255 then none
  else some (min 255 (a + wd.getOpacity n))

/-- Modelled from the spec: `propagate(world, seeds, attenuation)` of
the opacity-scalar variant (§4.3): enqueue the seed coordinates, whose
light the caller has already written through `set_light`, then run the
same FIFO relaxation worklist with the opacity step cost. The worklist
reads light through the backing lightmap, which agrees with `get_light`
on every in-region coordinate; all theorems below seed in-region
coordinates only. -/
def propagateW (wd : TWorld) (seeds : List Pos) (a : ℕ) : TWorld :=
  { wd with lm := (floodRun (enterW wd a) wd.lm seeds).1 }

/-- Integers from `lo` upward, `n` of them. -/
def ascRange (lo hi : ℤ) : List ℤ :=
  (List.range (hi + 1 - lo).toNat).map (fun (i : ℕ) => lo + (i : ℤ))

/-- Integers from `hi` downward to `lo`. -/
def descRange (hi lo : ℤ) : List ℤ :=
  (List.range (hi + 1 - lo).toNat).map (fun (i : ℕ) => hi - (i : ℤ))

/-- Modelled from the spec: one (x, z) column scan of `propagate_sky`
(§4.5): walk the given y values (top down), keep a running intensity
that starts at the sky color, stop the whole column at the first
opacity-255 voxel, otherwise attenuate the intensity by that voxel's
own opacity only (no per-step distance cost), write it, and collect the
coordinate as a propagation seed when the intensity is non-zero. -/
def skyColumn (x z : ℤ) : TWorld → RGB → List ℤ → List Pos →
    TWorld × List Pos
  | wd, _, [], seeds => (wd, seeds)
  | wd, intensity, y :: ys, seeds =>
      if wd.getOpacity (x, y, z) = 255 then (wd, seeds)
      else
        skyColumn x z
          (wd.setLight (x, y, z) (intensity.sub (wd.getOpacity (x, y, z))))
          (intensity.sub (wd.getOpacity (x, y, z))) ys
          (if intensity.sub (wd.getOpacity (x, y, z)) = RGB.black then seeds
           else seeds ++ [(x, y, z)])

/-- The (x, z) pairs of the bounding box, x-major. -/
def xzPairs (mn mx : Pos) : List (ℤ × ℤ) :=
  ((ascRange mn.1 mx.1).map
    (fun x => (ascRange mn.2.2 mx.2.2).map (fun z => (x, z)))).flatten

/-- Modelled from the spec: the column-scan phase of `propagate_sky`
over the whole bounding box. -/
def skyScan (wd : TWorld) (mn mx : Pos) (sky : RGB) : TWorld × List Pos :=
  (xzPairs mn mx).foldl
    (fun s xz => skyColumn xz.1 xz.2 s.1 sky (descRange mx.2.1 mn.2.1) s.2)
    (wd, [])

/-- Modelled from the spec:
`propagate_sky(world, min, max, sky_color, attenuation)` (§4.5): scan
every column of the box, then invoke the propagator once with all
collected seeds and the given attenuation. -/
def propagateSkyW (wd : TWorld) (mn mx : Pos) (sky : RGB) (a : ℕ) :
    TWorld :=
  propagateW (skyScan wd mn mx sky).1 (skyScan wd mn mx sky).2 a

/-- The `seed_and_propagate` helper of propagation_tests.rs (lines
53-66): write each source color through `set_light`, then propagate
from the seed coordinates. -/
def seedAndPropagateW (wd : TWorld) (sources : List (Pos × RGB)) (a : ℕ) :
    TWorld :=
  propagateW
    (sources.foldl (fun w sc => w.setLight sc.1 sc.2) wd)
    (sources.map (fun sc => sc.1)) a

/-- Modelled from the spec: one siphon visit of the removal engine
(§4.4, implementation missing from the sources): compare the neighbor's
current light to `old - (attenuation + opacity(neighbor))` per channel
(the same saturating step cost as propagation). On an exact non-black
match the neighbor's light is consistent with having been derived solely
from the removed voxel: zero it and enqueue it with its own old value.
Otherwise (including the vacuous all-black match, which there is nothing
left to siphon from) record it as a refill seed and leave it untouched. -/
def siphonNeighbor (a : ℕ) (old : RGB) (n : Pos)
    (s : TWorld × List (Pos × RGB) × List Pos) :
    TWorld × List (Pos × RGB) × List Pos :=
  if s.1.getLight n = old.sub (min 255 (a + s.1.getOpacity n))
      ∧ s.1.getLight n ≠ RGB.black then
    (s.1.setLight n RGB.black, s.2.1 ++ [(n, s.1.getLight n)], s.2.2)
  else
    (s.1, s.2.1, s.2.2 ++ [n])

/-- One popped siphon entry: visit the six face neighbors in the order
of `Coordinates::neighbors` (coordinates.rs lines 18-27, the same order
as the propagation offsets). -/
def siphonStep (a : ℕ) (old : RGB) (p : Pos)
    (s : TWorld × List (Pos × RGB) × List Pos) :
    TWorld × List (Pos × RGB) × List Pos :=
  offsets.foldl (fun s off => siphonNeighbor a old (p.add off) s) s

/-- Modelled from the spec: the siphon worklist of the removal engine
(§4.4), with explicit fuel; `unpropagateW` always supplies enough. -/
def siphonLoop (a : ℕ) : ℕ → TWorld → List (Pos × RGB) → List Pos →
    TWorld × List Pos
  | 0, wd, _, refills => (wd, refills)
  | _ + 1, wd, [], refills => (wd, refills)
  | fuel + 1, wd, (p, old) :: rest, refills =>
      let s := siphonStep a old p (wd, rest, refills)
      siphonLoop a fuel s.1 s.2.1 s.2.2

/-- Total remaining light of a world, for the siphon fuel bound. -/
def TWorld.lightSum (wd : TWorld) : ℕ := (wd.lm.data.map RGB.sum).sum

/-- Modelled from the spec: the seed phase of the removal engine (§4.4):
for each removal seed record its current light, zero the voxel and
enqueue the coordinate with the recorded value. -/
def siphonInit (wd : TWorld) (seeds : List Pos) :
    TWorld × List (Pos × RGB) :=
  seeds.foldl
    (fun s c => (s.1.setLight c RGB.black, s.2 ++ [(c, s.1.getLight c)]))
    (wd, [])

/-- Modelled from the spec: `unpropagate(world, seeds, attenuation)`
(§4.4): siphon pass — for each removal seed record its light, zero it
and enqueue it with that old value, then retract outward — followed by
the refill pass: propagate from the collected refill seeds with their
current light values. -/
def unpropagateW (wd : TWorld) (seeds : List Pos) (a : ℕ) : TWorld :=
  let init := siphonInit wd seeds
  let sip := siphonLoop a (init.2.length + wd.lightSum + 1) init.1 init.2 []
  propagateW sip.1 sip.2 a

/-!
### Claim C3: opacity is charged on entering a voxel
-/

/-- The value stored at an admitted relaxation target is always the
per-channel merge of its old value with
`saturating_sub(L, step cost)` — the three skip branches all coincide
with the merge. -/
theorem relax_result (enter : Pos → Option ℕ) (cur : RGB) (p off : Pos)
    (lm : Lightmap) (q : List Pos) (hwf : lm.Wf) {k : ℕ}
    (he : enter (p.add off) = some k) (hin : lm.PIn (p.add off)) :
    (relax enter cur p off (lm, q)).1.getp (p.add off)
      = RGB.maxc (lm.getp (p.add off)) (cur.sub k) := by
  unfold relax
  rw [he]
  dsimp only
  by_cases hb : cur.sub k = RGB.black
  · rw [if_pos hb, hb]
    exact (RGB.maxc_eq_of_le (RGB.black_le _)).symm
  · rw [if_neg hb]
    by_cases hg : RGB.anyGt (cur.sub k) ((lm, q).1.getp (p.add off)) = true
    · rw [if_pos hg]
      simp only []
      rw [Lightmap.getp_setp_self hwf hin]
    · rw [if_neg hg]
      exact (RGB.maxc_eq_of_le
        ((RGB.anyGt_false_iff _ _).mp (bool_eq_false hg))).symm

theorem enterW_some {wd : TWorld} {a : ℕ} {n : Pos}
    (hop : wd.getOpacity n ≠ 255) :
    enterW wd a n = some (min 255 (a + wd.getOpacity n)) := by
  unfold enterW
  rw [if_neg hop]

theorem getOpacity_pin {wd : TWorld} {n : Pos}
    (hop : wd.getOpacity n ≠ 255) : wd.lm.PIn n := by
  unfold TWorld.getOpacity at hop
  by_cases hpin : wd.lm.PIn n
  · exact hpin
  · rw [if_neg hpin] at hop
    exact absurd rfl hop

/-- Claim C3: in the opacity-scalar propagator, every relaxation into a
non-opaque neighbor `n` stores per channel
`max(current, saturating_sub(L, saturating_add(attenuation, opacity(n))))`
— the neighbor's own opacity is charged, on top of the fixed
per-step attenuation, when light enters that voxel and not when it
leaves it: in the corridor of the repository's test with a single
opacity-30 block at x = 2 and attenuation 17, entering the block costs
17 + 30 (238 to 191) while leaving it costs only 17 (191 to 174). -/
theorem c3_opacity_charged_on_entry :
    (∀ (wd : TWorld) (a : ℕ) (cur : RGB) (p off : Pos) (q : List Pos),
      wd.lm.Wf → wd.getOpacity (p.add off) ≠ 255 →
      (relax (enterW wd a) cur p off (wd.lm, q)).1.getp (p.add off)
        = RGB.maxc (wd.lm.getp (p.add off))
            (cur.sub (min 255 (a + wd.getOpacity (p.add off)))))
    ∧ ((seedAndPropagateW ⟨Lightmap.new 5 1 1,
          fun x _ _ => if x = 2 then 30 else 0⟩
          [(((0 : ℤ), (0 : ℤ), (0 : ℤ)), ⟨255, 255, 255⟩)] 17).getLight
            ((1 : ℤ), (0 : ℤ), (0 : ℤ)) = ⟨238, 238, 238⟩
      ∧ (seedAndPropagateW ⟨Lightmap.new 5 1 1,
          fun x _ _ => if x = 2 then 30 else 0⟩
          [(((0 : ℤ), (0 : ℤ), (0 : ℤ)), ⟨255, 255, 255⟩)] 17).getLight
            ((2 : ℤ), (0 : ℤ), (0 : ℤ)) = ⟨191, 191, 191⟩
      ∧ (seedAndPropagateW ⟨Lightmap.new 5 1 1,
          fun x _ _ => if x = 2 then 30 else 0⟩
          [(((0 : ℤ), (0 : ℤ), (0 : ℤ)), ⟨255, 255, 255⟩)] 17).getLight
            ((3 : ℤ), (0 : ℤ), (0 : ℤ)) = ⟨174, 174, 174⟩) := by
  constructor
  · intro wd a cur p off q hwf hop
    exact relax_result (enterW wd a) cur p off wd.lm q hwf
      (enterW_some hop) (getOpacity_pin hop)
  · refine ⟨?_, ?_, ?_⟩ <;> decide

/-- Witness for the quantified part of C3 at a concrete relaxation. -/
theorem c3_opacity_charged_on_entry_witness :
    (relax (enterW ⟨Lightmap.new 2 1 1, fun _ _ _ => 30⟩ 17)
        ⟨255, 255, 255⟩ ((0 : ℤ), (0 : ℤ), (0 : ℤ))
        ((1 : ℤ), (0 : ℤ), (0 : ℤ)) ((Lightmap.new 2 1 1), [])).1.getp
        (Pos.add ((0 : ℤ), (0 : ℤ), (0 : ℤ)) ((1 : ℤ), (0 : ℤ), (0 : ℤ)))
      = RGB.maxc ((Lightmap.new 2 1 1).getp
          (Pos.add ((0 : ℤ), (0 : ℤ), (0 : ℤ)) ((1 : ℤ), (0 : ℤ), (0 : ℤ))))
          ((⟨255, 255, 255⟩ : RGB).sub
            (min 255 (17 + (TWorld.getOpacity
              ⟨Lightmap.new 2 1 1, fun _ _ _ => 30⟩
              (Pos.add ((0 : ℤ), (0 : ℤ), (0 : ℤ))
                ((1 : ℤ), (0 : ℤ), (0 : ℤ))))))) :=
  c3_opacity_charged_on_entry.1 ⟨Lightmap.new 2 1 1, fun _ _ _ => 30⟩ 17
    ⟨255, 255, 255⟩ ((0 : ℤ), (0 : ℤ), (0 : ℤ)) ((1 : ℤ), (0 : ℤ), (0 : ℤ))
    [] (Lightmap.new_wf 2 1 1) (by decide)

/-!
### Claim C4: the sky column scan
-/

theorem RGB.sub_sub (c : RGB) (a b : ℕ) : (c.sub a).sub b = c.sub (a + b) := by
  simp [RGB.sub, Nat.sub_sub]

theorem Lightmap.setp_dims (lm : Lightmap) (n : Pos) (c : RGB) :
    (lm.setp n c).dims = lm.dims := rfl

theorem TWorld.setLight_dims (wd : TWorld) (n : Pos) (c : RGB) :
    (wd.setLight n c).lm.dims = wd.lm.dims := by
  unfold TWorld.setLight
  split <;> rfl

theorem TWorld.setLight_opacFn (wd : TWorld) (n : Pos) (c : RGB) :
    (wd.setLight n c).opac = wd.opac := by
  unfold TWorld.setLight
  split <;> rfl

theorem TWorld.setLight_getOpacity (wd : TWorld) (n : Pos) (c : RGB)
    (v : Pos) : (wd.setLight n c).getOpacity v = wd.getOpacity v := by
  unfold TWorld.getOpacity
  have hpin : (wd.setLight n c).lm.PIn v ↔ wd.lm.PIn v := by
    rw [Lightmap.pin_congr (TWorld.setLight_dims wd n c)]
  rw [TWorld.setLight_opacFn]
  by_cases hv : wd.lm.PIn v
  · rw [if_pos hv, if_pos (hpin.mpr hv)]
  · rw [if_neg hv, if_neg (fun hc => hv (hpin.mp hc))]

theorem Lightmap.setp_wf {lm : Lightmap} (hwf : lm.Wf) (n : Pos) (c : RGB) :
    (lm.setp n c).Wf :=
  Lightmap.setv_wf hwf _ _ _ c

theorem TWorld.setLight_wf {wd : TWorld} (hwf : wd.lm.Wf) (n : Pos)
    (c : RGB) : (wd.setLight n c).lm.Wf := by
  unfold TWorld.setLight
  split
  · exact Lightmap.setp_wf hwf n c
  · exact hwf

theorem TWorld.setLight_getLight_self {wd : TWorld} (hwf : wd.lm.Wf)
    {v : Pos} (hv : wd.lm.PIn v) (c : RGB) :
    (wd.setLight v c).getLight v = c := by
  unfold TWorld.setLight TWorld.getLight
  rw [if_pos hv]
  simp only []
  rw [if_pos (show (wd.lm.setp v c).PIn v from
    (Lightmap.pin_congr (Lightmap.setp_dims wd.lm v c)).symm ▸ hv)]
  exact Lightmap.getp_setp_self hwf hv c

theorem TWorld.setLight_getLight_ne {wd : TWorld} {n v : Pos}
    (hv : wd.lm.PIn v) (hne : n ≠ v) (c : RGB) :
    (wd.setLight n c).getLight v = wd.getLight v := by
  unfold TWorld.setLight
  split
  · next hn =>
    unfold TWorld.getLight
    simp only []
    rw [if_pos (show (wd.lm.setp n c).PIn v from
        (Lightmap.pin_congr (Lightmap.setp_dims wd.lm n c)).symm ▸ hv),
      if_pos hv]
    exact Lightmap.getp_setp_ne
      (fun hc => hne (Lightmap.pidx_inj hn hv hc)) c
  · rfl

theorem skyColumn_stop {wd : TWorld} {x z y : ℤ} {ys : List ℤ}
    {inten : RGB} {seeds : List Pos}
    (hop : wd.getOpacity (x, y, z) = 255) :
    skyColumn x z wd inten (y :: ys) seeds = (wd, seeds) := by
  unfold skyColumn
  rw [if_pos hop]

theorem skyColumn_cons {wd : TWorld} {x z y : ℤ} {ys : List ℤ}
    {inten : RGB} {seeds : List Pos}
    (hop : wd.getOpacity (x, y, z) ≠ 255) :
    skyColumn x z wd inten (y :: ys) seeds
      = skyColumn x z
          (wd.setLight (x, y, z) (inten.sub (wd.getOpacity (x, y, z))))
          (inten.sub (wd.getOpacity (x, y, z))) ys
          (if inten.sub (wd.getOpacity (x, y, z)) = RGB.black then seeds
           else seeds ++ [(x, y, z)]) := by
  conv_lhs => unfold skyColumn
  rw [if_neg hop]

theorem skyColumn_untouched (x z : ℤ) (ys : List ℤ) :
    ∀ (wd : TWorld) (inten : RGB) (seeds : List Pos) (v : Pos),
    wd.lm.PIn v → (∀ y ∈ ys, v ≠ (x, y, z)) →
    (skyColumn x z wd inten ys seeds).1.getLight v = wd.getLight v := by
  induction ys with
  | nil => intro wd inten seeds v _ _; rfl
  | cons y ytl ih =>
    intro wd inten seeds v hv hne
    by_cases hop : wd.getOpacity (x, y, z) = 255
    · rw [skyColumn_stop hop]
    · rw [skyColumn_cons hop]
      have hv' : (wd.setLight (x, y, z)
          (inten.sub (wd.getOpacity (x, y, z)))).lm.PIn v := by
        rw [show (wd.setLight (x, y, z)
            (inten.sub (wd.getOpacity (x, y, z)))).lm.PIn = wd.lm.PIn from
          Lightmap.pin_congr (TWorld.setLight_dims wd _ _)]
        exact hv
      rw [ih _ _ _ v hv' (fun y1 h1 => hne y1 (List.mem_cons_of_mem _ h1))]
      exact TWorld.setLight_getLight_ne hv
        (fun hc => hne y (List.mem_cons_self _ _) hc.symm) _

theorem skyColumn_value (x z : ℤ) (ys : List ℤ) :
    ∀ (wd : TWorld) (inten : RGB) (seeds : List Pos), wd.lm.Wf →
    ys.Nodup →
    ∀ (k : ℕ) (hk : k < ys.length),
    (∀ i (hi : i < ys.length), i ≤ k →
      wd.getOpacity (x, ys.get ⟨i, hi⟩, z) ≠ 255) →
    wd.lm.PIn (x, ys.get ⟨k, hk⟩, z) →
    (skyColumn x z wd inten ys seeds).1.getLight (x, ys.get ⟨k, hk⟩, z)
      = inten.sub
          (((ys.take (k + 1)).map (fun y => wd.getOpacity (x, y, z))).sum) := by
  induction ys with
  | nil =>
    intro wd inten seeds _ _ k hk
    simp at hk
  | cons y ytl ih =>
    intro wd inten seeds hwf hnodup k hk hops hin
    have hop0 : wd.getOpacity (x, y, z) ≠ 255 :=
      hops 0 (by simp) (Nat.zero_le _)
    rw [skyColumn_cons hop0]
    cases k with
    | zero =>
      have hget0 : (y :: ytl).get ⟨0, hk⟩ = y := rfl
      rw [hget0] at hin ⊢
      have hv' : (wd.setLight (x, y, z)
          (inten.sub (wd.getOpacity (x, y, z)))).lm.PIn (x, y, z) := by
        rw [show (wd.setLight (x, y, z)
            (inten.sub (wd.getOpacity (x, y, z)))).lm.PIn = wd.lm.PIn from
          Lightmap.pin_congr (TWorld.setLight_dims wd _ _)]
        exact hin
      have hnot : ∀ y1 ∈ ytl, ((x, y, z) : Pos) ≠ (x, y1, z) := by
        intro y1 h1 hc
        have : y = y1 := congrArg (fun t : Pos => t.2.1) hc
        rw [this] at hnodup
        exact (List.nodup_cons.mp hnodup).1 h1
      rw [skyColumn_untouched x z ytl _ _ _ _ hv' hnot,
        TWorld.setLight_getLight_self hwf hin]
      simp
    | succ j =>
      have hjlt : j < ytl.length := by simpa using hk
      have hget : (y :: ytl).get ⟨j + 1, hk⟩ = ytl.get ⟨j, hjlt⟩ := rfl
      rw [hget] at hin ⊢
      have hwf' := TWorld.setLight_wf hwf (x, y, z)
        (inten.sub (wd.getOpacity (x, y, z)))
      have hops' : ∀ i (hi : i < ytl.length), i ≤ j →
          (wd.setLight (x, y, z)
            (inten.sub (wd.getOpacity (x, y, z)))).getOpacity
              (x, ytl.get ⟨i, hi⟩, z) ≠ 255 := by
        intro i hi hij
        rw [TWorld.setLight_getOpacity]
        exact hops (i + 1) (by simpa using hi) (by omega)
      have hin' : (wd.setLight (x, y, z)
          (inten.sub (wd.getOpacity (x, y, z)))).lm.PIn
            (x, ytl.get ⟨j, hjlt⟩, z) := by
        rw [show (wd.setLight (x, y, z)
            (inten.sub (wd.getOpacity (x, y, z)))).lm.PIn = wd.lm.PIn from
          Lightmap.pin_congr (TWorld.setLight_dims wd _ _)]
        exact hin
      rw [ih _ _ _ hwf' (List.nodup_cons.mp hnodup).2 j hjlt hops' hin']
      have hfe : (fun y1 => (wd.setLight (x, y, z)
          (inten.sub (wd.getOpacity (x, y, z)))).getOpacity (x, y1, z))
          = fun y1 => wd.getOpacity (x, y1, z) :=
        funext fun y1 => TWorld.setLight_getOpacity wd _ _ _
      rw [hfe, RGB.sub_sub]
      have htake : (y :: ytl).take (j + 1 + 1) = y :: ytl.take (j + 1) := rfl
      rw [htake, List.map_cons, List.sum_cons]

theorem descRange_length (hi lo : ℤ) :
    (descRange hi lo).length = (hi + 1 - lo).toNat := by
  rw [descRange, List.length_map, List.length_range]

theorem descRange_get (hi lo : ℤ) (i : ℕ) (h : i < (descRange hi lo).length) :
    (descRange hi lo).get ⟨i, h⟩ = hi - (i : ℤ) := by
  simp only [descRange] at h ⊢
  rw [List.get_eq_getElem, List.getElem_map, List.getElem_range]

theorem descRange_nodup (hi lo : ℤ) : (descRange hi lo).Nodup := by
  refine List.Nodup.map ?_ (List.nodup_range _)
  intro a b hab
  simp only [] at hab
  omega

theorem descRange_take (hi lo : ℤ) (m : ℕ) (h : m ≤ (hi + 1 - lo).toNat) :
    (descRange hi lo).take m
      = (List.range m).map (fun (i : ℕ) => hi - (i : ℤ)) := by
  rw [descRange, ← List.map_take, List.take_range]
  have hm : min m (hi + 1 - lo).toNat = m := by omega
  rw [hm]

/-- Claim C4: the sky seeder scans each column top-down with a running
intensity that starts at the sky color: a voxel of opacity 255 stops the
column; every other voxel attenuates the running intensity by its own
opacity only — no fixed per-step vertical cost — receives that
attenuated intensity, and is collected as a seed when non-zero; the
voxel `k` steps below the top of an open column prefix therefore holds
the sky color minus the summed opacities of the top `k + 1` voxels.
Afterwards the propagator is invoked once with all collected seeds and
the given attenuation. Pinned by the repository's semi-opaque sky test:
sky 200, opacity 50 at y = 3 gives 200 at y = 4, then 150 at y = 3 and
still 150 at y = 2. -/
theorem c4_sky_column_scan :
    (∀ (wd : TWorld) (x z yTop yBot : ℤ) (sky : RGB) (seeds : List Pos)
      (k : ℕ), wd.lm.Wf → (k : ℤ) ≤ yTop - yBot →
      (∀ i : ℕ, i ≤ k → wd.getOpacity (x, yTop - (i : ℤ), z) ≠ 255) →
      wd.lm.PIn (x, yTop - (k : ℤ), z) →
      (skyColumn x z wd sky (descRange yTop yBot) seeds).1.getLight
          (x, yTop - (k : ℤ), z)
        = sky.sub (((List.range (k + 1)).map
            (fun (i : ℕ) => wd.getOpacity (x, yTop - (i : ℤ), z))).sum))
    ∧ (∀ (wd : TWorld) (x z y : ℤ) (ys : List ℤ) (inten : RGB)
        (seeds : List Pos), wd.getOpacity (x, y, z) = 255 →
        skyColumn x z wd inten (y :: ys) seeds = (wd, seeds))
    ∧ (∀ (wd : TWorld) (mn mx : Pos) (sky : RGB) (a : ℕ),
        propagateSkyW wd mn mx sky a
          = propagateW (skyScan wd mn mx sky).1 (skyScan wd mn mx sky).2 a)
    ∧ ((propagateSkyW ⟨Lightmap.new 1 5 1, fun _ y _ => if y = 3 then 50
          else 0⟩ (0, 0, 0) (0, 4, 0) ⟨200, 200, 200⟩ 17).getLight
          ((0 : ℤ), (4 : ℤ), (0 : ℤ)) = ⟨200, 200, 200⟩
      ∧ (propagateSkyW ⟨Lightmap.new 1 5 1, fun _ y _ => if y = 3 then 50
          else 0⟩ (0, 0, 0) (0, 4, 0) ⟨200, 200, 200⟩ 17).getLight
          ((0 : ℤ), (3 : ℤ), (0 : ℤ)) = ⟨150, 150, 150⟩
      ∧ (propagateSkyW ⟨Lightmap.new 1 5 1, fun _ y _ => if y = 3 then 50
          else 0⟩ (0, 0, 0) (0, 4, 0) ⟨200, 200, 200⟩ 17).getLight
          ((0 : ℤ), (2 : ℤ), (0 : ℤ)) = ⟨150, 150, 150⟩) := by
  refine ⟨?_, ?_, ?_, ?_, ?_, ?_⟩
  · intro wd x z yTop yBot sky seeds k hwf hk hops hin
    have hklen : k < (descRange yTop yBot).length := by
      rw [descRange_length]
      omega
    have hget : (descRange yTop yBot).get ⟨k, hklen⟩ = yTop - (k : ℤ) :=
      descRange_get yTop yBot k hklen
    have hops' : ∀ i (hi : i < (descRange yTop yBot).length), i ≤ k →
        wd.getOpacity (x, (descRange yTop yBot).get ⟨i, hi⟩, z) ≠ 255 := by
      intro i hi hik
      rw [descRange_get]
      exact hops i hik
    have hin' : wd.lm.PIn (x, (descRange yTop yBot).get ⟨k, hklen⟩, z) := by
      rw [hget]
      exact hin
    have hval := skyColumn_value x z (descRange yTop yBot) wd sky seeds hwf
      (descRange_nodup yTop yBot) k hklen hops' hin'
    rw [hget] at hval
    rw [hval, descRange_take yTop yBot (k + 1) (by omega), List.map_map]
    rfl
  · intro wd x z y ys inten seeds hop
    exact skyColumn_stop hop
  · intro wd mn mx sky a
    rfl
  · decide
  · decide
  · decide

/-- Witness for the quantified parts of C4 at a concrete column. -/
theorem c4_sky_column_scan_witness :
    (skyColumn 0 0 ⟨Lightmap.new 1 5 1, fun _ y _ => if y = 3 then 50
        else 0⟩ ⟨200, 200, 200⟩ (descRange 4 0) []).1.getLight
        ((0 : ℤ), (4 : ℤ) - ((1 : ℕ) : ℤ), (0 : ℤ))
      = (⟨200, 200, 200⟩ : RGB).sub (((List.range (1 + 1)).map
          (fun (i : ℕ) => TWorld.getOpacity ⟨Lightmap.new 1 5 1,
            fun _ y _ => if y = 3 then 50 else 0⟩
            ((0 : ℤ), (4 : ℤ) - (i : ℤ), (0 : ℤ)))).sum)
    ∧ skyColumn 0 0 ⟨Lightmap.new 3 3 3, fun _ _ _ => 255⟩ ⟨200, 200, 200⟩
        ((2 : ℤ) :: [(1 : ℤ), 0]) []
      = (⟨Lightmap.new 3 3 3, fun _ _ _ => 255⟩, []) := by
  constructor
  · exact c4_sky_column_scan.1 ⟨Lightmap.new 1 5 1,
      fun _ y _ => if y = 3 then 50 else 0⟩ 0 0 4 0 ⟨200, 200, 200⟩ [] 1
      (Lightmap.new_wf 1 5 1) (by decide) (by decide) (by decide)
  · exact c4_sky_column_scan.2.1 ⟨Lightmap.new 3 3 3, fun _ _ _ => 255⟩
      0 0 2 [(1 : ℤ), 0] ⟨200, 200, 200⟩ [] (by decide)

theorem join_bytes_length (l : List RGB) :
    ((l.map RGB.bytes).flatten).length = l.length * 3 := by
  induction l with
  | nil => simp
  | cons c t ih => simp [RGB.bytes, ih]; ring

theorem join_bytes_get (l : List RGB) (k i : ℕ) (hi : i < 3) :
    ((l.map RGB.bytes).flatten)[3 * k + i]?
      = (l[k]?).map (fun c => c.channel i) := by
  induction l generalizing k with
  | nil => simp
  | cons c t ih =>
    simp only [List.map_cons, List.flatten_cons]
    cases k with
    | zero =>
      simp only [Nat.mul_zero, Nat.zero_add]
      interval_cases i <;>
        simp [RGB.bytes, List.cons_append, RGB.channel]
    | succ k =>
      have h1 : 3 * (k + 1) + i = (RGB.bytes c).length + (3 * k + i) := by
        show _ = 3 + _
        ring
      rw [h1, List.getElem?_append_right (Nat.le_add_right _ _),
        Nat.add_sub_cancel_left, ih k, List.getElem?_cons_succ]

/-- Claim C8: `as_bytes` is a flat, tightly packed buffer of exactly
`width * height * depth * 3` bytes, and the byte at position
`3 * (x + y*width + z*width*height) + i` is channel `i` of voxel
`(x, y, z)` — voxels ordered x fastest, then y, then z, channels in the
store's native order. -/
theorem c8_as_bytes_layout (lm : Lightmap) (hwf : lm.Wf) :
    lm.as_bytes.length = lm.width * lm.height * lm.depth * 3
    ∧ ∀ x y z i, lm.InBounds x y z → i < 3 →
        lm.as_bytes[3 * lm.index x y z + i]?
          = some ((lm.getv x y z).channel i) := by
  constructor
  · rw [Lightmap.as_bytes, join_bytes_length, hwf]
  · intro x y z i hb hi
    have hlt := Lightmap.index_lt_length hwf hb
    rw [Lightmap.as_bytes, join_bytes_get _ _ _ hi]
    rw [List.getElem?_eq_getElem hlt]
    unfold Lightmap.getv
    rw [List.getD_eq_getElem?_getD, List.getElem?_eq_getElem hlt]
    rfl

/-- Witness for C8 at a concrete lightmap. -/
theorem c8_as_bytes_layout_witness :
    (Lightmap.new 2 1 1).as_bytes.length = 2 * 1 * 1 * 3
    ∧ ∀ x y z i, (Lightmap.new 2 1 1).InBounds x y z → i < 3 →
        (Lightmap.new 2 1 1).as_bytes[3 * (Lightmap.new 2 1 1).index x y z + i]?
          = some (((Lightmap.new 2 1 1).getv x y z).channel i) :=
  c8_as_bytes_layout (Lightmap.new 2 1 1) (Lightmap.new_wf 2 1 1)

/-!
### Claim C2: siphon-and-refill inverts propagation of a single source

`ReachH` refines `ReachE` with an explicit hop count. For a reachable
voxel, `distW` is the least admitted-path cost and `hopsW` the least hop
count among paths of that cost; the steady state of a single pre-written
seed is the seed color truncated-minus the least cost.
-/

inductive ReachH (enter : Pos → Option ℕ) (s : Pos) : Pos → ℕ → ℕ → Prop
  | refl : ReachH enter s s 0 0
  | step {p : Pos} {c k : ℕ} {off : Pos} {j : ℕ} :
      ReachH enter s p c k → off ∈ offsets → enter (p.add off) = some j →
      ReachH enter s (p.add off) (c + j) (k + 1)

theorem reachE_iff_reachH (enter : Pos → Option ℕ) (s v : Pos) (c : ℕ) :
    ReachE enter s v c ↔ ∃ k, ReachH enter s v c k := by
  constructor
  · intro h
    induction h with
    | refl => exact ⟨0, ReachH.refl⟩
    | step hr hoff he ih =>
      obtain ⟨k, hk⟩ := ih
      exact ⟨k + 1, ReachH.step hk hoff he⟩
  · rintro ⟨k, hk⟩
    induction hk with
    | refl => exact ReachE.refl
    | step hr hoff he ih => exact ReachE.step ih hoff he

/-- A voxel an admitted path reaches from the start. -/
def ReachableW (enter : Pos → Option ℕ) (s v : Pos) : Prop :=
  ∃ c, ReachE enter s v c

/-- Least admitted-path cost (0 when unreachable). -/
noncomputable def distW (enter : Pos → Option ℕ) (s v : Pos) : ℕ :=
  sInf {c | ReachE enter s v c}

/-- Least hop count among least-cost admitted paths. -/
noncomputable def hopsW (enter : Pos → Option ℕ) (s v : Pos) : ℕ :=
  sInf {k | ReachH enter s v (distW enter s v) k}

theorem distW_le {enter : Pos → Option ℕ} {s v : Pos} {c : ℕ}
    (h : ReachE enter s v c) : distW enter s v ≤ c :=
  Nat.sInf_le h

theorem reachE_distW {enter : Pos → Option ℕ} {s v : Pos}
    (h : ReachableW enter s v) : ReachE enter s v (distW enter s v) :=
  Nat.sInf_mem h

theorem reachH_hopsW {enter : Pos → Option ℕ} {s v : Pos}
    (h : ReachableW enter s v) :
    ReachH enter s v (distW enter s v) (hopsW enter s v) :=
  Nat.sInf_mem ((reachE_iff_reachH enter s v _).mp (reachE_distW h))

theorem hopsW_le {enter : Pos → Option ℕ} {s v : Pos} {k : ℕ}
    (h : ReachH enter s v (distW enter s v) k) : hopsW enter s v ≤ k :=
  Nat.sInf_le h

/-- One channel of the single-source steady state. -/
noncomputable def claimed1Ch (enter : Pos → Option ℕ) (s : Pos) (col : RGB)
    (v : Pos) (i : ℕ) : ℕ :=
  sSup {m | ∃ c, ReachE enter s v c ∧ m = col.channel i - c}

/-- The single-source steady state as an RGB value. -/
noncomputable def claimed1RGB (enter : Pos → Option ℕ) (s : Pos) (col : RGB)
    (v : Pos) : RGB :=
  ⟨claimed1Ch enter s col v 0, claimed1Ch enter s col v 1,
   claimed1Ch enter s col v 2⟩

theorem claimed1Set_bddAbove (enter : Pos → Option ℕ) (s : Pos) (col : RGB)
    (v : Pos) (i : ℕ) :
    BddAbove {m | ∃ c, ReachE enter s v c ∧ m = col.channel i - c} := by
  refine ⟨col.channel i, ?_⟩
  rintro m ⟨c, _, rfl⟩
  exact Nat.sub_le _ _

theorem claimed1Ch_ge {enter : Pos → Option ℕ} {s : Pos} {col : RGB}
    {v : Pos} {i m : ℕ}
    (hm : ∃ c, ReachE enter s v c ∧ m = col.channel i - c) :
    m ≤ claimed1Ch enter s col v i :=
  le_csSup (claimed1Set_bddAbove enter s col v i) hm

theorem claimed1Ch_le {enter : Pos → Option ℕ} {s : Pos} {col : RGB}
    {v : Pos} {i b : ℕ}
    (hb : ∀ m, (∃ c, ReachE enter s v c ∧ m = col.channel i - c) → m ≤ b) :
    claimed1Ch enter s col v i ≤ b :=
  csSup_le' hb

theorem claimed1RGB_channel (enter : Pos → Option ℕ) (s : Pos) (col : RGB)
    (v : Pos) (i : ℕ) :
    (claimed1RGB enter s col v).channel i = claimed1Ch enter s col v i := by
  match i with
  | 0 => rfl
  | 1 => rfl
  | n + 2 => rfl

/-- The single-source steady state is superstable along admitted edges. -/
theorem claimed1_superstable (enter : Pos → Option ℕ) (s : Pos) (col : RGB) :
    ∀ p off k, off ∈ offsets → enter (Pos.add p off) = some k →
      RGB.Le ((claimed1RGB enter s col p).sub k)
        (claimed1RGB enter s col (Pos.add p off)) := by
  intro p off k hoff he
  rw [RGB.le_iff_channel]
  intro i
  rw [RGB.channel_sub, claimed1RGB_channel, claimed1RGB_channel]
  rw [Nat.sub_le_iff_le_add]
  apply claimed1Ch_le
  rintro m ⟨c, hreach, rfl⟩
  have hmem : col.channel i - (c + k)
      ≤ claimed1Ch enter s col (Pos.add p off) i :=
    claimed1Ch_ge ⟨c + k, ReachE.step hreach hoff he, rfl⟩
  omega

/-- The seed is a lower bound at its own voxel. -/
theorem claimed1_seed_le (enter : Pos → Option ℕ) (s : Pos) (col : RGB) :
    RGB.Le col (claimed1RGB enter s col s) := by
  rw [RGB.le_iff_channel]
  intro i
  rw [claimed1RGB_channel]
  exact claimed1Ch_ge ⟨0, ReachE.refl, (Nat.sub_zero _).symm⟩

/-- Closed form: one channel of the steady state of a reachable voxel
is the seed channel truncated-minus the least path cost. -/
theorem claimed1Ch_eq_dist {enter : Pos → Option ℕ} {s v : Pos}
    (col : RGB) (i : ℕ) (hr : ReachableW enter s v) :
    claimed1Ch enter s col v i = col.channel i - distW enter s v := by
  apply le_antisymm
  · apply claimed1Ch_le
    rintro m ⟨c, hc, rfl⟩
    have := distW_le hc
    omega
  · exact claimed1Ch_ge ⟨distW enter s v, reachE_distW hr, rfl⟩

/-- An unreachable voxel's steady-state channel is zero. -/
theorem claimed1Ch_unreachable {enter : Pos → Option ℕ} {s v : Pos}
    (col : RGB) (i : ℕ) (hr : ¬ ReachableW enter s v) :
    claimed1Ch enter s col v i = 0 := by
  have hempty : {m | ∃ c, ReachE enter s v c ∧ m = col.channel i - c}
      = (∅ : Set ℕ) := by
    ext m
    simp only [Set.mem_setOf_eq, Set.mem_empty_iff_false, iff_false]
    rintro ⟨c, hc, _⟩
    exact hr ⟨c, hc⟩
  unfold claimed1Ch
  rw [hempty, csSup_empty]
  rfl

theorem RGB.sub_zero_self (c : RGB) : c.sub 0 = c := by
  cases c
  simp [RGB.sub]

theorem claimed1RGB_eq_dist {enter : Pos → Option ℕ} {s v : Pos}
    (col : RGB) (hr : ReachableW enter s v) :
    claimed1RGB enter s col v = col.sub (distW enter s v) := by
  unfold claimed1RGB
  rw [claimed1Ch_eq_dist col 0 hr, claimed1Ch_eq_dist col 1 hr,
    claimed1Ch_eq_dist col 2 hr]
  rfl

theorem claimed1RGB_unreachable {enter : Pos → Option ℕ} {s v : Pos}
    (col : RGB) (hr : ¬ ReachableW enter s v) :
    claimed1RGB enter s col v = RGB.black := by
  unfold claimed1RGB
  rw [claimed1Ch_unreachable col 0 hr, claimed1Ch_unreachable col 1 hr,
    claimed1Ch_unreachable col 2 hr]
  rfl

theorem reachH_succ_inv {enter : Pos → Option ℕ} {s v : Pos} {c k : ℕ}
    (h : ReachH enter s v c (k + 1)) :
    ∃ p off j c0, off ∈ offsets ∧ enter (Pos.add p off) = some j
      ∧ v = Pos.add p off ∧ c = c0 + j ∧ ReachH enter s p c0 k := by
  cases h with
  | step hp hoff he => exact ⟨_, _, _, _, hoff, he, rfl, rfl, hp⟩

theorem reachH_zero_inv {enter : Pos → Option ℕ} {s v : Pos} {c : ℕ}
    (h : ReachH enter s v c 0) : v = s ∧ c = 0 := by
  cases h with
  | refl => exact ⟨rfl, rfl⟩

theorem hopsW_zero {enter : Pos → Option ℕ} {s v : Pos}
    (hr : ReachableW enter s v) (h : hopsW enter s v = 0) : v = s :=
  (reachH_zero_inv (h ▸ reachH_hopsW hr)).1

/-- Every reachable voxel other than the start has a parent along a
least-cost path with strictly fewer minimal hops. -/
theorem parent_of_hops {enter : Pos → Option ℕ} {s v : Pos} {k : ℕ}
    (hr : ReachableW enter s v) (hk : hopsW enter s v = k + 1) :
    ∃ p j off, off ∈ offsets ∧ v = Pos.add p off ∧ enter v = some j
      ∧ ReachableW enter s p
      ∧ distW enter s v = distW enter s p + j
      ∧ hopsW enter s p ≤ k := by
  obtain ⟨p, off, j, c0, hoff, he, hveq, hceq, hp⟩ :=
    reachH_succ_inv (hk ▸ reachH_hopsW hr)
  have hpE : ReachE enter s p c0 :=
    (reachE_iff_reachH enter s p c0).mpr ⟨k, hp⟩
  have hrp : ReachableW enter s p := ⟨c0, hpE⟩
  have hc0_ge : distW enter s p ≤ c0 := distW_le hpE
  have hext : ReachE enter s (Pos.add p off) (distW enter s p + j) :=
    ReachE.step (reachE_distW hrp) hoff he
  subst hveq
  have hdv_le : distW enter s (Pos.add p off) ≤ distW enter s p + j :=
    distW_le hext
  have hc0 : c0 = distW enter s p := by omega
  refine ⟨p, j, off, hoff, rfl, he, hrp, by omega, hopsW_le (hc0 ▸ hp)⟩

theorem enterW_some_inv {wd : TWorld} {a : ℕ} {n : Pos} {k : ℕ}
    (h : enterW wd a n = some k) :
    wd.getOpacity n ≠ 255 ∧ k = min 255 (a + wd.getOpacity n) := by
  unfold enterW at h
  by_cases hop : wd.getOpacity n = 255
  · rw [if_pos hop] at h
    exact absurd h (by simp)
  · rw [if_neg hop] at h
    exact ⟨hop, (Option.some.inj h).symm⟩

theorem enterW_setLight (wd : TWorld) (p : Pos) (c : RGB) (a : ℕ) :
    enterW (wd.setLight p c) a = enterW wd a := by
  funext n
  unfold enterW
  rw [TWorld.setLight_getOpacity]

/-- Core of the single-seed characterization: the worklist run from a
fresh lightmap holding only the seed reaches the single-source steady
state at every in-bounds voxel. -/
theorem floodRun_single_getp (w h d : ℕ) (opc : ℤ → ℤ → ℤ → ℕ) (s : Pos)
    (col : RGB) (a : ℕ) (hin : inb w h d s) (v : Pos) (hv : inb w h d v) :
    (floodRun (enterW ⟨Lightmap.new w h d, opc⟩ a)
        ((Lightmap.new w h d).setp s col) [s]).1.getp v
      = claimed1RGB (enterW ⟨Lightmap.new w h d, opc⟩ a) s col v := by
  set enter : Pos → Option ℕ := enterW ⟨Lightmap.new w h d, opc⟩ a with hent
  set lm1 : Lightmap := (Lightmap.new w h d).setp s col with hlm1
  have hdim1 : lm1.dims = (w, h, d) := rfl
  have hpin1 : ∀ p, lm1.PIn p ↔ inb w h d p := Lightmap.pin_iff_dims hdim1
  have hwf1 : lm1.Wf := Lightmap.setp_wf (Lightmap.new_wf w h d) s col
  have hpin0 : (Lightmap.new w h d).PIn s :=
    (Lightmap.pin_iff_dims rfl s).mpr hin
  have Henter : ∀ n k, enter n = some k → lm1.PIn n := by
    intro n k he
    rw [hpin1]
    exact (Lightmap.pin_iff_dims rfl n).mp
      (getOpacity_pin (enterW_some_inv he).1)
  have hinv : FloodInv enter lm1.maxChan lm1 [s] := by
    refine ⟨hwf1, maxChan_bound lm1, ?_, Henter⟩
    intro x hx
    rw [List.mem_singleton] at hx
    subst hx
    exact (hpin1 x).mpr hin
  have hfuel_ok : ([s] : List Pos).length + pot lm1.maxChan lm1.data + 1
      ≤ floodFuel lm1 [s] := by
    unfold floodFuel
    have h1 := pot_le lm1.maxChan lm1.data
    have h2 : lm1.data.length * (3 * lm1.maxChan)
        = 3 * lm1.maxChan * lm1.data.length := by ring
    omega
  have hrun2 : (flood enter (floodFuel lm1 [s]) lm1 [s]).2 = [] :=
    (flood_run enter lm1.maxChan (floodFuel lm1 [s]) lm1 [s] hinv
      hfuel_ok).1
  have hrundims : (flood enter (floodFuel lm1 [s]) lm1 [s]).1.dims
      = (w, h, d) :=
    (flood_dims enter (floodFuel lm1 [s]) lm1 [s]).1.trans hdim1
  have hupper : ∀ p, inb w h d p →
      RGB.Le ((flood enter (floodFuel lm1 [s]) lm1 [s]).1.getp p)
        (claimed1RGB enter s col p) := by
    intro p hp
    refine flood_upper (claimed1RGB enter s col) enter lm1.maxChan _
      (claimed1_superstable enter s col) lm1 [s] hinv ?_ p
      ((Lightmap.pin_iff_dims hrundims p).mpr hp)
    intro v1 hv1
    by_cases hvs : v1 = s
    · rw [hvs, hlm1, Lightmap.getp_setp_self (Lightmap.new_wf w h d) hpin0 col]
      exact claimed1_seed_le enter s col
    · have hv1' : (Lightmap.new w h d).PIn v1 :=
        (Lightmap.pin_iff_dims rfl v1).mpr ((hpin1 v1).mp hv1)
      rw [hlm1, Lightmap.getp_setp_ne
        (fun hc => hvs (Lightmap.pidx_inj hpin0 hv1' hc).symm) col,
        Lightmap.getp_new]
      exact RGB.black_le _
  have hpend0 : Pending enter lm1 [s] := by
    intro p hp hnq off hoff k he
    have hps : p ≠ s := by
      intro hc
      subst hc
      exact hnq (List.mem_singleton_self _)
    have hp' : (Lightmap.new w h d).PIn p :=
      (Lightmap.pin_iff_dims rfl p).mpr ((hpin1 p).mp hp)
    have hblack : lm1.getp p = RGB.black := by
      rw [hlm1, Lightmap.getp_setp_ne
        (fun hc => hps (Lightmap.pidx_inj hpin0 hp' hc).symm) col,
        Lightmap.getp_new]
    rw [hblack, RGB.black_sub]
    exact RGB.black_le _
  have hrel : ∀ p, (flood enter (floodFuel lm1 [s]) lm1 [s]).1.PIn p →
      ∀ off ∈ offsets, ∀ k, enter (p.add off) = some k →
      RGB.Le (((flood enter (floodFuel lm1 [s]) lm1 [s]).1.getp p).sub k)
        ((flood enter (floodFuel lm1 [s]) lm1 [s]).1.getp (p.add off)) := by
    intro p hp off hoff k he
    have hpend := flood_pending enter lm1.maxChan (floodFuel lm1 [s]) lm1
      [s] hinv hpend0
    exact hpend p hp (by rw [hrun2]; exact List.not_mem_nil _) off hoff k he
  have hlower : ∀ i, claimed1Ch enter s col v i
      ≤ ((flood enter (floodFuel lm1 [s]) lm1 [s]).1.getp v).channel i := by
    intro i
    apply claimed1Ch_le
    rintro m ⟨c, hr, rfl⟩
    have hsin : (flood enter (floodFuel lm1 [s]) lm1 [s]).1.PIn s :=
      (Lightmap.pin_iff_dims hrundims s).mpr hin
    have hstart : RGB.Le col
        ((flood enter (floodFuel lm1 [s]) lm1 [s]).1.getp s) := by
      refine RGB.Le.trans ?_
        (flood_getp_mono enter (floodFuel lm1 [s]) lm1 [s] s)
      rw [hlm1, Lightmap.getp_setp_self (Lightmap.new_wf w h d) hpin0 col]
      exact RGB.Le.refl col
    have Henter_r : ∀ n k, enter n = some k →
        (flood enter (floodFuel lm1 [s]) lm1 [s]).1.PIn n := by
      intro n k he
      rw [Lightmap.pin_iff_dims hrundims]
      exact (hpin1 n).mp (Henter n k he)
    exact reach_lower Henter_r hrel hsin hr hstart i
  show (flood enter (floodFuel lm1 [s]) lm1 [s]).1.getp v = _
  apply (RGB.eq_iff_channel _ _).mpr
  intro i
  rw [claimed1RGB_channel]
  refine le_antisymm ?_ (hlower i)
  have h1 := hupper v hv
  rw [RGB.le_iff_channel] at h1
  have h2 := h1 i
  rw [claimed1RGB_channel] at h2
  exact h2

/-- Single-seed characterization of the test-world propagator over a
fresh all-black lightmap: the result keeps the region's shape and its
opacity function, and reads exactly the single-source steady state at
every coordinate, in or out of the region. -/
theorem propagateW_single (w h d : ℕ) (opc : ℤ → ℤ → ℤ → ℕ) (s : Pos)
    (col : RGB) (a : ℕ) (hin : inb w h d s) :
    (seedAndPropagateW ⟨Lightmap.new w h d, opc⟩ [(s, col)] a).lm.dims
        = (w, h, d)
    ∧ (seedAndPropagateW ⟨Lightmap.new w h d, opc⟩ [(s, col)] a).lm.Wf
    ∧ (seedAndPropagateW ⟨Lightmap.new w h d, opc⟩ [(s, col)] a).opac = opc
    ∧ ∀ v,
      (seedAndPropagateW ⟨Lightmap.new w h d, opc⟩ [(s, col)] a).getLight v
        = claimed1RGB (enterW ⟨Lightmap.new w h d, opc⟩ a) s col v := by
  have hpin0 : (Lightmap.new w h d).PIn s :=
    (Lightmap.pin_iff_dims rfl s).mpr hin
  have hwdS : (⟨Lightmap.new w h d, opc⟩ : TWorld).setLight s col
      = ⟨(Lightmap.new w h d).setp s col, opc⟩ := by
    unfold TWorld.setLight
    rw [if_pos hpin0]
  have henter1 : enterW (⟨(Lightmap.new w h d).setp s col, opc⟩ : TWorld) a
      = enterW (⟨Lightmap.new w h d, opc⟩ : TWorld) a := by
    rw [← hwdS]
    exact enterW_setLight _ s col a
  have hprop : seedAndPropagateW (⟨Lightmap.new w h d, opc⟩ : TWorld)
      [(s, col)] a
      = ⟨(floodRun (enterW (⟨Lightmap.new w h d, opc⟩ : TWorld) a)
          ((Lightmap.new w h d).setp s col) [s]).1, opc⟩ := by
    unfold seedAndPropagateW propagateW
    simp only [List.foldl_cons, List.foldl_nil, List.map_cons,
      List.map_nil]
    rw [hwdS, henter1]
  rw [hprop]
  have hdim1 : ((Lightmap.new w h d).setp s col).dims = (w, h, d) := rfl
  have hrdims : (floodRun (enterW (⟨Lightmap.new w h d, opc⟩ : TWorld) a)
      ((Lightmap.new w h d).setp s col) [s]).1.dims = (w, h, d) :=
    (flood_dims _ _ _ _).1.trans hdim1
  refine ⟨hrdims, ?_, rfl, ?_⟩
  · unfold Lightmap.Wf
    have h2 := (flood_dims (enterW (⟨Lightmap.new w h d, opc⟩ : TWorld) a)
      (floodFuel ((Lightmap.new w h d).setp s col) [s])
      ((Lightmap.new w h d).setp s col) [s]).2
    have hwf1 : ((Lightmap.new w h d).setp s col).Wf :=
      Lightmap.setp_wf (Lightmap.new_wf w h d) s col
    unfold Lightmap.Wf at hwf1
    unfold Lightmap.dims at hrdims
    rw [show (floodRun (enterW (⟨Lightmap.new w h d, opc⟩ : TWorld) a)
        ((Lightmap.new w h d).setp s col) [s]).1.width = w from
        congrArg Prod.fst hrdims,
      show (floodRun (enterW (⟨Lightmap.new w h d, opc⟩ : TWorld) a)
        ((Lightmap.new w h d).setp s col) [s]).1.height = h from
        congrArg (fun t : ℕ × ℕ × ℕ => t.2.1) hrdims,
      show (floodRun (enterW (⟨Lightmap.new w h d, opc⟩ : TWorld) a)
        ((Lightmap.new w h d).setp s col) [s]).1.depth = d from
        congrArg (fun t : ℕ × ℕ × ℕ => t.2.2) hrdims]
    exact h2.trans hwf1
  · intro v
    by_cases hv : inb w h d v
    · have hpinr : (floodRun (enterW (⟨Lightmap.new w h d, opc⟩ : TWorld) a)
          ((Lightmap.new w h d).setp s col) [s]).1.PIn v :=
        (Lightmap.pin_iff_dims hrdims v).mpr hv
      unfold TWorld.getLight
      rw [if_pos hpinr]
      exact floodRun_single_getp w h d opc s col a hin v hv
    · have hnr : ¬ ReachableW (enterW (⟨Lightmap.new w h d, opc⟩ : TWorld) a)
          s v := by
        rintro ⟨c, hr⟩
        rcases ReachE_end hr with rfl | ⟨k, hk⟩
        · exact hv hin
        · exact hv ((Lightmap.pin_iff_dims rfl v).mp
            (getOpacity_pin (enterW_some_inv hk).1))
      unfold TWorld.getLight
      rw [if_neg ?_, claimed1RGB_unreachable col hnr]
      intro hc
      exact hv ((Lightmap.pin_iff_dims hrdims v).mp hc)

/-!
### Siphon-pass lemmas

`siphonStep` is a fold of `siphonNeighbor` over the offsets. The six
targets are pairwise distinct, so each visit reads the pre-step value of
its own neighbor and later visits never write it again.
-/

theorem TWorld.setLight_getLight_ne2 {wd : TWorld} {n v : Pos}
    (hne : n ≠ v) (c : RGB) :
    (wd.setLight n c).getLight v = wd.getLight v := by
  by_cases hv : wd.lm.PIn v
  · exact TWorld.setLight_getLight_ne hv hne c
  · have hv2 : ¬ (wd.setLight n c).lm.PIn v := by
      rw [Lightmap.pin_congr (TWorld.setLight_dims wd n c)]
      exact hv
    unfold TWorld.getLight
    rw [if_neg hv2, if_neg hv]

theorem RGB.one_le_sum_of_ne_black {c : RGB} (h : c ≠ RGB.black) :
    1 ≤ c.sum := by
  rcases c with ⟨r, g, b⟩
  by_contra hs
  apply h
  unfold RGB.sum at hs
  dsimp only at hs
  unfold RGB.black
  rw [RGB.mk.injEq]
  omega

theorem sumMap_set (l : List RGB) (i : ℕ) (c : RGB) (h : i < l.length) :
    ((l.set i c).map RGB.sum).sum + (lcell l i).sum
      = (l.map RGB.sum).sum + c.sum := by
  induction l generalizing i with
  | nil => simp at h
  | cons a t ih =>
    cases i with
    | zero =>
      simp [lcell, List.set]
      ring
    | succ i =>
      have h2 : i < t.length := by simpa using h
      have := ih i h2
      simp only [List.set, List.map_cons, List.sum_cons] at *
      have hc : lcell (a :: t) (i + 1) = lcell t i := by
        simp [lcell]
      rw [hc]
      omega

theorem TWorld.lightSum_setLight_black {wd : TWorld} (hwf : wd.lm.Wf)
    (n : Pos) :
    (wd.setLight n RGB.black).lightSum + (wd.getLight n).sum
      = wd.lightSum := by
  unfold TWorld.setLight TWorld.getLight
  by_cases hn : wd.lm.PIn n
  · rw [if_pos hn, if_pos hn]
    show ((wd.lm.setp n RGB.black).data.map RGB.sum).sum
        + (wd.lm.getp n).sum = (wd.lm.data.map RGB.sum).sum
    rw [Lightmap.setp_data, Lightmap.getp_eq_cell]
    have h1 := sumMap_set wd.lm.data (wd.lm.pidx n) RGB.black
      (Lightmap.pidx_lt_length hwf hn)
    have h0 : RGB.sum RGB.black = 0 := rfl
    omega
  · rw [if_neg hn, if_neg hn]
    show wd.lightSum + RGB.black.sum = wd.lightSum
    rfl

theorem pos_add_left_inj {p o1 o2 : Pos} (h : Pos.add p o1 = Pos.add p o2) :
    o1 = o2 := by
  have h1 := congrArg Prod.fst h
  have h2 := congrArg (fun t : Pos => t.2.1) h
  have h3 := congrArg (fun t : Pos => t.2.2) h
  dsimp only [Pos.add] at h1 h2 h3
  refine Prod.ext ?_ (Prod.ext ?_ ?_) <;> omega

theorem offsets_nodup : offsets.Nodup := by decide

/-- The neighbor fold of one popped siphon entry, over an arbitrary
offset list. -/
def siphonFold (a : ℕ) (old : RGB) (p : Pos) (l : List Pos)
    (s : TWorld × List (Pos × RGB) × List Pos) :
    TWorld × List (Pos × RGB) × List Pos :=
  l.foldl (fun s off => siphonNeighbor a old (p.add off) s) s

theorem siphonStep_eq_fold (a : ℕ) (old : RGB) (p : Pos)
    (s : TWorld × List (Pos × RGB) × List Pos) :
    siphonStep a old p s = siphonFold a old p offsets s := rfl

theorem siphonFold_cons (a : ℕ) (old : RGB) (p off : Pos) (l : List Pos)
    (s : TWorld × List (Pos × RGB) × List Pos) :
    siphonFold a old p (off :: l) s
      = siphonFold a old p l (siphonNeighbor a old (p.add off) s) := rfl

theorem siphonNeighbor_cases (a : ℕ) (old : RGB) (n : Pos)
    (s : TWorld × List (Pos × RGB) × List Pos) :
    (s.1.getLight n = old.sub (min 255 (a + s.1.getOpacity n))
      ∧ s.1.getLight n ≠ RGB.black
      ∧ siphonNeighbor a old n s
        = (s.1.setLight n RGB.black, s.2.1 ++ [(n, s.1.getLight n)], s.2.2))
    ∨ siphonNeighbor a old n s = (s.1, s.2.1, s.2.2 ++ [n]) := by
  unfold siphonNeighbor
  by_cases hc : s.1.getLight n = old.sub (min 255 (a + s.1.getOpacity n))
      ∧ s.1.getLight n ≠ RGB.black
  · rw [if_pos hc]
    exact Or.inl ⟨hc.1, hc.2, rfl⟩
  · rw [if_neg hc]
    exact Or.inr rfl

theorem siphonNeighbor_shape (a : ℕ) (old : RGB) (n : Pos)
    (s : TWorld × List (Pos × RGB) × List Pos) :
    (siphonNeighbor a old n s).1.lm.dims = s.1.lm.dims
    ∧ (siphonNeighbor a old n s).1.opac = s.1.opac
    ∧ (s.1.lm.Wf → (siphonNeighbor a old n s).1.lm.Wf) := by
  rcases siphonNeighbor_cases a old n s with ⟨_, _, heq⟩ | heq <;> rw [heq]
  · exact ⟨TWorld.setLight_dims _ _ _, TWorld.setLight_opacFn _ _ _,
      fun hwf => TWorld.setLight_wf hwf _ _⟩
  · exact ⟨rfl, rfl, fun hwf => hwf⟩

theorem TWorld.getOpacity_eq_of {wd wd2 : TWorld}
    (hd : wd2.lm.dims = wd.lm.dims) (ho : wd2.opac = wd.opac) (v : Pos) :
    wd2.getOpacity v = wd.getOpacity v := by
  unfold TWorld.getOpacity
  have hpin : wd2.lm.PIn v ↔ wd.lm.PIn v := by
    rw [Lightmap.pin_congr hd]
  by_cases hv : wd.lm.PIn v
  · rw [if_pos hv, if_pos (hpin.mpr hv), ho]
  · rw [if_neg hv, if_neg (fun hc => hv (hpin.mp hc))]

theorem siphonFold_shape (a : ℕ) (old : RGB) (p : Pos) (l : List Pos) :
    ∀ s, (siphonFold a old p l s).1.lm.dims = s.1.lm.dims
    ∧ (siphonFold a old p l s).1.opac = s.1.opac
    ∧ (s.1.lm.Wf → (siphonFold a old p l s).1.lm.Wf) := by
  induction l with
  | nil => intro s; exact ⟨rfl, rfl, fun hwf => hwf⟩
  | cons off t ih =>
    intro s
    rw [siphonFold_cons]
    obtain ⟨h1, h2, h3⟩ := ih (siphonNeighbor a old (p.add off) s)
    obtain ⟨g1, g2, g3⟩ := siphonNeighbor_shape a old (p.add off) s
    exact ⟨h1.trans g1, h2.trans g2, fun hwf => h3 (g3 hwf)⟩

theorem siphonNeighbor_blacken (a : ℕ) (old : RGB) (n : Pos)
    (s : TWorld × List (Pos × RGB) × List Pos) (hwf : s.1.lm.Wf) (v : Pos) :
    (siphonNeighbor a old n s).1.getLight v = s.1.getLight v
    ∨ (siphonNeighbor a old n s).1.getLight v = RGB.black := by
  rcases siphonNeighbor_cases a old n s with ⟨_, _, heq⟩ | heq <;> rw [heq]
  · by_cases hvn : n = v
    · subst hvn
      by_cases hp : s.1.lm.PIn n
      · exact Or.inr (TWorld.setLight_getLight_self hwf hp RGB.black)
      · refine Or.inr ?_
        show (s.1.setLight n RGB.black).getLight n = RGB.black
        unfold TWorld.setLight
        rw [if_neg hp]
        unfold TWorld.getLight
        rw [if_neg hp]
    · exact Or.inl (TWorld.setLight_getLight_ne2 hvn RGB.black)
  · exact Or.inl rfl

theorem siphonFold_blacken (a : ℕ) (old : RGB) (p : Pos) (l : List Pos) :
    ∀ s, s.1.lm.Wf → ∀ v,
    (siphonFold a old p l s).1.getLight v = s.1.getLight v
    ∨ (siphonFold a old p l s).1.getLight v = RGB.black := by
  induction l with
  | nil => intro s _ v; exact Or.inl rfl
  | cons off t ih =>
    intro s hwf v
    rw [siphonFold_cons]
    have hwf2 := (siphonNeighbor_shape a old (p.add off) s).2.2 hwf
    rcases ih (siphonNeighbor a old (p.add off) s) hwf2 v with h | h
    · rw [h]
      exact siphonNeighbor_blacken a old (p.add off) s hwf v
    · exact Or.inr h

theorem siphonFold_untouched (a : ℕ) (old : RGB) (p : Pos) (l : List Pos) :
    ∀ s (v : Pos), (∀ off ∈ l, p.add off ≠ v) →
    (siphonFold a old p l s).1.getLight v = s.1.getLight v := by
  induction l with
  | nil => intro s v _; rfl
  | cons off t ih =>
    intro s v hne
    rw [siphonFold_cons,
      ih _ v (fun o ho => hne o (List.mem_cons_of_mem _ ho))]
    rcases siphonNeighbor_cases a old (p.add off) s with ⟨_, _, heq⟩ | heq <;>
      rw [heq]
    exact TWorld.setLight_getLight_ne2 (hne off (List.mem_cons_self _ _)) _

theorem siphonFold_queue_mono (a : ℕ) (old : RGB) (p : Pos) (l : List Pos) :
    ∀ s, ∃ ext, (siphonFold a old p l s).2.1 = s.2.1 ++ ext := by
  induction l with
  | nil => intro s; exact ⟨[], (List.append_nil _).symm⟩
  | cons off t ih =>
    intro s
    obtain ⟨ext, hext⟩ := ih (siphonNeighbor a old (p.add off) s)
    rcases siphonNeighbor_cases a old (p.add off) s with ⟨_, _, heq⟩ | heq
    · rw [siphonFold_cons, hext, heq]
      exact ⟨(p.add off, s.1.getLight (p.add off)) :: ext, by simp⟩
    · rw [siphonFold_cons, hext, heq]
      exact ⟨ext, rfl⟩

theorem siphonFold_queue_new (a : ℕ) (old : RGB) (p : Pos) (l : List Pos) :
    ∀ s, l.Nodup →
    ∃ ext, (siphonFold a old p l s).2.1 = s.2.1 ++ ext
      ∧ ∀ e ∈ ext, (∃ off ∈ l, e.1 = p.add off)
        ∧ e.2 = s.1.getLight e.1 ∧ e.2 ≠ RGB.black := by
  induction l with
  | nil =>
    intro s _
    refine ⟨[], (List.append_nil _).symm, ?_⟩
    intro e he
    exact absurd he (List.not_mem_nil _)
  | cons off t ih =>
    intro s hnd
    have hofft : off ∉ t := (List.nodup_cons.mp hnd).1
    have hnd2 : t.Nodup := (List.nodup_cons.mp hnd).2
    rw [siphonFold_cons]
    obtain ⟨ext, hext, hcert⟩ := ih (siphonNeighbor a old (p.add off) s) hnd2
    rcases siphonNeighbor_cases a old (p.add off) s with ⟨hm, hnb, heq⟩ | heq
    · refine ⟨(p.add off, s.1.getLight (p.add off)) :: ext, ?_, ?_⟩
      · rw [hext, heq]
        simp
      · intro e he
        rcases List.mem_cons.mp he with he0 | he1
        · rw [he0]
          exact ⟨⟨off, List.mem_cons_self _ _, rfl⟩, rfl, hnb⟩
        · obtain ⟨⟨o2, ho2, hee⟩, he2, he3⟩ := hcert e he1
          have hne : p.add off ≠ e.1 := by
            rw [hee]
            intro hc
            apply hofft
            rw [pos_add_left_inj hc]
            exact ho2
          refine ⟨⟨o2, List.mem_cons_of_mem _ ho2, hee⟩, ?_, he3⟩
          rw [he2, heq]
          exact TWorld.setLight_getLight_ne2 hne RGB.black
    · refine ⟨ext, ?_, ?_⟩
      · rw [hext, heq]
      · intro e he
        obtain ⟨⟨o2, ho2, hee⟩, he2, he3⟩ := hcert e he
        refine ⟨⟨o2, List.mem_cons_of_mem _ ho2, hee⟩, ?_, he3⟩
        rw [he2, heq]

theorem siphonFold_zeroes (a : ℕ) (old : RGB) (p : Pos) (l : List Pos) :
    ∀ s, s.1.lm.Wf → l.Nodup → ∀ off0 ∈ l,
    s.1.getLight (p.add off0)
      = old.sub (min 255 (a + s.1.getOpacity (p.add off0))) →
    s.1.getLight (p.add off0) ≠ RGB.black →
    (siphonFold a old p l s).1.getLight (p.add off0) = RGB.black := by
  induction l with
  | nil =>
    intro s _ _ off0 h0
    exact absurd h0 (List.not_mem_nil _)
  | cons off t ih =>
    intro s hwf hnd off0 h0 hm hnb
    have hofft : off ∉ t := (List.nodup_cons.mp hnd).1
    have hnd2 : t.Nodup := (List.nodup_cons.mp hnd).2
    rw [siphonFold_cons]
    rcases List.mem_cons.mp h0 with h00 | h0t
    · subst h00
      have heq : siphonNeighbor a old (p.add off0) s
          = (s.1.setLight (p.add off0) RGB.black,
             s.2.1 ++ [(p.add off0, s.1.getLight (p.add off0))], s.2.2) := by
        unfold siphonNeighbor
        rw [if_pos ⟨hm, hnb⟩]
      rw [heq, siphonFold_untouched a old p t _ (p.add off0) ?_]
      · by_cases hp : s.1.lm.PIn (p.add off0)
        · exact TWorld.setLight_getLight_self hwf hp RGB.black
        · show (s.1.setLight (p.add off0) RGB.black).getLight
              (p.add off0) = RGB.black
          unfold TWorld.setLight
          rw [if_neg hp]
          unfold TWorld.getLight
          rw [if_neg hp]
      · intro o2 ho2 hc
        apply hofft
        rw [← pos_add_left_inj hc]
        exact ho2
    · rcases siphonNeighbor_cases a old (p.add off) s
        with ⟨hm2, hnb2, heq⟩ | heq
      · have hne : p.add off ≠ p.add off0 := by
          intro hc
          apply hofft
          rw [pos_add_left_inj hc]
          exact h0t
        have hwf2 := (siphonNeighbor_shape a old (p.add off) s).2.2 hwf
        refine ih (siphonNeighbor a old (p.add off) s) hwf2 hnd2 off0 h0t
          ?_ ?_
        · rw [heq]
          show (s.1.setLight (p.add off) RGB.black).getLight (p.add off0)
              = old.sub (min 255 (a + (s.1.setLight (p.add off)
                RGB.black).getOpacity (p.add off0)))
          rw [TWorld.setLight_getLight_ne2 hne RGB.black,
            TWorld.getOpacity_eq_of (TWorld.setLight_dims s.1 _ _)
              (TWorld.setLight_opacFn s.1 _ _) (p.add off0)]
          exact hm
        · rw [heq]
          show (s.1.setLight (p.add off) RGB.black).getLight (p.add off0)
              ≠ RGB.black
          rw [TWorld.setLight_getLight_ne2 hne RGB.black]
          exact hnb
      · have hwf2 := (siphonNeighbor_shape a old (p.add off) s).2.2 hwf
        refine ih (siphonNeighbor a old (p.add off) s) hwf2 hnd2 off0 h0t
          ?_ ?_ <;> rw [heq]
        · exact hm
        · exact hnb

theorem siphonFold_enqueued (a : ℕ) (old : RGB) (p : Pos) (l : List Pos) :
    ∀ s (v : Pos), s.1.getLight v ≠ RGB.black →
    (siphonFold a old p l s).1.getLight v = RGB.black →
    (v, s.1.getLight v) ∈ (siphonFold a old p l s).2.1 := by
  induction l with
  | nil =>
    intro s v hnb hb
    exact absurd hb hnb
  | cons off t ih =>
    intro s v hnb hb
    rw [siphonFold_cons] at hb ⊢
    rcases siphonNeighbor_cases a old (p.add off) s
      with ⟨hm2, hnb2, heq⟩ | heq
    · by_cases hvn : p.add off = v
      · subst hvn
        obtain ⟨ext2, hq⟩ :=
          siphonFold_queue_mono a old p t (siphonNeighbor a old (p.add off) s)
        rw [hq, heq]
        simp
      · have hval : (siphonNeighbor a old (p.add off) s).1.getLight v
            = s.1.getLight v := by
          rw [heq]
          exact TWorld.setLight_getLight_ne2 hvn RGB.black
        have hres := ih (siphonNeighbor a old (p.add off) s) v
          (by rw [hval]; exact hnb) hb
        rw [hval] at hres
        exact hres
    · have hval : (siphonNeighbor a old (p.add off) s).1.getLight v
          = s.1.getLight v := by
        rw [heq]
      have hres := ih (siphonNeighbor a old (p.add off) s) v
        (by rw [hval]; exact hnb) hb
      rw [hval] at hres
      exact hres

theorem siphonNeighbor_measure (a : ℕ) (old : RGB) (n : Pos)
    (s : TWorld × List (Pos × RGB) × List Pos) (hwf : s.1.lm.Wf) :
    (siphonNeighbor a old n s).2.1.length
        + (siphonNeighbor a old n s).1.lightSum
      ≤ s.2.1.length + s.1.lightSum := by
  rcases siphonNeighbor_cases a old n s with ⟨hm, hnb, heq⟩ | heq
  · rw [heq]
    show (s.2.1 ++ [(n, s.1.getLight n)]).length
        + (s.1.setLight n RGB.black).lightSum
      ≤ s.2.1.length + s.1.lightSum
    rw [List.length_append]
    have h1 := TWorld.lightSum_setLight_black hwf n
    have h2 := RGB.one_le_sum_of_ne_black hnb
    have h3 : ([(n, s.1.getLight n)] : List (Pos × RGB)).length = 1 := rfl
    omega
  · rw [heq]

theorem siphonFold_measure (a : ℕ) (old : RGB) (p : Pos) (l : List Pos) :
    ∀ s, s.1.lm.Wf →
    (siphonFold a old p l s).2.1.length
        + (siphonFold a old p l s).1.lightSum
      ≤ s.2.1.length + s.1.lightSum := by
  induction l with
  | nil => intro s _; exact le_refl _
  | cons off t ih =>
    intro s hwf
    rw [siphonFold_cons]
    have hwf2 := (siphonNeighbor_shape a old (p.add off) s).2.2 hwf
    exact le_trans (ih _ hwf2) (siphonNeighbor_measure a old (p.add off) s hwf)

/-- The siphon invariant over the single-source world: shape is
preserved, every voxel holds its steady-state value or black, queue
entries carry their voxel's steady-state value, the seed stays black,
and every still-lit voxel has a least-cost parent of strictly smaller
minimal hop count that is queued or still lit. -/
def SInv (w h d : ℕ) (opc : ℤ → ℤ → ℤ → ℕ) (a : ℕ) (s : Pos) (col : RGB)
    (wd : TWorld) (q : List (Pos × RGB)) : Prop :=
  wd.lm.dims = (w, h, d) ∧ wd.opac = opc ∧ wd.lm.Wf
  ∧ (∀ v, wd.getLight v
        = claimed1RGB (enterW ⟨Lightmap.new w h d, opc⟩ a) s col v
      ∨ wd.getLight v = RGB.black)
  ∧ (∀ e ∈ q,
      e.2 = claimed1RGB (enterW ⟨Lightmap.new w h d, opc⟩ a) s col e.1)
  ∧ wd.getLight s = RGB.black
  ∧ (∀ v, wd.getLight v ≠ RGB.black →
      ∃ p j off, off ∈ offsets ∧ v = Pos.add p off
        ∧ enterW ⟨Lightmap.new w h d, opc⟩ a v = some j
        ∧ claimed1RGB (enterW ⟨Lightmap.new w h d, opc⟩ a) s col v
            = (claimed1RGB (enterW ⟨Lightmap.new w h d, opc⟩ a) s col p).sub j
        ∧ hopsW (enterW ⟨Lightmap.new w h d, opc⟩ a) s p
            < hopsW (enterW ⟨Lightmap.new w h d, opc⟩ a) s v
        ∧ ((p, claimed1RGB (enterW ⟨Lightmap.new w h d, opc⟩ a) s col p) ∈ q
            ∨ wd.getLight p ≠ RGB.black))

/-- One popped siphon entry preserves the invariant: a lit voxel whose
recorded parent was the popped entry is necessarily zeroed by the visit
(its value matches the expected exact derivation), and a lit parent that
this step zeroes is enqueued with its steady-state value. -/
theorem siphonStep_sinv (w h d : ℕ) (opc : ℤ → ℤ → ℤ → ℕ) (a : ℕ)
    (s : Pos) (col : RGB) (wd : TWorld) (p0 : Pos) (old : RGB)
    (rest : List (Pos × RGB)) (refills : List Pos)
    (hinv : SInv w h d opc a s col wd ((p0, old) :: rest)) :
    SInv w h d opc a s col
      (siphonStep a old p0 (wd, rest, refills)).1
      (siphonStep a old p0 (wd, rest, refills)).2.1 := by
  unfold SInv at hinv ⊢
  set enter := enterW (⟨Lightmap.new w h d, opc⟩ : TWorld) a with hent
  set F := claimed1RGB enter s col with hFdef
  obtain ⟨hdims, hopac, hwf, hval, hq, hsb, hP⟩ := hinv
  have hold : old = F p0 := hq (p0, old) (List.mem_cons_self _ _)
  rw [siphonStep_eq_fold]
  obtain ⟨hsh1, hsh2, hsh3⟩ :=
    siphonFold_shape a old p0 offsets (wd, rest, refills)
  refine ⟨hsh1.trans hdims, hsh2.trans hopac, hsh3 hwf, ?_, ?_, ?_, ?_⟩
  · intro v
    rcases siphonFold_blacken a old p0 offsets (wd, rest, refills) hwf v
      with hb | hb
    · rw [hb]
      exact hval v
    · exact Or.inr hb
  · obtain ⟨ext, hqe, hcert⟩ :=
      siphonFold_queue_new a old p0 offsets (wd, rest, refills) offsets_nodup
    rw [hqe]
    intro e he
    rcases List.mem_append.mp he with he | he
    · exact hq e (List.mem_cons_of_mem _ he)
    · obtain ⟨_, he2, he3⟩ := hcert e he
      rcases hval e.1 with hv1 | hv1
      · rw [he2]
        exact hv1
      · exact absurd (he2.trans hv1) he3
  · rcases siphonFold_blacken a old p0 offsets (wd, rest, refills) hwf s
      with hb | hb
    · rw [hb]
      exact hsb
    · exact hb
  · intro v hvlit
    have hprev : (siphonFold a old p0 offsets (wd, rest, refills)).1.getLight v
        = wd.getLight v := by
      rcases siphonFold_blacken a old p0 offsets (wd, rest, refills) hwf v
        with hb | hb
      · exact hb
      · exact absurd hb hvlit
    have hvlit0 : wd.getLight v ≠ RGB.black := by
      rw [← hprev]
      exact hvlit
    obtain ⟨p, j, off, hoff, hveq, hej, hFv, hhop, hwit⟩ := hP v hvlit0
    refine ⟨p, j, off, hoff, hveq, hej, hFv, hhop, ?_⟩
    rcases hwit with hmem | hplit
    · rcases List.mem_cons.mp hmem with hpe | hpr
      · exfalso
        have hpp : p = p0 := congrArg Prod.fst hpe
        have hFpold : F p = old := by
          rw [hold, hpp]
        have hvF : wd.getLight v = F v := by
          rcases hval v with h1 | h1
          · exact h1
          · exact absurd h1 hvlit0
        have hj := (enterW_some_inv (hent ▸ hej)).2
        have hOpEq : wd.getOpacity v
            = (⟨Lightmap.new w h d, opc⟩ : TWorld).getOpacity v :=
          @TWorld.getOpacity_eq_of ⟨Lightmap.new w h d, opc⟩ wd hdims hopac v
        have hmatch : wd.getLight v
            = old.sub (min 255 (a + wd.getOpacity v)) := by
          rw [hvF, hFv, hFpold, hj, hOpEq]
        have hv0 : v = Pos.add p0 off := by
          rw [hveq, hpp]
        have hz := siphonFold_zeroes a old p0 offsets (wd, rest, refills)
          hwf offsets_nodup off hoff (by rw [← hv0]; exact hmatch)
          (by rw [← hv0]; exact hvlit0)
        have hzv : (siphonFold a old p0 offsets (wd, rest, refills)).1.getLight v
            = RGB.black := by
          rw [hv0]
          exact hz
        exact hvlit hzv
      · obtain ⟨ext, hqe, _⟩ := siphonFold_queue_new a old p0 offsets
          (wd, rest, refills) offsets_nodup
        refine Or.inl ?_
        rw [hqe]
        exact List.mem_append_left _ hpr
    · by_cases hplit2 :
        (siphonFold a old p0 offsets (wd, rest, refills)).1.getLight p
          = RGB.black
      · have henq := siphonFold_enqueued a old p0 offsets (wd, rest, refills)
          p hplit hplit2
        have hpF : wd.getLight p = F p := by
          rcases hval p with h1 | h1
          · exact h1
          · exact absurd h1 hplit
        rw [hpF] at henq
        exact Or.inl henq
      · exact Or.inr hplit2

/-- The siphon worklist drains within the fuel `unpropagateW` supplies,
and the invariant holds at the drained state. -/
theorem siphonLoop_sinv (w h d : ℕ) (opc : ℤ → ℤ → ℤ → ℕ) (a : ℕ)
    (s : Pos) (col : RGB) (fuel : ℕ) :
    ∀ (wd : TWorld) (q : List (Pos × RGB)) (refills : List Pos),
    SInv w h d opc a s col wd q →
    q.length + wd.lightSum + 1 ≤ fuel →
    SInv w h d opc a s col (siphonLoop a fuel wd q refills).1 [] := by
  induction fuel with
  | zero =>
    intro wd q refills _ hf
    omega
  | succ f ih =>
    intro wd q refills hinv hf
    cases q with
    | nil => exact hinv
    | cons e rest =>
      rcases e with ⟨p0, old⟩
      have hwf : wd.lm.Wf := hinv.2.2.1
      have hstep := siphonStep_sinv w h d opc a s col wd p0 old rest
        refills hinv
      have hmeas : (siphonFold a old p0 offsets (wd, rest, refills)).2.1.length
          + (siphonFold a old p0 offsets (wd, rest, refills)).1.lightSum
          ≤ rest.length + wd.lightSum :=
        siphonFold_measure a old p0 offsets (wd, rest, refills) hwf
      show SInv w h d opc a s col
        (siphonLoop a f (siphonStep a old p0 (wd, rest, refills)).1
          (siphonStep a old p0 (wd, rest, refills)).2.1
          (siphonStep a old p0 (wd, rest, refills)).2.2).1 []
      refine ih _ _ _ hstep ?_
      rw [siphonStep_eq_fold]
      have hlen : ((p0, old) :: rest).length = rest.length + 1 := rfl
      omega

/-- With the queue drained, no voxel can remain lit: a lit voxel of
least minimal hop count would need a lit parent of smaller hop count. -/
theorem sinv_empty_allblack (w h d : ℕ) (opc : ℤ → ℤ → ℤ → ℕ) (a : ℕ)
    (s : Pos) (col : RGB) (wd : TWorld)
    (hinv : SInv w h d opc a s col wd []) :
    ∀ v, wd.getLight v = RGB.black := by
  obtain ⟨_, _, _, _, _, _, hP⟩ := hinv
  have key : ∀ n v,
      hopsW (enterW (⟨Lightmap.new w h d, opc⟩ : TWorld) a) s v < n →
      wd.getLight v = RGB.black := by
    intro n
    induction n with
    | zero =>
      intro v hv
      omega
    | succ m ih =>
      intro v hvn
      by_contra hv
      obtain ⟨p, j, off, _, _, _, _, hhop, hwit⟩ := hP v hv
      rcases hwit with hmem | hplit
      · exact absurd hmem (List.not_mem_nil _)
      · exact hplit (ih p (by omega))
  intro v
  exact key
    (hopsW (enterW (⟨Lightmap.new w h d, opc⟩ : TWorld) a) s v + 1) v
    (Nat.lt_succ_self _)

theorem relax_black (enter : Pos → Option ℕ) (p off : Pos)
    (st : Lightmap × List Pos) :
    relax enter RGB.black p off st = st := by
  unfold relax
  cases he : enter (p.add off) with
  | none => rfl
  | some k =>
    dsimp only
    rw [if_pos (RGB.black_sub k)]

theorem relaxFold_black (enter : Pos → Option ℕ) (p : Pos) (l : List Pos) :
    ∀ st, relaxFold enter RGB.black p l st = st := by
  induction l with
  | nil => intro st; rfl
  | cons off t ih =>
    intro st
    rw [relaxFold_cons, relax_black, ih]

/-- The worklist makes no write on an all-black store: every candidate
is fully attenuated. -/
theorem flood_black (enter : Pos → Option ℕ) (fuel : ℕ) :
    ∀ lm q, (∀ i, lcell lm.data i = RGB.black) →
    (flood enter fuel lm q).1 = lm := by
  induction fuel with
  | zero =>
    intro lm q _
    rfl
  | succ f ih =>
    intro lm q hb
    cases q with
    | nil => rfl
    | cons p rest =>
      rw [flood_succ_cons]
      have hcur : lm.getp p = RGB.black := by
        rw [Lightmap.getp_eq_cell]
        exact hb _
      have hstep : floodStep enter lm rest p = (lm, rest) := by
        rw [floodStep_eq_relaxFold, hcur, relaxFold_black]
      rw [hstep]
      exact ih lm rest hb

theorem index_decompose (w h d : ℕ) (i : ℕ) (hi : i < w * h * d) :
    ∃ x y z : ℕ, x < w ∧ y < h ∧ z < d ∧ x + y * w + z * w * h = i := by
  have hw : 0 < w := by
    rcases Nat.eq_zero_or_pos w with h0 | h0
    · rw [h0] at hi
      simp at hi
    · exact h0
  have hh : 0 < h := by
    rcases Nat.eq_zero_or_pos h with h0 | h0
    · rw [h0] at hi
      simp at hi
    · exact h0
  refine ⟨i % w, (i / w) % h, i / w / h, Nat.mod_lt _ hw, Nat.mod_lt _ hh,
    ?_, ?_⟩
  · have h1 : i / w < h * d := by
      rw [Nat.div_lt_iff_lt_mul hw]
      exact lt_of_lt_of_eq hi (by ring)
    rw [Nat.div_lt_iff_lt_mul hh]
    exact lt_of_lt_of_eq h1 (by ring)
  · have e1 := Nat.div_add_mod i w
    have e2 := Nat.div_add_mod (i / w) h
    calc i % w + (i / w) % h * w + i / w / h * w * h
        = (h * (i / w / h) + (i / w) % h) * w + i % w := by ring
      _ = (i / w) * w + i % w := by rw [e2]
      _ = w * (i / w) + i % w := by ring
      _ = i := e1

/-- When every coordinate reads black through `get_light`, every cell of
the backing vector is black. -/
theorem allblack_cells (wd : TWorld) (w h d : ℕ)
    (hdims : wd.lm.dims = (w, h, d)) (hwf : wd.lm.Wf)
    (hb : ∀ v, wd.getLight v = RGB.black) :
    ∀ i, lcell wd.lm.data i = RGB.black := by
  have hww : wd.lm.width = w := congrArg Prod.fst hdims
  have hhh : wd.lm.height = h := congrArg (fun t : ℕ × ℕ × ℕ => t.2.1) hdims
  have hdd : wd.lm.depth = d := congrArg (fun t : ℕ × ℕ × ℕ => t.2.2) hdims
  intro i
  by_cases hi : i < wd.lm.data.length
  · have hlen : wd.lm.data.length = w * h * d := by
      unfold Lightmap.Wf at hwf
      rw [hwf, hww, hhh, hdd]
    obtain ⟨x, y, z, hx, hy, hz, hxyz⟩ :=
      index_decompose w h d i (hlen ▸ hi)
    have hpin : wd.lm.PIn ((x : ℤ), (y : ℤ), (z : ℤ)) := by
      rw [Lightmap.pin_iff_dims hdims]
      unfold inb
      dsimp only
      omega
    have hpidx : wd.lm.pidx ((x : ℤ), (y : ℤ), (z : ℤ)) = i := by
      unfold Lightmap.pidx Lightmap.index toN
      dsimp only
      rw [Int.toNat_natCast, Int.toNat_natCast, Int.toNat_natCast,
        hww, hhh]
      exact hxyz
    calc lcell wd.lm.data i
        = wd.lm.getp ((x : ℤ), (y : ℤ), (z : ℤ)) := by
          rw [Lightmap.getp_eq_cell, hpidx]
      _ = wd.getLight ((x : ℤ), (y : ℤ), (z : ℤ)) := by
          unfold TWorld.getLight
          rw [if_pos hpin]
      _ = RGB.black := hb _
  · unfold lcell
    rw [List.getD_eq_getElem?_getD, List.getElem?_eq_none (by omega)]
    rfl

/-- Propagation from an all-black store is a no-op, black everywhere. -/
theorem propagateW_allblack (wd : TWorld) (seeds : List Pos) (a : ℕ)
    (hb : ∀ i, lcell wd.lm.data i = RGB.black) (v : Pos) :
    (propagateW wd seeds a).getLight v = RGB.black := by
  have hfl : (floodRun (enterW wd a) wd.lm seeds).1 = wd.lm :=
    flood_black (enterW wd a) (floodFuel wd.lm seeds) wd.lm seeds hb
  have hres : propagateW wd seeds a = ⟨wd.lm, wd.opac⟩ := by
    unfold propagateW
    rw [hfl]
  rw [hres]
  unfold TWorld.getLight
  by_cases hv : wd.lm.PIn v
  · rw [if_pos hv, Lightmap.getp_eq_cell]
    exact hb _
  · rw [if_neg hv]

/-- The invariant holds right after the seed phase of the removal
engine: the seed is zeroed and queued with its steady-state value, and
every other voxel still holds its steady-state value. -/
theorem siphonInit_sinv (w h d : ℕ) (opc : ℤ → ℤ → ℤ → ℕ) (a : ℕ)
    (s : Pos) (col : RGB) (hin : inb w h d s) :
    SInv w h d opc a s col
      ((seedAndPropagateW ⟨Lightmap.new w h d, opc⟩ [(s, col)] a).setLight
        s RGB.black)
      [(s, (seedAndPropagateW ⟨Lightmap.new w h d, opc⟩
        [(s, col)] a).getLight s)] := by
  obtain ⟨hdims, hwf, hopac, hchar⟩ := propagateW_single w h d opc s col a hin
  unfold SInv
  set wd1 := seedAndPropagateW (⟨Lightmap.new w h d, opc⟩ : TWorld)
    [(s, col)] a with hwd1
  set enter := enterW (⟨Lightmap.new w h d, opc⟩ : TWorld) a with hent
  set F := claimed1RGB enter s col with hFdef
  have hpin1 : wd1.lm.PIn s := by
    rw [Lightmap.pin_iff_dims hdims]
    exact hin
  refine ⟨?_, ?_, ?_, ?_, ?_, ?_, ?_⟩
  · exact (TWorld.setLight_dims wd1 s RGB.black).trans hdims
  · exact (TWorld.setLight_opacFn wd1 s RGB.black).trans hopac
  · exact TWorld.setLight_wf hwf s RGB.black
  · intro v
    by_cases hvs : s = v
    · refine Or.inr ?_
      rw [← hvs]
      exact TWorld.setLight_getLight_self hwf hpin1 RGB.black
    · rw [TWorld.setLight_getLight_ne2 hvs RGB.black]
      exact Or.inl (hchar v)
  · intro e he
    rw [List.mem_singleton] at he
    rw [he]
    exact hchar s
  · exact TWorld.setLight_getLight_self hwf hpin1 RGB.black
  · intro v hvlit
    have hvs : s ≠ v := by
      intro hc
      apply hvlit
      rw [← hc]
      exact TWorld.setLight_getLight_self hwf hpin1 RGB.black
    rw [TWorld.setLight_getLight_ne2 hvs RGB.black] at hvlit
    have hFv : F v ≠ RGB.black := by
      rw [← hchar v]
      exact hvlit
    have hreach : ReachableW enter s v := by
      by_contra hr
      exact hFv (claimed1RGB_unreachable col hr)
    have hh0 : hopsW enter s v ≠ 0 := by
      intro h0
      exact hvs (hopsW_zero hreach h0).symm
    obtain ⟨k, hk⟩ := Nat.exists_eq_succ_of_ne_zero hh0
    obtain ⟨p, j, off, hoff, hveq, hej, hrp, hdist, hhople⟩ :=
      parent_of_hops hreach hk
    have hFveq : F v = (F p).sub j := by
      rw [hFdef]
      rw [claimed1RGB_eq_dist col hreach, claimed1RGB_eq_dist col hrp,
        RGB.sub_sub, ← hdist]
    have hFp : F p ≠ RGB.black := by
      intro hc
      apply hFv
      rw [hFveq, hc, RGB.black_sub]
    refine ⟨p, j, off, hoff, hveq, hej, hFveq, by omega, ?_⟩
    by_cases hps : p = s
    · refine Or.inl ?_
      rw [List.mem_singleton, hps, hchar s]
    · refine Or.inr ?_
      rw [TWorld.setLight_getLight_ne2 (fun hc => hps hc.symm) RGB.black,
        hchar p]
      exact hFp

/-- Claim C2: for a single isolated light source over a fresh all-black
world — any region shape, any opacity field, any seed color, any
attenuation — `seedAndPropagateW` with that seed followed by
`unpropagateW` with the same seed and the same attenuation returns
every voxel (affected or not) to `[0, 0, 0]`: the removal engine's
siphon-and-refill exactly inverts propagation in the non-overlapping
case. -/
theorem c2_siphon_refill_inverts_propagation (w h d : ℕ)
    (opc : ℤ → ℤ → ℤ → ℕ) (s : Pos) (col : RGB) (a : ℕ)
    (hin : inb w h d s) (v : Pos) :
    (unpropagateW
      (seedAndPropagateW ⟨Lightmap.new w h d, opc⟩ [(s, col)] a)
      [s] a).getLight v = RGB.black := by
  obtain ⟨hdims, hwf, hopac, hchar⟩ :=
    propagateW_single w h d opc s col a hin
  set wd1 := seedAndPropagateW (⟨Lightmap.new w h d, opc⟩ : TWorld)
    [(s, col)] a with hwd1
  have hinv0 : SInv w h d opc a s col (wd1.setLight s RGB.black)
      [(s, wd1.getLight s)] := siphonInit_sinv w h d opc a s col hin
  have hfadeq : ([(s, wd1.getLight s)] : List (Pos × RGB)).length
      + (wd1.setLight s RGB.black).lightSum + 1
      ≤ ([(s, wd1.getLight s)] : List (Pos × RGB)).length
        + wd1.lightSum + 1 := by
    have h1 := TWorld.lightSum_setLight_black hwf s
    omega
  have hloop := siphonLoop_sinv w h d opc a s col
    (([(s, wd1.getLight s)] : List (Pos × RGB)).length + wd1.lightSum + 1)
    (wd1.setLight s RGB.black) [(s, wd1.getLight s)] [] hinv0 hfadeq
  have hball := sinv_empty_allblack w h d opc a s col _ hloop
  have hcells := allblack_cells _ w h d hloop.1 hloop.2.2.1 hball
  exact propagateW_allblack _ _ a hcells v

theorem c2_siphon_refill_inverts_propagation_witness :
    inb 3 1 1 ((1 : ℤ), (0 : ℤ), (0 : ℤ))
    ∧ (unpropagateW (seedAndPropagateW ⟨Lightmap.new 3 1 1, fun _ _ _ => 0⟩
        [(((1 : ℤ), (0 : ℤ), (0 : ℤ)), ⟨200, 150, 100⟩)] 17)
        [((1 : ℤ), (0 : ℤ), (0 : ℤ))] 17).getLight
        ((0 : ℤ), (0 : ℤ), (0 : ℤ)) = RGB.black
    ∧ (seedAndPropagateW ⟨Lightmap.new 3 1 1, fun _ _ _ => 0⟩
        [(((1 : ℤ), (0 : ℤ), (0 : ℤ)), ⟨200, 150, 100⟩)] 17).getLight
        ((0 : ℤ), (0 : ℤ), (0 : ℤ)) = ⟨183, 133, 83⟩ :=
  ⟨by decide,
   c2_siphon_refill_inverts_propagation 3 1 1 (fun _ _ _ => 0)
     ((1 : ℤ), (0 : ℤ), (0 : ℤ)) ⟨200, 150, 100⟩ 17 (by decide)
     ((0 : ℤ), (0 : ℤ), (0 : ℤ)),
   by decide⟩

end Voxxel
